import Mathlib

/-!
# big_integer: a shallow embedding of `big_integer.cpp`

Limbs are natural numbers below `2^32`, stored least significant first in a
list (`std::vector<uint32_t> arr`), together with the sign flag `is_neg`.
Every C++ loop over the limbs becomes a structural recursion; every
`uint32_t` / `uint64_t` operation is written with explicit `%` and `/` by
powers of two.
-/

namespace Bigint

/-! ## Data model -/

/-- The struct `big_integer`: `arr` (least significant limb first) and `is_neg`. -/
structure big_integer where
  arr : List Nat
  is_neg : Bool
deriving DecidableEq, Repr

/-- The constant `b = 2^32` of `knut_div`, the limb base. -/
def BASE : Nat := 4294967296

/-- The value `std::numeric_limits<uint32_t>::max()`. -/
def UINT32_MAX : Nat := 4294967295

/-- The constant `POW_10_BLOCK`. -/
def POW_10_BLOCK : Nat := 1000000000

/-- The constant `POW_10_BLOCK_SIZE`. -/
def POW_10_BLOCK_SIZE : Nat := 9

/-- Every stored limb fits a `uint32_t`. -/
def wf (a : big_integer) : Prop := ∀ x ∈ a.arr, x < BASE

instance (a : big_integer) : Decidable (wf a) :=
  inferInstanceAs (Decidable (∀ x ∈ a.arr, x < BASE))

/-- The unsigned number spelled by a limb list, least significant limb first. -/
def limbs_val : List Nat → Nat
  | [] => 0
  | x :: xs => x + BASE * limbs_val xs

/-- The integer a `big_integer` stands for: the sum of `limbs[i] * 2^(32 i)`,
minus `2^(32 n)` when the sign flag is set (`n` the number of stored limbs). -/
def value (a : big_integer) : Int :=
  (limbs_val a.arr : Int) - (if a.is_neg then (BASE : Int) ^ a.arr.length else 0)

/-- The default constructor `big_integer()`: no limbs, not negative. -/
def zero : big_integer := ⟨[], false⟩

/-- The function `get_complement`: all ones when negative, zero otherwise. -/
def get_complement (a : big_integer) : Nat :=
  if a.is_neg then UINT32_MAX else 0

/-- The function `remove_leading`: pop trailing limbs equal to the complement
word; when that empties a negative number, push the complement word back. -/
def remove_leading (a : big_integer) : big_integer :=
  let to_remove := get_complement a
  let arr := a.arr.rdropWhile (fun x => x == to_remove)
  if arr.isEmpty ∧ to_remove > 0 then ⟨arr ++ [to_remove], a.is_neg⟩
  else ⟨arr, a.is_neg⟩

/-- The function `resize`: grow to `new_size` limbs filled with `val`; never shrinks. -/
def resize (a : big_integer) (new_size val : Nat) : big_integer :=
  if new_size ≤ a.arr.length then a
  else ⟨a.arr ++ List.replicate (new_size - a.arr.length) val, a.is_neg⟩

/-- The operator `~` on one `uint32_t`. -/
def not32 (num : Nat) : Nat := (UINT32_MAX - num % BASE) % BASE

/-- The limb loop of `add_with_func`, from index `i` on: the limbs of `*this`
still to be visited are the list argument, the result is the rewritten limbs
and the carry out. -/
def add_with_func_loop (func : Nat → Nat) (rhs : big_integer) :
    Nat → List Nat → Nat → List Nat × Nat
  | _, [], carry => ([], carry)
  | i, x :: xs, carry =>
    let res := x + func (if i < rhs.arr.length then rhs.arr.getD i 0 else get_complement rhs) + carry
    let r := add_with_func_loop func rhs (i + 1) xs (res / BASE)
    (res % BASE :: r.1, r.2)

/-- The function `add_with_func`. After `resize` the vector has exactly
`new_size` limbs, so the loop `i < new_size` visits every limb. -/
def add_with_func (func : Nat → Nat) (a rhs : big_integer) (carry : Nat) : big_integer :=
  let new_size := max a.arr.length rhs.arr.length
  let a1 := resize a new_size (get_complement a)
  let r := add_with_func_loop func rhs 0 a1.arr carry
  let carry1 := (get_complement a1 + func (get_complement rhs) + r.2) % BASE
  if carry1 ≠ get_complement a1 then
    remove_leading ⟨r.1 ++ [carry1], decide (carry1 / 2147483648 ≠ 0)⟩
  else remove_leading ⟨r.1, a1.is_neg⟩

/-- The operator `+=` (and the binary `+`, which takes its left operand by value). -/
def add (a rhs : big_integer) : big_integer := add_with_func (fun num => num) a rhs 0

/-- The operator `-=` (and the binary `-`). -/
def sub (a rhs : big_integer) : big_integer := add_with_func not32 a rhs 1

/-- The limb loop of `add_int` from index `i` on, with its early `break`. -/
def add_int_loop (num_compl : Nat) : Nat → List Nat → Nat → List Nat × Nat
  | _, [], carry => ([], carry)
  | i, x :: xs, carry =>
    let res := x + (if i ≠ 0 then num_compl else 0) + carry
    let carry1 := (res / BASE) % BASE
    if carry1 = 0 ∧ num_compl = 0 then (res % BASE :: xs, carry1)
    else
      let r := add_int_loop num_compl (i + 1) xs carry1
      (res % BASE :: r.1, r.2)

/-- The function `add_int`; `num` is an `int32_t`. -/
def add_int (a : big_integer) (num : Int) : big_integer :=
  let carry := (num % (BASE : Int)).toNat
  let num_compl := if num < 0 then UINT32_MAX else 0
  let r := add_int_loop num_compl 0 a.arr carry
  let carry1 := (get_complement a + num_compl + r.2) % BASE
  if carry1 ≠ get_complement a then
    remove_leading ⟨r.1 ++ [carry1], decide (carry1 / 2147483648 ≠ 0)⟩
  else remove_leading ⟨r.1, a.is_neg⟩

/-- The function `invert_all`: complement every limb and flip the sign flag. -/
def invert_all (a : big_integer) : big_integer :=
  ⟨a.arr.map not32, !a.is_neg⟩

/-- The function `negate`. -/
def negate (a : big_integer) : big_integer := add_int (invert_all a) 1

/-- The function `absolutify`. -/
def absolutify (a : big_integer) : big_integer :=
  if a.is_neg then negate a else a

/-! ## Multiplication -/

/-- The inner loop of `operator*=` (`k` from the given index, `steps` iterations
left): row `i` of the schoolbook product, `ti = top.arr[i]`. The 64-bit
intermediate `mul` is reduced modulo `2^64`. -/
def mul_inner (ti : Nat) (bot : List Nat) (i : Nat) :
    Nat → Nat → List Nat → Nat → List Nat × Nat
  | 0, _, res, carry => (res, carry)
  | steps + 1, k, res, carry =>
    let mul := (ti * (if k ≠ bot.length then bot.getD k 0 else 0) + carry
      + res.getD (i + k) 0) % 18446744073709551616
    mul_inner ti bot i steps (k + 1) (res.set (i + k) (mul % BASE)) (mul / BASE)

/-- The outer loop of `operator*=` from row `i` on; the limbs of `top` still to
be visited are the list argument. The variable `carry` lives across rows. -/
def mul_outer (bot : List Nat) : Nat → List Nat → List Nat → Nat → List Nat × Nat
  | _, [], res, carry => (res, carry)
  | i, ti :: ts, res, carry =>
    let r := mul_inner ti bot i (bot.length + 1) 0 res carry
    mul_outer bot (i + 1) ts r.1 r.2

/-- The operator `*=` (and the binary `*`). -/
def mul (a rhs : big_integer) : big_integer :=
  let to_negate := xor a.is_neg rhs.is_neg
  let top := absolutify a
  let bot := absolutify rhs
  let res := List.replicate (top.arr.length + bot.arr.length) 0
  let r := mul_outer bot.arr 0 top.arr res 0
  let t : big_integer := ⟨r.1, top.is_neg⟩
  remove_leading (if to_negate then negate t else t)

/-- The limb loop of `small_mul`. -/
def small_mul_loop (rhs : Nat) : List Nat → Nat → List Nat × Nat
  | [], carry => ([], carry)
  | x :: xs, carry =>
    let res := (x * rhs + carry) % 18446744073709551616
    let r := small_mul_loop rhs xs (res / BASE)
    (res % BASE :: r.1, r.2)

/-- The function `small_mul`; `rhs` is a `uint32_t`. -/
def small_mul (a : big_integer) (rhs : Nat) : big_integer :=
  let a1 := absolutify a
  let r := small_mul_loop rhs a1.arr 0
  remove_leading ⟨if r.2 ≠ 0 then r.1 ++ [r.2] else r.1, a1.is_neg⟩

/-! ## Construction from machine integers -/

/-- The loop of `init_big`: an `unsigned long long` has at most two limbs. -/
def init_big_loop : Nat → Nat → List Nat
  | 0, _ => []
  | fuel + 1, a => if a > 0 then a % BASE :: init_big_loop fuel (a / BASE) else []

/-- The function `init_big` on a number whose sign flag is already set. -/
def init_big (is_neg : Bool) (a : Nat) : big_integer :=
  remove_leading ⟨init_big_loop 2 (a % 18446744073709551616), is_neg⟩

/-- The constructors from unsigned machine integers (`unsigned`, `unsigned long`,
`unsigned long long`). -/
def of_unsigned (a : Nat) : big_integer := init_big false a

/-- The constructors from signed machine integers (`int`, `long`, `long long`):
the argument is cast to `unsigned long long`. -/
def of_signed (a : Int) : big_integer :=
  init_big (decide (a < 0)) (a % 18446744073709551616).toNat

/-! ## Division -/

/-- The first loop of `div_with_rem`, `index` counting down to 1. The C++
variable `last_index` starts at `size - 1` and wraps below zero; the model
carries `last_index + 1` instead, so the wrapped value is the number 0. -/
def div_with_rem_loop (num size : Nat) : Nat → List Nat → Nat → Nat → List Nat × Nat × Nat
  | 0, arr, rem, li1 => (arr, rem, li1)
  | index + 1, arr, rem, li1 =>
    let res := rem * BASE + arr.getD index 0
    if li1 ≠ size ∨ res ≥ num then
      div_with_rem_loop num size index (arr.set (li1 - 1) (res / num % BASE)) (res % num) (li1 - 1)
    else div_with_rem_loop num size index arr (res % num) li1

/-- The second loop of `div_with_rem`: `swap(arr[i], arr[i - last_index - 1])`. -/
def div_with_rem_swap (li1 : Nat) : Nat → Nat → List Nat → List Nat
  | 0, _, arr => arr
  | steps + 1, i, arr =>
    div_with_rem_swap li1 steps (i + 1)
      ((arr.set i (arr.getD (i - li1) 0)).set (i - li1) (arr.getD i 0))

/-- The third loop of `div_with_rem`: `arr[i] = 0`. -/
def div_with_rem_clear : Nat → Nat → List Nat → List Nat
  | 0, _, arr => arr
  | steps + 1, i, arr => div_with_rem_clear steps (i + 1) (arr.set i 0)

/-- The function `div_with_rem`: the receiver after the call and the returned
remainder. `num` is a non-zero `uint32_t` (the C++ division by zero is
undefined; here `x / 0 = 0`). -/
def div_with_rem (a : big_integer) (num : Nat) : big_integer × Nat :=
  let prev_neg := a.is_neg
  let a1 := absolutify a
  let size := a1.arr.length
  let r := div_with_rem_loop num size size a1.arr 0 size
  let li1 := r.2.2
  let arr1 := div_with_rem_swap li1 (size - li1) li1 r.1
  let arr2 := div_with_rem_clear (size - (size - li1)) (size - li1) arr1
  let a2 : big_integer := ⟨arr2, a1.is_neg⟩
  (remove_leading (if prev_neg then negate a2 else a2), r.2.1)

/-- The function `get_trialed_quot` on the window at `j`; `u` is `this->arr`.
The quotient is stored in a `uint32_t`, hence the `% BASE`. -/
def get_trialed_quot (u : List Nat) (b j n : Nat) (v : List Nat) : Nat :=
  let top := (u.getD (j + n) 0 * b + u.getD (j + n - 1) 0) % 18446744073709551616
  let q_ := top / v.getLastD 0 % BASE
  let r_ := top % v.getLastD 0
  if q_ = b ∨ q_ * v.getD (n - 2) 0 % 18446744073709551616
      > (b * r_ + u.getD (j + n - 2) 0) % 18446744073709551616 then
    let q_1 := (q_ + BASE - 1) % BASE
    let r_1 := (r_ + v.getD (n - 1) 0) % 18446744073709551616
    if r_1 < b then
      if q_1 = b ∨ q_1 * v.getD (n - 2) 0 % 18446744073709551616
          > (b * r_1 + u.getD (j + n - 2) 0) % 18446744073709551616 then
        (q_1 + BASE - 1) % BASE
      else q_1
    else q_1
  else q_

/-- The function `sub_from_current_prefix`: the loop `i = 0 .. n`, returning the
rewritten `arr` and the final `carry_u`. -/
def sub_from_current_prefix (n : Nat) (v : List Nat) (q_ j : Nat) :
    Nat → Nat → List Nat → Nat → Nat → List Nat × Nat
  | 0, _, u, _, carry_u => (u, carry_u)
  | steps + 1, i, u, carry_v, carry_u =>
    let cur_v := ((if i ≠ n then v.getD i 0 else 0) * q_ + carry_v + carry_u)
      % 18446744073709551616
    let actual := cur_v % BASE
    let carry_u1 := if u.getD (j + i) 0 < actual then 1 else 0
    sub_from_current_prefix n v q_ j steps (i + 1)
      (u.set (j + i) ((u.getD (j + i) 0 + BASE - actual) % BASE)) (cur_v / BASE % BASE) carry_u1

/-- The add-back loop of `sub_q_if_overflows`. The sum
`v.arr[i] + carry_u + arr[j + i]` has three `uint32_t` operands and is formed
in 32-bit arithmetic before it is widened to `uint64_t`. -/
def sub_q_add_back (n : Nat) (v : List Nat) (j : Nat) : Nat → Nat → List Nat → Nat → List Nat
  | 0, _, u, _ => u
  | steps + 1, i, u, carry_u =>
    let cur := ((if i ≠ n then v.getD i 0 else 0) + carry_u + u.getD (j + i) 0) % BASE
    sub_q_add_back n v j steps (i + 1) (u.set (j + i) (cur % BASE)) (cur / BASE)

/-- The function `sub_q_if_overflows`: the rewritten `arr` and `q.arr`. -/
def sub_q_if_overflows (n j carry_u : Nat) (u q v : List Nat) : List Nat × List Nat :=
  if carry_u > 0 then
    (sub_q_add_back n v j (n + 1) 0 u 0, q.set j ((q.getD j 0 + BASE - 1) % BASE))
  else (u, q)

/-- The enumeration `DivType`. -/
inductive DivType where
  | Quot
  | Remainder
deriving DecidableEq, Repr

/-- How a call of `knut_div` ends: normally, with the receiver `self`; by
`throw std::invalid_argument`, `self` being the receiver at the throw; or
with undefined behaviour (a vector accessed outside its bounds). -/
inductive DivOutcome where
  | done (self : big_integer)
  | invalid_argument (self : big_integer)
  | undefined
deriving DecidableEq, Repr

/-- The main loop of `knut_div`, `j` counting down from `m` to 0; the first
argument is `j + 1`. Each pass starts by checking the vector indices the pass
uses: `q.arr[j]`, `arr[j .. j + n]`, `v.arr[0 .. n - 1]` and `n - 2`. -/
def knut_div_loop (b n : Nat) (v : List Nat) : Nat → List Nat → List Nat → Option (List Nat × List Nat)
  | 0, u, q => some (u, q)
  | j + 1, u, q =>
    if j < q.length then
      if 2 ≤ n ∧ n ≤ v.length ∧ j + n < u.length then
        let q_ := get_trialed_quot u b j n v
        let s := sub_from_current_prefix n v q_ j (n + 1) 0 u 0 0
        let r := sub_q_if_overflows n j s.2 s.1 (q.set j q_) v
        knut_div_loop b n v j r.1 r.2
      else none
    else none

/-- The function `knut_div`. `same_object` says that `rhs` is the receiver
itself (`&rhs == this`), which the binary operators never do: they take the
left operand by value. `m` is a `uint32_t` computed from `size_t` operands, and
`q.resize(m + 1, 0)` forms `m + 1` in 32 bits; both wrap when the dividend has
fewer limbs than the magnitude of the divisor. Reading `v.arr.back()` of an
empty vector is undefined. -/
def knut_div (a rhs : big_integer) (same_object : Bool) (type : DivType) : DivOutcome :=
  if rhs = of_signed 0 then .invalid_argument a
  else if rhs = of_signed 1 then
    .done (if type = .Remainder then of_signed 0 else a)
  else if same_object then
    .done (of_signed (if type = .Quot then 1 else 0))
  else if rhs.arr.length > a.arr.length then
    .done (if type = .Quot then of_signed 0 else a)
  else
    let was_neg := a.is_neg
    let res_neg := xor a.is_neg rhs.is_neg
    let a1 := absolutify a
    let v := absolutify rhs
    let n := v.arr.length
    if n = 0 then .undefined
    else if n = 1 then
      let r := div_with_rem a1 (v.arr.getLastD 0)
      if type = .Remainder then
        let t := of_unsigned r.2
        .done (if was_neg then negate t else t)
      else .done (if res_neg then negate r.1 else r.1)
    else
      let b := UINT32_MAX + 1
      let m := (a1.arr.length + 18446744073709551616 - n) % 18446744073709551616 % BASE
      let q := resize zero ((m + 1) % BASE) 0
      let d := b / (v.arr.getLastD 0 + 1) % BASE
      let a2 := small_mul a1 d
      let v1 := small_mul v d
      let a3 := resize a2 (m + n + 1) 0
      match knut_div_loop b n v1.arr (m + 1) a3.arr q.arr with
      | none => .undefined
      | some (u, qarr) =>
        if type = .Quot then
          let q1 : big_integer := ⟨qarr, q.is_neg⟩
          .done (remove_leading (if res_neg then negate q1 else q1))
        else
          let r := div_with_rem ⟨u, a3.is_neg⟩ d
          .done (remove_leading (if was_neg then negate r.1 else r.1))

/-- The binary operator `/`. -/
def div (a b : big_integer) : DivOutcome := knut_div a b false .Quot

/-- The binary operator `%`. -/
def mod (a b : big_integer) : DivOutcome := knut_div a b false .Remainder

/-! ## Decimal text -/

/-- How the constructor from a string ends: with the constructed number, or by
`throw std::invalid_argument(what)`. `out_of_fuel` is the bound of the
model running out, which `from_string` never lets happen. -/
inductive ParseOutcome where
  | done (self : big_integer)
  | invalid_argument (what : String)
  | out_of_fuel
deriving DecidableEq, Repr

/-- The function `std::isdigit` on a `char`. -/
def isdigit (c : Char) : Bool := decide (48 ≤ c.toNat ∧ c.toNat ≤ 57)

/-- The inner `for` loop of the string constructor; the arguments are
`POW_10_BLOCK_SIZE - k`, `k`, `cur_num` and the text from `str[i]` on. The
result is `none` for the `throw`, else `k`, `cur_num` and the text left. Reading
`str[i]` at the end of the text gives the terminating zero, which is no digit. -/
def from_string_block : Nat → Nat → Int → List Char → Option (Nat × Int × List Char)
  | 0, k, cur_num, str => some (k, cur_num, str)
  | _ + 1, _, _, [] => none
  | steps + 1, k, cur_num, c :: str =>
    if isdigit c = false then none
    else
      let cur_num1 := cur_num * 10 + ((c.toNat : Int) - 48)
      if str.length = 0 then some (k, cur_num1, str)
      else from_string_block steps (k + 1) cur_num1 str

/-- The loop `for (; k > 0; k--) pow *= 10` on a `uint32_t`. -/
def from_string_pow : Nat → Nat → Nat
  | 0, pow => pow
  | k + 1, pow => from_string_pow k (pow * 10 % BASE)

/-- The `while (i < str.length())` loop of the string constructor; the list is
the text from `str[i]` on, `self` the number built so far. -/
def from_string_loop : Nat → List Char → big_integer → ParseOutcome
  | _, [], self => .done self
  | 0, _ :: _, _ => .out_of_fuel
  | fuel + 1, c :: str, self =>
    match from_string_block POW_10_BLOCK_SIZE 0 0 (c :: str) with
    | none => .invalid_argument "String has to contain only numbers"
    | some (k, cur_num, rest) =>
      let self1 :=
        if k = POW_10_BLOCK_SIZE then small_mul self POW_10_BLOCK
        else small_mul self (from_string_pow k 10)
      from_string_loop fuel rest (add_int self1 cur_num)

/-- The constructor `big_integer(std::string const&)`. -/
def from_string (str : List Char) : ParseOutcome :=
  if str.isEmpty then .invalid_argument "String has to be non-empty"
  else
    let i := if str.head? = some '-' then 1 else 0
    if str.length = 1 ∧ i = 1 then .invalid_argument "String cannot be just '-'"
    else
      match from_string_loop str.length (str.drop i) zero with
      | .done self => .done (if str.head? = some '-' then negate self else self)
      | other => other

/-- The body loop of `to_string`; `res` is the text built so far (it is
reversed at the very end). The result is `none` when the bound of the model
runs out. `std::to_string(rem)` is `Nat.toDigits 10 rem` and
`log10(max(rem, 1u)) + 1` is the number of decimal digits of `rem`. -/
def to_string_loop : Nat → big_integer → List Char → Option (List Char)
  | 0, _, _ => none
  | fuel + 1, copy, res =>
    let r := div_with_rem copy POW_10_BLOCK
    let rem := r.2
    let rem_len := Nat.log 10 (max rem 1) + 1
    let res1 := res ++ Nat.toDigits 10 rem
    let pos := res1.length - rem_len
    let res2 := res1.take pos ++ (res1.drop pos).reverse
    if r.1 = of_signed 0 then some res2
    else to_string_loop fuel r.1 (res2 ++ List.replicate (POW_10_BLOCK_SIZE - rem_len) '0')

/-- The function `to_string`. Every pass of the loop divides by `10^9`, whose
square exceeds `2^32`, so twice the number of limbs (and one) is enough passes. -/
def to_string (a : big_integer) : Option (List Char) :=
  if a.arr.isEmpty then some ['0']
  else
    match to_string_loop (2 * (absolutify a).arr.length + 1) (absolutify a) [] with
    | none => none
    | some res => some (if a.is_neg then res ++ ['-'] else res).reverse

/-! ## Comparison -/

/-- The operator `==`: equal sign flags and equal limb vectors. -/
def operator_eq (a b : big_integer) : Bool := decide (a.is_neg = b.is_neg ∧ a.arr = b.arr)

/-- The operator `!=`. -/
def operator_ne (a b : big_integer) : Bool := !(operator_eq a b)

/-- The loop of `operator<=`, `i` counting down from the common size to 1; the
argument is `i` and the limb compared is `arr[i - 1]`. -/
def operator_le_loop (a b : List Nat) : Nat → Bool
  | 0 => true
  | i + 1 =>
    if a.getD i 0 ≠ b.getD i 0 then decide (a.getD i 0 ≤ b.getD i 0)
    else operator_le_loop a b i

/-- The operator `<=`. -/
def operator_le (a b : big_integer) : Bool :=
  if a.is_neg ≠ b.is_neg then a.is_neg
  else if a.arr.length < b.arr.length then !a.is_neg
  else if a.arr.length > b.arr.length then a.is_neg
  else operator_le_loop a.arr b.arr a.arr.length

/-- The operator `>`. -/
def operator_gt (a b : big_integer) : Bool := !(operator_le a b)

/-- The operator `<`. -/
def operator_lt (a b : big_integer) : Bool := operator_gt b a

/-- The operator `>=`. -/
def operator_ge (a b : big_integer) : Bool := operator_le b a

/-! ## Unary and bitwise operators -/

/-- The unary operator `-`. -/
def operator_neg (a : big_integer) : big_integer :=
  if operator_eq a (of_signed 0) then a else add_int (invert_all a) 1

/-- The operator `~`. -/
def operator_not (a : big_integer) : big_integer := remove_leading (invert_all a)

/-- The conversion of a `uint32_t` to `int`: the same 32 bits read in two's
complement. -/
def to_int (x : Nat) : Int :=
  if x % BASE < 2147483648 then ((x % BASE : Nat) : Int) else ((x % BASE : Nat) : Int) - BASE

/-- The conversion of an `int` to `uint32_t`: reduction modulo `2^32`. -/
def to_uint32 (z : Int) : Nat := (z % (BASE : Int)).toNat

/-- The conversion of a `bool` to `int`. -/
def bool_to_int (s : Bool) : Int := if s then 1 else 0

/-- The limb loop of `abstract_bit_operation` from index `i` on. `func` takes
two `int` arguments and returns an `int`: both limbs are converted to `int` and
the result is stored back into a `uint32_t`. -/
def abstract_bit_operation_loop (func : Int → Int → Int) (rhs : big_integer) :
    Nat → List Nat → List Nat
  | _, [] => []
  | i, x :: xs =>
    to_uint32 (func (to_int x)
        (to_int (if i < rhs.arr.length then rhs.arr.getD i 0 else get_complement rhs)))
      :: abstract_bit_operation_loop func rhs (i + 1) xs

/-- The function `abstract_bit_operation`. -/
def abstract_bit_operation (func : Int → Int → Int) (a rhs : big_integer) : big_integer :=
  let new_size := max a.arr.length rhs.arr.length
  let a1 := resize a new_size (get_complement a)
  let arr := abstract_bit_operation_loop func rhs 0 a1.arr
  remove_leading ⟨arr, decide (func (bool_to_int a1.is_neg) (bool_to_int rhs.is_neg) > 0)⟩

/-- The operator `&=` (and the binary `&`): the lambda is `a & b` on `int`. -/
def operator_and (a b : big_integer) : big_integer := abstract_bit_operation Int.land a b

/-- The operator `|=` (and the binary `|`): the lambda is `a | b` on `int`. -/
def operator_or (a b : big_integer) : big_integer := abstract_bit_operation Int.lor a b

/-- The operator `^=` (and the binary `^`): the lambda is `a ^ b` on `int`. -/
def operator_xor (a b : big_integer) : big_integer := abstract_bit_operation Int.xor a b

/-! ## Shifts, increment and decrement -/

/-- The first loop of `operator<<=`, `i` counting down from `new_size - 1` to
`offset + 1`; the first argument is `i - offset`, so the limb read is
`arr[i - offset - 1]`. `res` is a `uint64_t`, `carry << rem` a `uint32_t`. -/
def shl_loop (offset rem : Nat) : Nat → List Nat → Nat → List Nat × Nat
  | 0, arr, carry => (arr, carry)
  | t + 1, arr, carry =>
    let res := arr.getD t 0 / 2 ^ (32 - rem) + carry * 2 ^ rem % BASE
    shl_loop offset rem t (arr.set (t + 1 + offset) (res % BASE)) (arr.getD t 0)

/-- The second loop of `operator<<=`: `arr[i] = 0` for `i` from `offset - 1`
down to 0; the argument is `i + 1`. -/
def shl_clear : Nat → List Nat → List Nat
  | 0, arr => arr
  | i + 1, arr => shl_clear i (arr.set i 0)

/-- The operator `<<=` (and the binary `<<`); `rhs` is a non-negative `int`. -/
def operator_shl (a : big_integer) (rhs : Nat) : big_integer :=
  let offset := rhs / 32
  let rem := rhs % 32
  let new_size := a.arr.length + offset + 1
  let a1 := resize a new_size 0
  let r := shl_loop offset rem (new_size - 1 - offset) a1.arr (get_complement a1)
  let arr1 := r.1.set offset (r.2 * 2 ^ rem % BASE)
  remove_leading ⟨shl_clear offset arr1, a1.is_neg⟩

/-- The operator `<<` with a `uint32_t` left operand and an `int` count: the
product modulo 2^32 for a count below 32; for a count of 32 or more the
behaviour is undefined (`none`). -/
def shl_u32 (x count : Nat) : Option Nat :=
  if count < 32 then some (x * 2 ^ count % BASE) else none

/-- How a call of `operator>>=` ends: normally, with the receiver `self`, or
with undefined behaviour (a `uint32_t` shifted left by 32). -/
inductive ShiftOutcome where
  | done (self : big_integer)
  | undefined
deriving DecidableEq, Repr

/-- The first loop of `operator>>=` from index `i` on, `steps` iterations left.
The operand of `%` is `1 << rem` converted to unsigned, the sum is formed in a
`uint32_t`. The count of `<< (32 - rem)` is 32 for `rem = 0`, where the loop
has no defined result (`none`). -/
def shr_loop (offset rem : Nat) : Nat → Nat → List Nat → Option (List Nat)
  | 0, _, arr => some arr
  | steps + 1, i, arr =>
    let arr1 := arr.set i (arr.getD (i + offset) 0 / 2 ^ rem)
    match shl_u32 (arr1.getD (i + offset + 1) 0 % 2 ^ rem) (32 - rem) with
    | none => none
    | some t => shr_loop offset rem steps (i + 1) (arr1.set i ((arr1.getD i 0 + t) % BASE))

/-- The last loop of `operator>>=`: `arr[i] = get_complement()` from index `i`
on, `steps` iterations left. -/
def shr_fill (c : Nat) : Nat → Nat → List Nat → List Nat
  | 0, _, arr => arr
  | steps + 1, i, arr => shr_fill c steps (i + 1) (arr.set i c)

/-- The operator `>>=` (and the binary `>>`); `rhs` is a non-negative `int`.
In the second branch the statement after the first loop shifts a `uint32_t`
left by `32 - rem`, so that every call with `rem = 0` that reaches this branch
is undefined. -/
def operator_shr (a : big_integer) (rhs : Nat) : ShiftOutcome :=
  if rhs ≥ 32 * a.arr.length then .done (remove_leading ⟨[get_complement a], a.is_neg⟩)
  else
    let offset := rhs / 32
    let rem := rhs % 32
    let new_size := a.arr.length - offset
    match shr_loop offset rem (new_size - 1) 0 a.arr with
    | none => .undefined
    | some arr1 =>
      let arr2 := arr1.set (new_size - 1) (arr1.getD (arr1.length - 1) 0 / 2 ^ rem)
      match shl_u32 (get_complement a % 2 ^ rem) (32 - rem) with
      | none => .undefined
      | some t =>
        let arr3 := arr2.set (new_size - 1) ((arr2.getD (new_size - 1) 0 + t) % BASE)
        .done (remove_leading
          ⟨shr_fill (get_complement a) (a.arr.length - new_size) new_size arr3, a.is_neg⟩)

/-- The prefix operator `++`: the receiver after the call and the returned
reference, which is the receiver. -/
def operator_pre_inc (a : big_integer) : big_integer × big_integer :=
  (add_int a 1, add_int a 1)

/-- The postfix operator `++`: the receiver after the call and the returned
copy of the old receiver. -/
def operator_post_inc (a : big_integer) : big_integer × big_integer :=
  (add_int a 1, a)

/-- The prefix operator `--`: the receiver after the call and the returned
reference, which is the receiver. -/
def operator_pre_dec (a : big_integer) : big_integer × big_integer :=
  (add_int a (-1), add_int a (-1))

/-- The postfix operator `--`: the receiver after the call and the returned
copy of the old receiver. -/
def operator_post_dec (a : big_integer) : big_integer × big_integer :=
  (add_int a (-1), a)

/-! ## Definitions used to state the results -/

/-- The number spelled by `n` limbs of a right operand read from index `i` on,
each passed through `func`; limbs past the end of `arr` are the complement
word `c`. -/
def ext_val (func : Nat → Nat) (arr : List Nat) (c : Nat) : Nat → Nat → Nat
  | _, 0 => 0
  | i, n + 1 => func (arr.getD i c) + BASE * ext_val func arr c (i + 1) n

/-- A text made of one or more characters, all of them in `0` .. `9`. -/
def digits_only (ds : List Char) : Prop := ds ≠ [] ∧ ∀ c ∈ ds, c.isDigit = true

instance (ds : List Char) : Decidable (digits_only ds) :=
  inferInstanceAs (Decidable (ds ≠ [] ∧ ∀ c ∈ ds, c.isDigit = true))

/-- A well-formed decimal text: an optional single leading `-`, then one or
more digits. -/
def well_formed (str : List Char) : Prop :=
  digits_only (if str.head? = some '-' then str.tail else str)

instance (str : List Char) : Decidable (well_formed str) :=
  inferInstanceAs (Decidable (digits_only (if str.head? = some '-' then str.tail else str)))

/-- The number a text of digits denotes in base 10. -/
def decimal_val (ds : List Char) : Nat :=
  ds.foldl (fun acc c => acc * 10 + (c.toNat - 48)) 0

/-- The integer a well-formed decimal text denotes. -/
def denoted (str : List Char) : Int :=
  if str.head? = some '-' then -(decimal_val str.tail : Int) else (decimal_val str : Int)

/-- The canonical decimal text of an integer: `0` for zero, otherwise the
digits of the magnitude without leading zeros, after a `-` when negative. -/
def decimal_text (z : Int) : List Char :=
  if z = 0 then ['0']
  else (if z < 0 then ['-'] else []) ++ (Nat.digits 10 z.natAbs).reverse.map Nat.digitChar

/-- Canonical form: every limb is a 32-bit word, a number without limbs is not
negative, and the last limb equals the complement word only in the one-limb
representation of `-1`. -/
def canonical (a : big_integer) : Prop :=
  wf a ∧ (a.arr = [] → a.is_neg = false)
    ∧ (a.arr.getLast? = some (get_complement a) → a.arr = [UINT32_MAX])

instance (a : big_integer) : Decidable (canonical a) :=
  inferInstanceAs (Decidable (wf a ∧ (a.arr = [] → a.is_neg = false)
    ∧ (a.arr.getLast? = some (get_complement a) → a.arr = [UINT32_MAX])))

/-- The rule that the sign flag is bit 31 of the most significant stored limb
(`arr.back() >> 31`), and that a number without limbs is zero and not negative. -/
def sign_is_top_bit (a : big_integer) : Prop :=
  (a.arr ≠ [] → a.is_neg = decide (a.arr.getLastD 0 / 2147483648 ≠ 0))
    ∧ (a.arr = [] → value a = 0 ∧ a.is_neg = false)

instance (a : big_integer) : Decidable (sign_is_top_bit a) :=
  inferInstanceAs (Decidable ((a.arr ≠ [] → a.is_neg = decide (a.arr.getLastD 0 / 2147483648 ≠ 0))
    ∧ (a.arr = [] → value a = 0 ∧ a.is_neg = false)))

/-- The inner loop of `operator*=` with two checks added: a pass gives `none`
when the sum `top[i] * bot[k] + carry + res[i + k]` exceeds `2^64 - 1` or when
the index `i + k` is outside `res`. -/
def mul_inner_checked (ti : Nat) (bot : List Nat) (i : Nat) :
    Nat → Nat → List Nat → Nat → Option (List Nat × Nat)
  | 0, _, res, carry => some (res, carry)
  | steps + 1, k, res, carry =>
    let raw := ti * (if k ≠ bot.length then bot.getD k 0 else 0) + carry + res.getD (i + k) 0
    if raw ≤ 18446744073709551615 ∧ i + k < res.length then
      mul_inner_checked ti bot i steps (k + 1) (res.set (i + k) (raw % BASE)) (raw / BASE)
    else none

/-- The outer loop of `operator*=` with the checks of `mul_inner_checked` and
one more: a row gives `none` when it ends with a carry other than zero. -/
def mul_outer_checked (bot : List Nat) : Nat → List Nat → List Nat → Nat → Option (List Nat × Nat)
  | _, [], res, carry => some (res, carry)
  | i, ti :: ts, res, carry =>
    match mul_inner_checked ti bot i (bot.length + 1) 0 res carry with
    | none => none
    | some r => if r.2 = 0 then mul_outer_checked bot (i + 1) ts r.1 r.2 else none

/-- The first loop of `div_with_rem` with a check added: the pass that reads
`arr[index - 1]` gives `none` when that limb is no longer the limb of the
vector `orig` the loop started from. -/
def div_with_rem_loop_checked (num size : Nat) (orig : List Nat) :
    Nat → List Nat → Nat → Nat → Option (List Nat × Nat × Nat)
  | 0, arr, rem, li1 => some (arr, rem, li1)
  | index + 1, arr, rem, li1 =>
    if arr.getD index 0 = orig.getD index 0 then
      let res := rem * BASE + arr.getD index 0
      if li1 ≠ size ∨ res ≥ num then
        div_with_rem_loop_checked num size orig index (arr.set (li1 - 1) (res / num % BASE))
          (res % num) (li1 - 1)
      else div_with_rem_loop_checked num size orig index arr (res % num) li1
    else none

/-- The second loop of `div_with_rem` with a check added: the pass that moves
`arr[i]` down gives `none` when that limb is no longer the quotient digit of
the vector `digits` the first loop left. -/
def div_with_rem_swap_checked (digits : List Nat) (li1 : Nat) :
    Nat → Nat → List Nat → Option (List Nat)
  | 0, _, arr => some arr
  | steps + 1, i, arr =>
    if arr.getD i 0 = digits.getD i 0 then
      div_with_rem_swap_checked digits li1 steps (i + 1)
        ((arr.set i (arr.getD (i - li1) 0)).set (i - li1) (arr.getD i 0))
    else none

end Bigint

namespace Bigint

/-! ## Limb values and normalisation -/

theorem limbs_val_append (l m : List Nat) :
    limbs_val (l ++ m) = limbs_val l + BASE ^ l.length * limbs_val m := by
  induction l with
  | nil => simp [limbs_val]
  | cons x xs ih => simp [limbs_val, ih, pow_succ]; ring

theorem limbs_val_lt (l : List Nat) (h : ∀ x ∈ l, x < BASE) :
    limbs_val l < BASE ^ l.length := by
  induction l with
  | nil => simp [limbs_val]
  | cons x xs ih =>
    have hx : x < BASE := h x (by simp)
    have hxs := ih (fun y hy => h y (by simp [hy]))
    simp only [limbs_val, List.length_cons, pow_succ]
    nlinarith

theorem limbs_val_replicate_zero (k : Nat) : limbs_val (List.replicate k 0) = 0 := by
  induction k with
  | zero => rfl
  | succ k ih => simp [List.replicate_succ, limbs_val, ih]

theorem limbs_val_replicate_max (k : Nat) :
    limbs_val (List.replicate k UINT32_MAX) + 1 = BASE ^ k := by
  induction k with
  | zero => rfl
  | succ k ih =>
    simp only [List.replicate_succ, limbs_val, pow_succ]
    have : BASE = UINT32_MAX + 1 := rfl
    nlinarith

theorem rdropWhile_eq_append (c : Nat) (l : List Nat) :
    ∃ k, l = l.rdropWhile (fun x => x == c) ++ List.replicate k c := by
  induction l using List.reverseRecOn with
  | nil => exact ⟨0, by simp⟩
  | append_singleton l x ih =>
    rw [List.rdropWhile_concat]
    by_cases hx : x = c
    · obtain ⟨k, hk⟩ := ih
      refine ⟨k + 1, ?_⟩
      subst hx
      simp only [beq_self_eq_true, if_true]
      rw [List.replicate_succ', ← List.append_assoc, ← hk]
    · refine ⟨0, ?_⟩
      simp [hx]

/-- Sign extension does not change the value. -/
theorem value_extend (arr : List Nat) (s : Bool) (k : Nat) :
    value ⟨arr ++ List.replicate k (get_complement ⟨arr, s⟩), s⟩ = value ⟨arr, s⟩ := by
  cases s with
  | false =>
    simp [value, get_complement, limbs_val_append, limbs_val_replicate_zero]
  | true =>
    have h := limbs_val_replicate_max k
    simp only [value, get_complement, limbs_val_append, if_true, List.length_append,
      List.length_replicate, pow_add]
    have h2 : (limbs_val (List.replicate k UINT32_MAX) : Int) = (BASE : Int) ^ k - 1 := by
      have : ((limbs_val (List.replicate k UINT32_MAX) + 1 : Nat) : Int) = ((BASE ^ k : Nat) : Int) := by
        rw [h]
      push_cast at this
      linarith
    push_cast
    rw [h2]
    ring

theorem value_remove_leading (a : big_integer) : value (remove_leading a) = value a := by
  obtain ⟨arr, s⟩ := a
  obtain ⟨k, hk⟩ := rdropWhile_eq_append (get_complement ⟨arr, s⟩) arr
  have key : value ⟨arr, s⟩
      = value ⟨arr.rdropWhile (fun x => x == get_complement ⟨arr, s⟩), s⟩ := by
    have h := value_extend (arr.rdropWhile (fun x => x == get_complement ⟨arr, s⟩)) s k
    have hc : get_complement ⟨arr.rdropWhile (fun x => x == get_complement ⟨arr, s⟩), s⟩
        = get_complement ⟨arr, s⟩ := rfl
    rw [hc, ← hk] at h
    exact h
  rw [key]
  unfold remove_leading
  simp only
  split_ifs with h
  · have h1 := value_extend (arr.rdropWhile (fun x => x == get_complement ⟨arr, s⟩)) s 1
    simpa [get_complement] using h1
  · rfl

theorem wf_remove_leading (a : big_integer) (h : wf a) : wf (remove_leading a) := by
  obtain ⟨arr, s⟩ := a
  unfold remove_leading
  have hsub : ∀ x ∈ arr.rdropWhile (fun x => x == get_complement ⟨arr, s⟩), x < BASE := by
    intro x hx
    have hp := List.rdropWhile_prefix (fun x => x == get_complement ⟨arr, s⟩) arr
    exact h x (hp.subset hx)
  simp only
  split_ifs with h1
  · intro x hx
    simp only [List.mem_append, List.mem_singleton] at hx
    rcases hx with hx | hx
    · exact hsub x hx
    · subst hx; cases s <;> simp [get_complement, UINT32_MAX, BASE]
  · exact hsub

theorem is_neg_remove_leading (a : big_integer) : (remove_leading a).is_neg = a.is_neg := by
  unfold remove_leading; simp only; split_ifs <;> rfl

end Bigint

namespace Bigint

/-! ## Addition and subtraction -/

theorem ext_val_shift (func : Nat → Nat) (x : Nat) (arr : List Nat) (c i n : Nat) :
    ext_val func (x :: arr) c (i + 1) n = ext_val func arr c i n := by
  induction n generalizing i with
  | zero => rfl
  | succ n ih => simp [ext_val, ih]

theorem ext_val_nil (func : Nat → Nat) (c i n : Nat) :
    ext_val func [] c i n * (BASE - 1) = func c * (BASE ^ n - 1) := by
  induction n generalizing i with
  | zero => simp [ext_val]
  | succ n ih =>
    have h1 : 1 ≤ BASE ^ n := Nat.one_le_pow _ _ (by decide)
    have h2 : 1 ≤ BASE ^ (n + 1) := Nat.one_le_pow _ _ (by decide)
    have hB : 1 ≤ BASE := by decide
    simp only [ext_val, List.getD_nil]
    zify [h1, h2, hB] at ih ⊢
    rw [add_mul, mul_assoc, ih, pow_succ]
    ring

theorem ext_val_id_nil (s : Bool) (i n : Nat) :
    (ext_val (fun num => num) [] (get_complement ⟨[], s⟩) i n : Int)
      = if s then (BASE : Int) ^ n - 1 else 0 := by
  have h := ext_val_nil (fun num => num) (get_complement ⟨[], s⟩) i n
  have h1 : 1 ≤ BASE ^ n := Nat.one_le_pow _ _ (by decide)
  cases s with
  | false =>
    simp only [get_complement, Bool.false_eq_true, if_false, zero_mul] at h ⊢
    have : ext_val (fun num => num) [] 0 i n = 0 := by
      rcases Nat.mul_eq_zero.mp h with h | h
      · exact h
      · exact absurd h (by decide)
    simp [this]
  | true =>
    simp only [get_complement, if_true] at h ⊢
    have hB : BASE - 1 = UINT32_MAX := rfl
    rw [hB, mul_comm] at h
    have := Nat.eq_of_mul_eq_mul_left (by decide : 0 < UINT32_MAX) h
    rw [this]
    push_cast [h1]
    ring

/-- Reading `n` limbs of a sign-extended operand spells its value, up to the
weight of the sign. -/
theorem ext_val_id (arr : List Nat) (s : Bool) (n : Nat) (hn : arr.length ≤ n) :
    (ext_val (fun num => num) arr (get_complement ⟨arr, s⟩) 0 n : Int)
      - (if s then (BASE : Int) ^ n else 0) = value ⟨arr, s⟩ := by
  induction arr generalizing n with
  | nil =>
    have h := ext_val_id_nil s 0 n
    have hc : get_complement ⟨[], s⟩ = get_complement ⟨[], s⟩ := rfl
    rw [h]
    cases s <;> simp [value, limbs_val]
  | cons x xs ih =>
    cases n with
    | zero => simp at hn
    | succ n =>
      have hn1 : xs.length ≤ n := by simpa using hn
      have h := ih n hn1
      have hc : get_complement ⟨x :: xs, s⟩ = get_complement ⟨xs, s⟩ := rfl
      simp only [ext_val, List.getD_cons_zero, ext_val_shift, hc]
      simp only [value, limbs_val, List.length_cons] at h ⊢
      push_cast
      cases s with
      | false => simp only [Bool.false_eq_true, if_false, sub_zero] at h ⊢; rw [h]
      | true =>
        simp only [if_true] at h ⊢
        rw [pow_succ, pow_succ]
        linear_combination (BASE : Int) * h

theorem not32_eq (x : Nat) (h : x < BASE) : not32 x = UINT32_MAX - x := by
  unfold not32
  rw [Nat.mod_eq_of_lt h, Nat.mod_eq_of_lt]
  have : UINT32_MAX < BASE := by decide
  omega

theorem ext_val_not32 (arr : List Nat) (c : Nat) (h : ∀ x ∈ arr, x < BASE) (hc : c < BASE)
    (i n : Nat) :
    ext_val not32 arr c i n + ext_val (fun num => num) arr c i n + 1 = BASE ^ n := by
  induction n generalizing i with
  | zero => simp [ext_val]
  | succ n ih =>
    have hx : arr.getD i c < BASE := by
      rw [List.getD_eq_getElem?_getD]
      cases hg : arr[i]? with
      | none => simpa using hc
      | some y =>
        simp only [Option.getD_some]
        exact h y (List.getElem?_mem hg)
    simp only [ext_val]
    rw [not32_eq _ hx, pow_succ]
    have := ih (i + 1)
    have hm : UINT32_MAX + 1 = BASE := rfl
    obtain ⟨y, hy⟩ : ∃ y, UINT32_MAX - arr.getD i c = y := ⟨_, rfl⟩
    have hx2 : arr.getD i c + y = UINT32_MAX := by omega
    rw [hy]
    nlinarith

theorem ext_val_not32_lt (arr : List Nat) (c : Nat) (h : ∀ x ∈ arr, x < BASE) (hc : c < BASE)
    (i n : Nat) : ext_val (fun num => num) arr c i n < BASE ^ n := by
  have := ext_val_not32 arr c h hc i n
  omega

end Bigint

namespace Bigint

theorem getD_lt_base (arr : List Nat) (c i : Nat) (h : ∀ x ∈ arr, x < BASE) (hc : c < BASE) :
    arr.getD i c < BASE := by
  rw [List.getD_eq_getElem?_getD]
  cases hg : arr[i]? with
  | none => simpa using hc
  | some y =>
    simp only [Option.getD_some]
    exact h y (List.getElem?_mem hg)

theorem getD_ite_length (arr : List Nat) (c i : Nat) :
    (if i < arr.length then arr.getD i 0 else c) = arr.getD i c := by
  split_ifs with h
  · simp [List.getD_eq_getElem?_getD, List.getElem?_eq_getElem h]
  · simp [List.getD_eq_getElem?_getD, List.getElem?_eq_none (not_lt.mp h)]

theorem get_complement_lt (a : big_integer) : get_complement a < BASE := by
  unfold get_complement; split_ifs <;> decide

theorem add_with_func_loop_spec (func : Nat → Nat) (rhs : big_integer)
    (hf : ∀ x, x < BASE → func x < BASE) (hr : wf rhs)
    (xs : List Nat) (hxs : ∀ x ∈ xs, x < BASE) (i carry : Nat) (hc : carry ≤ 1) :
    (add_with_func_loop func rhs i xs carry).1.length = xs.length
    ∧ (∀ y ∈ (add_with_func_loop func rhs i xs carry).1, y < BASE)
    ∧ (add_with_func_loop func rhs i xs carry).2 ≤ 1
    ∧ limbs_val (add_with_func_loop func rhs i xs carry).1
        + BASE ^ xs.length * (add_with_func_loop func rhs i xs carry).2
      = limbs_val xs + ext_val func rhs.arr (get_complement rhs) i xs.length + carry := by
  induction xs generalizing i carry with
  | nil => simp [add_with_func_loop, limbs_val, ext_val, hc]
  | cons x xs ih =>
    have hx : x < BASE := hxs x (by simp)
    have hl : func (rhs.arr.getD i (get_complement rhs)) < BASE :=
      hf _ (getD_lt_base _ _ _ hr (get_complement_lt rhs))
    simp only [add_with_func_loop, getD_ite_length, List.length_cons, limbs_val, ext_val]
    obtain ⟨res, hres⟩ : ∃ res, x + func (rhs.arr.getD i (get_complement rhs)) + carry = res :=
      ⟨_, rfl⟩
    rw [hres]
    have hB : BASE = 4294967296 := rfl
    have hc1 : res / BASE ≤ 1 := by
      rw [hB] at hx hl ⊢; omega
    obtain ⟨h1, h2, h3, h4⟩ := ih (fun y hy => hxs y (by simp [hy])) (i + 1) (res / BASE) hc1
    refine ⟨by rw [h1], ?_, h3, ?_⟩
    · intro y hy
      simp only [List.mem_cons] at hy
      rcases hy with hy | hy
      · subst hy; exact Nat.mod_lt _ (by decide)
      · exact h2 y hy
    · have hdm := Nat.div_add_mod res BASE
      rw [pow_succ]
      zify at h4 hdm hres ⊢
      linear_combination (BASE : Int) * h4 + hdm - hres

theorem wf_resize (a : big_integer) (n val : Nat) (h : wf a) (hv : val < BASE) :
    wf (resize a n val) := by
  unfold resize
  split_ifs
  · exact h
  · intro x hx
    simp only [List.mem_append, List.mem_replicate] at hx
    rcases hx with hx | ⟨_, hx⟩
    · exact h x hx
    · rw [hx]; exact hv

theorem value_resize (a : big_integer) (n : Nat) :
    value (resize a n (get_complement a)) = value a := by
  unfold resize
  split_ifs
  · rfl
  · exact value_extend a.arr a.is_neg _

theorem length_resize (a : big_integer) (n val : Nat) :
    (resize a n val).arr.length = max a.arr.length n := by
  unfold resize
  split_ifs with h
  · simp [h]
  · simp; omega

theorem is_neg_resize (a : big_integer) (n val : Nat) : (resize a n val).is_neg = a.is_neg := by
  unfold resize; split_ifs <;> rfl

end Bigint

namespace Bigint

theorem value_mk_false (arr : List Nat) : value ⟨arr, false⟩ = (limbs_val arr : Int) := by
  simp [value]

theorem value_mk_true (arr : List Nat) :
    value ⟨arr, true⟩ = (limbs_val arr : Int) - (BASE : Int) ^ arr.length := by
  simp [value]

theorem limbs_val_snoc (arr : List Nat) (x : Nat) :
    limbs_val (arr ++ [x]) = limbs_val arr + BASE ^ arr.length * x := by
  rw [limbs_val_append]; simp [limbs_val]

/-- The shape of the result of a carry loop followed by the virtual limb step:
`R` the `n` result limbs, `c2` the carry out, `sa` and `sb` the signs of the two
summands. -/
theorem value_top_step (R : List Nat) (sa sb : Bool) (c2 : Nat) (hc2 : c2 ≤ 1) :
    value (if ((if sa then UINT32_MAX else 0) + (if sb then UINT32_MAX else 0) + c2) % BASE
          ≠ (if sa then UINT32_MAX else 0) then
        remove_leading ⟨R ++ [((if sa then UINT32_MAX else 0) + (if sb then UINT32_MAX else 0) + c2) % BASE],
          decide (((if sa then UINT32_MAX else 0) + (if sb then UINT32_MAX else 0) + c2) % BASE
            / 2147483648 ≠ 0)⟩
      else remove_leading ⟨R, sa⟩)
    = (limbs_val R : Int) + (BASE : Int) ^ R.length * c2
      - (if sa then (BASE : Int) ^ R.length else 0) - (if sb then (BASE : Int) ^ R.length else 0) := by
  have hc : c2 = 0 ∨ c2 = 1 := by omega
  rcases hc with rfl | rfl <;> cases sa <;> cases sb <;>
    simp [UINT32_MAX, BASE, value_remove_leading, value_mk_false, value_mk_true,
      limbs_val_snoc, pow_succ] <;> ring



theorem add_with_func_value (func : Nat → Nat) (a rhs : big_integer) (carry : Nat) (sb : Bool)
    (V : Int) (ha : wf a) (hr : wf rhs) (hc : carry ≤ 1)
    (hf : ∀ x, x < BASE → func x < BASE)
    (htop : func (get_complement rhs) = if sb then UINT32_MAX else 0)
    (hE : ∀ n, rhs.arr.length ≤ n →
      (ext_val func rhs.arr (get_complement rhs) 0 n : Int)
        - (if sb then (BASE : Int) ^ n else 0) = V) :
    value (add_with_func func a rhs carry) = value a + V + carry := by
  unfold add_with_func
  simp only
  have hwf1 := wf_resize a (max a.arr.length rhs.arr.length) (get_complement a) ha
    (get_complement_lt a)
  have hlen1 := length_resize a (max a.arr.length rhs.arr.length) (get_complement a)
  have hval1 := value_resize a (max a.arr.length rhs.arr.length)
  have hneg1 := is_neg_resize a (max a.arr.length rhs.arr.length) (get_complement a)
  obtain ⟨a1, ha1⟩ : ∃ a1, resize a (max a.arr.length rhs.arr.length) (get_complement a) = a1 :=
    ⟨_, rfl⟩
  rw [ha1] at hwf1 hlen1 hval1 hneg1 ⊢
  obtain ⟨h1, h2, h3, h4⟩ := add_with_func_loop_spec func rhs hf hr a1.arr hwf1 0 carry hc
  obtain ⟨r, hr2⟩ : ∃ r, add_with_func_loop func rhs 0 a1.arr carry = r := ⟨_, rfl⟩
  rw [hr2] at h1 h2 h3 h4 ⊢
  have hca : get_complement a1 = if a1.is_neg then UINT32_MAX else 0 := rfl
  rw [hca, htop]
  rw [value_top_step r.1 a1.is_neg sb r.2 h3]
  have hn : rhs.arr.length ≤ a1.arr.length := by rw [hlen1]; omega
  have hE1 := hE a1.arr.length hn
  rw [← hval1, ← hE1, h1]
  have h4z : ((limbs_val r.1 + BASE ^ a1.arr.length * r.2 : Nat) : Int)
      = ((limbs_val a1.arr + ext_val func rhs.arr (get_complement rhs) 0 a1.arr.length + carry : Nat) : Int) := by
    rw [h4]
  push_cast at h4z
  unfold value
  linear_combination h4z

/-- The value of a sum. -/
theorem add_value (a b : big_integer) (ha : wf a) (hb : wf b) :
    value (add a b) = value a + value b := by
  have h := add_with_func_value (fun num => num) a b 0 b.is_neg (value b) ha hb (by omega)
    (fun x hx => hx) rfl (fun n hn => ext_val_id b.arr b.is_neg n hn)
  simpa [add] using h

theorem not32_get_complement (b : big_integer) :
    not32 (get_complement b) = if (!b.is_neg) then UINT32_MAX else 0 := by
  unfold get_complement
  cases b.is_neg <;> decide

theorem not32_lt (x : Nat) : not32 x < BASE := Nat.mod_lt _ (by decide)

/-- The value of a difference. -/
theorem sub_value (a b : big_integer) (ha : wf a) (hb : wf b) :
    value (sub a b) = value a - value b := by
  have h := add_with_func_value not32 a b 1 (!b.is_neg) (-value b - 1) ha hb (by omega)
    (fun x _ => not32_lt x) (not32_get_complement b) (by
      intro n hn
      have h1 := ext_val_not32 b.arr (get_complement b) hb (get_complement_lt b) 0 n
      have h2 := ext_val_id b.arr b.is_neg n hn
      have h1z : ((ext_val not32 b.arr (get_complement b) 0 n
          + ext_val (fun num => num) b.arr (get_complement b) 0 n + 1 : Nat) : Int)
          = ((BASE ^ n : Nat) : Int) := by rw [h1]
      push_cast at h1z
      have hc : get_complement ⟨b.arr, b.is_neg⟩ = get_complement b := rfl
      rw [hc] at h2
      have hv : value ⟨b.arr, b.is_neg⟩ = value b := rfl
      rw [hv] at h2
      cases hs : b.is_neg <;> simp only [hs, Bool.not_false, Bool.not_true, if_true,
        Bool.false_eq_true, if_false] at h2 ⊢ <;> linarith)
  rw [sub, h]
  push_cast
  ring

theorem wf_add_with_func (func : Nat → Nat) (a rhs : big_integer) (carry : Nat)
    (ha : wf a) (hr : wf rhs) (hc : carry ≤ 1) (hf : ∀ x, x < BASE → func x < BASE) :
    wf (add_with_func func a rhs carry) := by
  unfold add_with_func
  simp only
  have hwf1 := wf_resize a (max a.arr.length rhs.arr.length) (get_complement a) ha
    (get_complement_lt a)
  obtain ⟨h1, h2, h3, h4⟩ := add_with_func_loop_spec func rhs hf hr _ hwf1 0 carry hc
  split_ifs with h
  · apply wf_remove_leading
    intro x hx
    simp only [List.mem_append, List.mem_singleton] at hx
    rcases hx with hx | hx
    · exact h2 x hx
    · rw [hx]; exact Nat.mod_lt _ (by decide)
  · apply wf_remove_leading
    exact h2

end Bigint

namespace Bigint

/-! ## `add_int`, negation and absolute value -/

theorem add_int_loop_spec (xs : List Nat) (hxs : ∀ x ∈ xs, x < BASE) (i carry : Nat)
    (hc : carry < BASE) :
    (add_int_loop 0 i xs carry).1.length = xs.length
    ∧ (∀ y ∈ (add_int_loop 0 i xs carry).1, y < BASE)
    ∧ (xs ≠ [] → (add_int_loop 0 i xs carry).2 ≤ 1)
    ∧ limbs_val (add_int_loop 0 i xs carry).1
        + BASE ^ xs.length * (add_int_loop 0 i xs carry).2
      = limbs_val xs + carry := by
  induction xs generalizing i carry with
  | nil => simp [add_int_loop, limbs_val]
  | cons x xs ih =>
    have hx : x < BASE := hxs x (by simp)
    have hxs1 : ∀ y ∈ xs, y < BASE := fun y hy => hxs y (by simp [hy])
    have hB : BASE = 4294967296 := rfl
    simp only [add_int_loop, ite_self, add_zero, and_true]
    have hdiv : (x + carry) / BASE % BASE = (x + carry) / BASE := by
      rw [hB] at hx hc ⊢; omega
    have hle : (x + carry) / BASE ≤ 1 := by
      rw [hB] at hx hc ⊢; omega
    have hdm := Nat.div_add_mod (x + carry) BASE
    rw [hdiv]
    split_ifs with h0
    · refine ⟨by simp, ?_, fun _ => by simp [h0], ?_⟩
      · intro y hy
        simp only [List.mem_cons] at hy
        rcases hy with hy | hy
        · subst hy; exact Nat.mod_lt _ (by decide)
        · exact hxs1 y hy
      · simp only [limbs_val, h0, mul_zero, add_zero]
        rw [h0] at hdm
        omega
    · obtain ⟨h1, h2, h3, h4⟩ := ih hxs1 (i + 1) ((x + carry) / BASE) (by rw [hB]; omega)
      refine ⟨by simp [h1], ?_, ?_, ?_⟩
      · intro y hy
        simp only [List.mem_cons] at hy
        rcases hy with hy | hy
        · subst hy; exact Nat.mod_lt _ (by decide)
        · exact h2 y hy
      · intro _
        by_cases hnil : xs = []
        · subst hnil
          simpa [add_int_loop] using hle
        · exact h3 hnil
      · simp only [limbs_val, List.length_cons, pow_succ]
        obtain ⟨r, hr⟩ : ∃ r, add_int_loop 0 (i + 1) xs ((x + carry) / BASE) = r := ⟨_, rfl⟩
        rw [hr] at h4 ⊢
        have e : (x + carry) % BASE + BASE * limbs_val r.1 + BASE ^ xs.length * BASE * r.2
            = (x + carry) % BASE + BASE * (limbs_val r.1 + BASE ^ xs.length * r.2) := by ring
        rw [e, h4]
        nlinarith

theorem int_toNat_mod (num : Int) (h0 : 0 ≤ num) (h1 : num < 2147483648) :
    ((num % (BASE : Int)).toNat : Int) = num ∧ (num % (BASE : Int)).toNat < 2147483648 := by
  have hB : (BASE : Int) = 4294967296 := rfl
  rw [hB]
  omega

/-- Adding a non-negative `int32_t` adds its value. -/
theorem add_int_value (a : big_integer) (num : Int) (ha : wf a) (h0 : 0 ≤ num)
    (h1 : num < 2147483648) : value (add_int a num) = value a + num := by
  obtain ⟨hn1, hn2⟩ := int_toNat_mod num h0 h1
  obtain ⟨c, hc⟩ : ∃ c, (num % (BASE : Int)).toNat = c := ⟨_, rfl⟩
  rw [hc] at hn1 hn2
  unfold add_int
  simp only [hc, not_lt.mpr h0, if_false, add_zero]
  obtain ⟨arr, s⟩ := a
  have hB : BASE = 4294967296 := rfl
  by_cases hnil : arr = []
  · subst hnil
    rw [← hn1]
    cases s with
    | false =>
      simp only [add_int_loop, get_complement, Bool.false_eq_true, if_false, zero_add]
      rw [Nat.mod_eq_of_lt (by rw [hB]; omega)]
      split_ifs with hz
      · have : c / 2147483648 = 0 := by omega
        rw [value_remove_leading]
        simp [value, limbs_val, this]
      · have : c = 0 := by omega
        rw [value_remove_leading]
        simp [value, limbs_val, this]
    | true =>
      simp only [add_int_loop, get_complement, if_true]
      by_cases hz : c = 0
      · subst hz
        simp only [add_zero, Nat.mod_eq_of_lt (by decide : UINT32_MAX < BASE), ne_eq,
          not_true_eq_false, if_false]
        rw [value_remove_leading]
        simp [value, limbs_val]
      · have e : (UINT32_MAX + c) % BASE = c - 1 := by
          have : UINT32_MAX = 4294967295 := rfl
          rw [hB, this]; omega
        have e2 : (c - 1) / 2147483648 = 0 := by omega
        have e3 : c - 1 ≠ UINT32_MAX := by
          have : UINT32_MAX = 4294967295 := rfl
          omega
        rw [e]
        simp only [ne_eq, e3, not_false_eq_true, if_true, e2, not_true_eq_false, decide_False]
        rw [value_remove_leading]
        simp only [value, limbs_val, List.nil_append, Bool.false_eq_true,
          if_false, if_true, List.length_nil, pow_zero]
        push_cast
        omega
  · obtain ⟨h1, h2, h3, h4⟩ := add_int_loop_spec arr ha 0 c (by rw [hB]; omega)
    obtain ⟨r, hr⟩ : ∃ r, add_int_loop 0 0 arr c = r := ⟨_, rfl⟩
    rw [hr] at h1 h2 h3 h4 ⊢
    have hts := value_top_step r.1 s false r.2 (h3 hnil)
    simp only [Bool.false_eq_true, if_false, add_zero, sub_zero] at hts
    have hg : get_complement ⟨arr, s⟩ = if s then UINT32_MAX else 0 := rfl
    rw [hg, hts, h1]
    have h4z : ((limbs_val r.1 + BASE ^ arr.length * r.2 : Nat) : Int)
        = ((limbs_val arr + c : Nat) : Int) := by rw [h4]
    push_cast at h4z
    unfold value
    simp only
    linear_combination h4z + hn1

theorem wf_add_int (a : big_integer) (num : Int) (ha : wf a) (h0 : 0 ≤ num)
    (h1 : num < 2147483648) : wf (add_int a num) := by
  obtain ⟨hn1, hn2⟩ := int_toNat_mod num h0 h1
  have hB : BASE = 4294967296 := rfl
  obtain ⟨g1, g2, g3, g4⟩ := add_int_loop_spec a.arr ha 0 (num % (BASE : Int)).toNat
    (by rw [hB]; omega)
  unfold add_int
  simp only [not_lt.mpr h0, if_false, add_zero]
  split_ifs with h
  · apply wf_remove_leading
    intro x hx
    simp only [List.mem_append, List.mem_singleton] at hx
    rcases hx with hx | hx
    · exact g2 x hx
    · rw [hx]; exact Nat.mod_lt _ (by decide)
  · apply wf_remove_leading
    exact g2

end Bigint

namespace Bigint

theorem limbs_val_map_not32 (arr : List Nat) (h : ∀ x ∈ arr, x < BASE) :
    limbs_val (arr.map not32) + limbs_val arr + 1 = BASE ^ arr.length := by
  induction arr with
  | nil => simp [limbs_val]
  | cons x xs ih =>
    have hx : x < BASE := h x (by simp)
    have := ih (fun y hy => h y (by simp [hy]))
    simp only [List.map_cons, limbs_val, List.length_cons, pow_succ]
    rw [not32_eq _ hx]
    have hm : UINT32_MAX + 1 = BASE := rfl
    obtain ⟨y, hy⟩ : ∃ y, UINT32_MAX - x = y := ⟨_, rfl⟩
    have hx2 : x + y = UINT32_MAX := by omega
    rw [hy]
    nlinarith

theorem wf_invert_all (a : big_integer) : wf (invert_all a) := by
  intro x hx
  simp only [invert_all, List.mem_map] at hx
  obtain ⟨y, _, rfl⟩ := hx
  exact not32_lt y

theorem value_invert_all (a : big_integer) (ha : wf a) :
    value (invert_all a) = -value a - 1 := by
  have h := limbs_val_map_not32 a.arr ha
  have hz : ((limbs_val (a.arr.map not32) + limbs_val a.arr + 1 : Nat) : Int)
      = ((BASE ^ a.arr.length : Nat) : Int) := by rw [h]
  push_cast at hz
  unfold value invert_all
  cases hs : a.is_neg <;> simp [hs] <;> linarith

/-- Negation negates the value. -/
theorem negate_value (a : big_integer) (ha : wf a) : value (negate a) = -value a := by
  unfold negate
  rw [add_int_value _ 1 (wf_invert_all a) (by omega) (by omega), value_invert_all a ha]
  ring

theorem wf_negate (a : big_integer) : wf (negate a) :=
  wf_add_int _ 1 (wf_invert_all a) (by omega) (by omega)

/-- The sign flag is set exactly when the value is negative. -/
theorem is_neg_iff (a : big_integer) (ha : wf a) : a.is_neg = true ↔ value a < 0 := by
  have h := limbs_val_lt a.arr ha
  have hz : ((limbs_val a.arr : Nat) : Int) < ((BASE ^ a.arr.length : Nat) : Int) := by
    exact_mod_cast h
  push_cast at hz
  unfold value
  cases hs : a.is_neg
  · simp
  · simp; linarith

theorem absolutify_value (a : big_integer) (ha : wf a) :
    value (absolutify a) = |value a| := by
  unfold absolutify
  split_ifs with h
  · rw [negate_value a ha, abs_of_neg ((is_neg_iff a ha).mp h)]
  · have : ¬ value a < 0 := fun hv => h ((is_neg_iff a ha).mpr hv)
    rw [abs_of_nonneg (not_lt.mp this)]

theorem wf_absolutify (a : big_integer) (ha : wf a) : wf (absolutify a) := by
  unfold absolutify
  split_ifs
  · exact wf_negate a
  · exact ha

theorem absolutify_is_neg (a : big_integer) (ha : wf a) : (absolutify a).is_neg = false := by
  have h1 := absolutify_value a ha
  have h2 := is_neg_iff (absolutify a) (wf_absolutify a ha)
  cases hs : (absolutify a).is_neg
  · rfl
  · have := h2.mp hs
    rw [h1] at this
    exact absurd this (not_lt.mpr (abs_nonneg _))

theorem absolutify_limbs (a : big_integer) (ha : wf a) :
    (limbs_val (absolutify a).arr : Int) = |value a| := by
  rw [← absolutify_value a ha]
  unfold value
  simp [absolutify_is_neg a ha]

end Bigint

namespace Bigint

/-! ## Multiplication -/

theorem limbs_val_set (l : List Nat) (i x : Nat) (hi : i < l.length) :
    limbs_val (l.set i x) + l.getD i 0 * BASE ^ i = limbs_val l + x * BASE ^ i := by
  induction l generalizing i with
  | nil => simp at hi
  | cons y ys ih =>
    cases i with
    | zero => simp [limbs_val]; ring
    | succ i =>
      have := ih i (by simpa using hi)
      simp only [List.set_cons_succ, limbs_val, List.getD_cons_succ, pow_succ]
      nlinarith

theorem wf_set (l : List Nat) (i x : Nat) (hl : ∀ y ∈ l, y < BASE) (hx : x < BASE) :
    ∀ y ∈ l.set i x, y < BASE := by
  intro y hy
  rcases List.mem_or_eq_of_mem_set hy with h | h
  · exact hl y h
  · rw [h]; exact hx

theorem ext_val_limbs (arr : List Nat) (n : Nat) (hn : arr.length ≤ n) :
    ext_val (fun num => num) arr 0 0 n = limbs_val arr := by
  have h := ext_val_id arr false n hn
  simp only [get_complement, Bool.false_eq_true, if_false, sub_zero, value] at h
  exact_mod_cast h

theorem mul_inner_spec (ti : Nat) (bot : List Nat) (i : Nat) (hti : ti < BASE)
    (hbot : ∀ x ∈ bot, x < BASE) (steps k : Nat) (res : List Nat) (carry : Nat)
    (hres : ∀ x ∈ res, x < BASE) (hc : carry < BASE) (hlen : i + k + steps ≤ res.length) :
    (mul_inner ti bot i steps k res carry).1.length = res.length
    ∧ (∀ y ∈ (mul_inner ti bot i steps k res carry).1, y < BASE)
    ∧ (mul_inner ti bot i steps k res carry).2 < BASE
    ∧ limbs_val (mul_inner ti bot i steps k res carry).1
        + (mul_inner ti bot i steps k res carry).2 * BASE ^ (i + k + steps)
      = limbs_val res + carry * BASE ^ (i + k)
        + ti * ext_val (fun num => num) bot 0 k steps * BASE ^ (i + k) := by
  induction steps generalizing k res carry with
  | zero => exact ⟨rfl, hres, hc, by simp [mul_inner, ext_val]⟩
  | succ steps ih =>
    have hb : bot.getD k 0 < BASE := getD_lt_base bot 0 k hbot (by decide)
    have hr : res.getD (i + k) 0 < BASE := getD_lt_base res 0 (i + k) hres (by decide)
    have hm : (if k ≠ bot.length then bot.getD k 0 else 0) = bot.getD k 0 := by
      split_ifs with h
      · rfl
      · have : k = bot.length := not_not.mp h
        simp [this]
    have hB : BASE = 4294967296 := rfl
    have hprod : ti * bot.getD k 0 ≤ 4294967295 * 4294967295 := by
      apply Nat.mul_le_mul <;> omega
    have hsmall : ti * bot.getD k 0 + carry + res.getD (i + k) 0 < 18446744073709551616 := by
      omega
    simp only [mul_inner, hm, Nat.mod_eq_of_lt hsmall]
    obtain ⟨mul, hmul⟩ : ∃ mul, ti * bot.getD k 0 + carry + res.getD (i + k) 0 = mul := ⟨_, rfl⟩
    rw [hmul] at hsmall ⊢
    have hik : i + k < res.length := by omega
    have hset := limbs_val_set res (i + k) (mul % BASE) hik
    have hwf1 := wf_set res (i + k) (mul % BASE) hres (Nat.mod_lt _ (by decide))
    have hc1 : mul / BASE < BASE := by rw [hB]; omega
    obtain ⟨h1, h2, h3, h4⟩ := ih (k + 1) (res.set (i + k) (mul % BASE)) (mul / BASE) hwf1 hc1
      (by simp; omega)
    refine ⟨by rw [h1]; simp, h2, h3, ?_⟩
    have e1 : i + k + (steps + 1) = i + (k + 1) + steps := by ring
    rw [e1, h4]
    simp only [ext_val]
    have hdm := Nat.div_add_mod mul BASE
    have e2 : BASE ^ (i + (k + 1)) = BASE * BASE ^ (i + k) := by
      rw [← add_assoc, pow_succ]; ring
    rw [e2]
    obtain ⟨P, hP⟩ : ∃ P, BASE ^ (i + k) = P := ⟨_, rfl⟩
    rw [hP] at hset ⊢
    obtain ⟨E, hE⟩ : ∃ E, ext_val (fun num => num) bot 0 (k + 1) steps = E := ⟨_, rfl⟩
    rw [hE]
    zify at hset hdm hmul ⊢
    linear_combination hset + (P : Int) * hdm - (P : Int) * hmul

end Bigint

namespace Bigint

theorem mul_outer_spec (bot : List Nat) (hbot : ∀ x ∈ bot, x < BASE) (ts : List Nat)
    (hts : ∀ x ∈ ts, x < BASE) (i : Nat) (res : List Nat) (hres : ∀ x ∈ res, x < BASE)
    (hlen : i + ts.length + bot.length ≤ res.length)
    (hbound : limbs_val res < BASE ^ (i + bot.length)) :
    (mul_outer bot i ts res 0).1.length = res.length
    ∧ (∀ y ∈ (mul_outer bot i ts res 0).1, y < BASE)
    ∧ limbs_val (mul_outer bot i ts res 0).1
      = limbs_val res + BASE ^ i * (limbs_val ts * limbs_val bot) := by
  induction ts generalizing i res with
  | nil => exact ⟨rfl, hres, by simp [mul_outer, limbs_val]⟩
  | cons t ts ih =>
    have ht : t < BASE := hts t (by simp)
    have hts1 : ∀ y ∈ ts, y < BASE := fun y hy => hts y (by simp [hy])
    obtain ⟨h1, h2, h3, h4⟩ := mul_inner_spec t bot i ht hbot (bot.length + 1) 0 res 0 hres
      (by decide) (by simp at hlen ⊢; omega)
    simp only [mul_outer]
    obtain ⟨r, hr⟩ : ∃ r, mul_inner t bot i (bot.length + 1) 0 res 0 = r := ⟨_, rfl⟩
    rw [hr] at h1 h2 h3 h4 ⊢
    rw [ext_val_limbs bot (bot.length + 1) (by omega)] at h4
    simp only [add_zero, zero_mul] at h4
    have hbl := limbs_val_lt bot hbot
    have hP : 0 < BASE ^ i := pow_pos (by decide) _
    -- the carry out of a row is zero
    have htot : limbs_val res + t * limbs_val bot * BASE ^ i < BASE ^ (i + bot.length + 1) := by
      have e1 : t * limbs_val bot ≤ (BASE - 1) * (BASE ^ bot.length - 1) := by
        apply Nat.mul_le_mul <;> omega
      have e2 : BASE ^ (i + bot.length) = BASE ^ i * BASE ^ bot.length := pow_add _ _ _
      have e3 : BASE ^ (i + bot.length + 1) = BASE ^ i * BASE ^ bot.length * BASE := by
        rw [pow_succ, e2]
      have e4 : 1 ≤ BASE ^ bot.length := Nat.one_le_pow _ _ (by decide)
      have e5 : 1 ≤ BASE := by decide
      rw [e3]
      rw [e2] at hbound
      have e6 : t * limbs_val bot * BASE ^ i ≤ (BASE - 1) * (BASE ^ bot.length - 1) * BASE ^ i :=
        Nat.mul_le_mul_right _ e1
      have e7 : (BASE - 1) * (BASE ^ bot.length - 1) * BASE ^ i + BASE ^ i * BASE ^ bot.length
          ≤ BASE ^ i * BASE ^ bot.length * BASE := by
        zify [e4, e5]
        have hX : (0 : Int) ≤ (BASE : Int) ^ i := pow_nonneg (by decide) _
        have hB1 : (0 : Int) ≤ (BASE : Int) - 1 := by decide
        nlinarith [mul_nonneg hX hB1]
      omega
    have hr0 : r.2 = 0 := by
      by_contra hne
      have : 1 ≤ r.2 := Nat.one_le_iff_ne_zero.mpr hne
      have e : i + (bot.length + 1) = i + bot.length + 1 := by ring
      rw [e] at h4
      have : BASE ^ (i + bot.length + 1) ≤ r.2 * BASE ^ (i + bot.length + 1) :=
        Nat.le_mul_of_pos_left _ (by omega)
      omega
    rw [hr0]
    rw [hr0] at h4
    simp only [zero_mul, add_zero] at h4
    have hb1 : limbs_val r.1 < BASE ^ (i + 1 + bot.length) := by
      have e : i + 1 + bot.length = i + bot.length + 1 := by ring
      rw [e, h4]; exact htot
    obtain ⟨g1, g2, g3⟩ := ih hts1 (i + 1) r.1 h2 (by simp at hlen; rw [h1]; omega) hb1
    refine ⟨by rw [g1, h1], g2, ?_⟩
    rw [g3, h4]
    simp only [limbs_val, pow_succ]
    ring

theorem limbs_val_replicate_zero_lt (n k : Nat) : limbs_val (List.replicate n 0) < BASE ^ k := by
  rw [limbs_val_replicate_zero]
  exact pow_pos (by decide) _

/-- The value of a product. -/
theorem mul_value (a b : big_integer) (ha : wf a) (hb : wf b) :
    value (mul a b) = value a * value b := by
  have hta := wf_absolutify a ha
  have htb := wf_absolutify b hb
  obtain ⟨h1, h2, h3⟩ := mul_outer_spec (absolutify b).arr htb (absolutify a).arr hta 0
    (List.replicate ((absolutify a).arr.length + (absolutify b).arr.length) 0)
    (by intro x hx; rw [List.eq_of_mem_replicate hx]; decide) (by simp)
    (limbs_val_replicate_zero_lt _ _)
  unfold mul
  simp only
  obtain ⟨r, hr⟩ : ∃ r, mul_outer (absolutify b).arr 0 (absolutify a).arr
    (List.replicate ((absolutify a).arr.length + (absolutify b).arr.length) 0) 0 = r := ⟨_, rfl⟩
  rw [hr] at h1 h2 h3 ⊢
  rw [value_remove_leading, absolutify_is_neg a ha]
  have hv : value ⟨r.1, false⟩ = |value a| * |value b| := by
    rw [value_mk_false, h3, limbs_val_replicate_zero]
    push_cast
    rw [absolutify_limbs a ha, absolutify_limbs b hb]
    ring
  have hsa := is_neg_iff a ha
  have hsb := is_neg_iff b hb
  have hwf : wf ⟨r.1, false⟩ := h2
  cases ea : a.is_neg <;> cases eb : b.is_neg <;> rw [ea] at hsa <;> rw [eb] at hsb <;>
    simp only [Bool.xor_false, Bool.xor_true, Bool.not_false, Bool.not_true, if_true,
      Bool.false_eq_true, if_false, Bool.true_bne, Bool.false_bne, bne_self_eq_false,
      Bool.bne_true, Bool.bne_false]
  · have h1 : 0 ≤ value a := not_lt.mp (fun h => Bool.false_ne_true (hsa.mpr h))
    have h2 : 0 ≤ value b := not_lt.mp (fun h => Bool.false_ne_true (hsb.mpr h))
    rw [hv, abs_of_nonneg h1, abs_of_nonneg h2]
  · have h1 : 0 ≤ value a := not_lt.mp (fun h => Bool.false_ne_true (hsa.mpr h))
    have h2 : value b < 0 := hsb.mp rfl
    rw [negate_value _ hwf, hv, abs_of_nonneg h1, abs_of_neg h2]; ring
  · have h1 : value a < 0 := hsa.mp rfl
    have h2 : 0 ≤ value b := not_lt.mp (fun h => Bool.false_ne_true (hsb.mpr h))
    rw [negate_value _ hwf, hv, abs_of_neg h1, abs_of_nonneg h2]; ring
  · have h1 : value a < 0 := hsa.mp rfl
    have h2 : value b < 0 := hsb.mp rfl
    rw [hv, abs_of_neg h1, abs_of_neg h2]; ring

theorem wf_mul (a b : big_integer) (ha : wf a) (hb : wf b) : wf (mul a b) := by
  have hta := wf_absolutify a ha
  have htb := wf_absolutify b hb
  obtain ⟨h1, h2, h3⟩ := mul_outer_spec (absolutify b).arr htb (absolutify a).arr hta 0
    (List.replicate ((absolutify a).arr.length + (absolutify b).arr.length) 0)
    (by intro x hx; rw [List.eq_of_mem_replicate hx]; decide) (by simp)
    (limbs_val_replicate_zero_lt _ _)
  unfold mul
  simp only
  apply wf_remove_leading
  split_ifs
  · exact wf_negate _
  · exact h2

end Bigint

namespace Bigint

/-! ## `small_mul` -/

theorem small_mul_loop_spec (rhs : Nat) (hrhs : rhs < BASE) (xs : List Nat)
    (hxs : ∀ x ∈ xs, x < BASE) (carry : Nat) (hc : carry < BASE) :
    (small_mul_loop rhs xs carry).1.length = xs.length
    ∧ (∀ y ∈ (small_mul_loop rhs xs carry).1, y < BASE)
    ∧ (small_mul_loop rhs xs carry).2 < BASE
    ∧ limbs_val (small_mul_loop rhs xs carry).1
        + BASE ^ xs.length * (small_mul_loop rhs xs carry).2
      = limbs_val xs * rhs + carry := by
  induction xs generalizing carry with
  | nil => simp [small_mul_loop, limbs_val, hc]
  | cons x xs ih =>
    have hx : x < BASE := hxs x (by simp)
    have hxs1 : ∀ y ∈ xs, y < BASE := fun y hy => hxs y (by simp [hy])
    have hB : BASE = 4294967296 := rfl
    have hprod : x * rhs ≤ 4294967295 * 4294967295 := by
      apply Nat.mul_le_mul <;> omega
    have hsmall : x * rhs + carry < 18446744073709551616 := by omega
    simp only [small_mul_loop, Nat.mod_eq_of_lt hsmall]
    obtain ⟨res, hres⟩ : ∃ res, x * rhs + carry = res := ⟨_, rfl⟩
    rw [hres] at hsmall ⊢
    have hc1 : res / BASE < BASE := by rw [hB]; omega
    obtain ⟨h1, h2, h3, h4⟩ := ih hxs1 (res / BASE) hc1
    obtain ⟨r, hr⟩ : ∃ r, small_mul_loop rhs xs (res / BASE) = r := ⟨_, rfl⟩
    rw [hr] at h1 h2 h3 h4 ⊢
    refine ⟨by simp [h1], ?_, h3, ?_⟩
    · intro y hy
      simp only [List.mem_cons] at hy
      rcases hy with hy | hy
      · subst hy; exact Nat.mod_lt _ (by decide)
      · exact h2 y hy
    · simp only [limbs_val, List.length_cons, pow_succ]
      have hdm := Nat.div_add_mod res BASE
      zify at h4 hdm hres ⊢
      linear_combination (BASE : Int) * h4 + hdm - hres

/-- Multiplying by one limb multiplies the magnitude. -/
theorem small_mul_value (a : big_integer) (rhs : Nat) (ha : wf a) (hrhs : rhs < BASE) :
    value (small_mul a rhs) = |value a| * rhs := by
  obtain ⟨h1, h2, h3, h4⟩ := small_mul_loop_spec rhs hrhs (absolutify a).arr
    (wf_absolutify a ha) 0 (by decide)
  unfold small_mul
  simp only
  obtain ⟨r, hr⟩ : ∃ r, small_mul_loop rhs (absolutify a).arr 0 = r := ⟨_, rfl⟩
  rw [hr] at h1 h2 h3 h4 ⊢
  rw [value_remove_leading, absolutify_is_neg a ha, value_mk_false, ← absolutify_limbs a ha]
  zify at h4
  split_ifs with h0
  · rw [limbs_val_snoc, h1]
    push_cast
    linear_combination h4
  · have : r.2 = 0 := not_not.mp h0
    rw [this] at h4
    push_cast at h4
    linear_combination h4

theorem wf_small_mul (a : big_integer) (rhs : Nat) (ha : wf a) (hrhs : rhs < BASE) :
    wf (small_mul a rhs) := by
  obtain ⟨h1, h2, h3, h4⟩ := small_mul_loop_spec rhs hrhs (absolutify a).arr
    (wf_absolutify a ha) 0 (by decide)
  unfold small_mul
  simp only
  apply wf_remove_leading
  split_ifs with h0
  · intro x hx
    simp only [List.mem_append, List.mem_singleton] at hx
    rcases hx with hx | hx
    · exact h2 x hx
    · rw [hx]; exact h3
  · exact h2

end Bigint

namespace Bigint

/-! ## Construction from a decimal text -/

theorem isdigit_eq (c : Char) : isdigit c = c.isDigit := by
  unfold isdigit Char.isDigit
  have h1 : (48 ≤ c.toNat) ↔ (c.val ≥ 48) := by
    simp [Char.toNat, UInt32.le_def, UInt32.toNat, BitVec.le_def, GE.ge]
  have h2 : (c.toNat ≤ 57) ↔ (c.val ≤ 57) := by
    simp [Char.toNat, UInt32.le_def, UInt32.toNat, BitVec.le_def]
  rw [Bool.decide_and, decide_eq_decide.mpr h1, decide_eq_decide.mpr h2]

/-- The accumulating form of `decimal_val`. -/
theorem decimal_foldl (ds : List Char) (acc : Nat) :
    ds.foldl (fun acc c => acc * 10 + (c.toNat - 48)) acc
      = acc * 10 ^ ds.length + decimal_val ds := by
  unfold decimal_val
  induction ds generalizing acc with
  | nil => simp
  | cons c cs ih =>
    simp only [List.foldl_cons, List.length_cons, zero_mul, zero_add]
    rw [ih (acc * 10 + (c.toNat - 48)), ih (c.toNat - 48)]
    ring

theorem decimal_val_append (l1 l2 : List Char) :
    decimal_val (l1 ++ l2) = decimal_val l1 * 10 ^ l2.length + decimal_val l2 := by
  have := decimal_foldl l2 (decimal_val l1)
  unfold decimal_val at this ⊢
  rw [List.foldl_append, this]

theorem decimal_val_lt (ds : List Char) (h : ∀ c ∈ ds, c.isDigit = true) :
    decimal_val ds < 10 ^ ds.length := by
  induction ds using List.reverseRecOn with
  | nil => simp [decimal_val]
  | append_singleton l c ih =>
    have hc : c.isDigit = true := h c (by simp)
    have hl := ih (fun x hx => h x (by simp [hx]))
    rw [decimal_val_append]
    have hd : decimal_val [c] ≤ 9 := by
      rw [← isdigit_eq] at hc
      simp only [isdigit, decide_eq_true_eq] at hc
      simp only [decimal_val, List.foldl_cons, List.foldl_nil, zero_mul, zero_add]
      omega
    simp only [List.length_append, List.length_singleton, pow_succ, pow_zero, mul_one]
    omega

end Bigint

namespace Bigint

theorem from_string_block_spec (steps k : Nat) (cur : Int) (cs : List Char) (hcs : cs ≠ []) :
    from_string_block steps k cur cs
      = if (∀ c ∈ cs.take steps, c.isDigit = true) then
          some (k + min steps cs.length - (if cs.length ≤ steps then 1 else 0),
            cur * 10 ^ (min steps cs.length) + (decimal_val (cs.take steps) : Int),
            cs.drop steps)
        else none := by
  induction steps generalizing k cur cs with
  | zero =>
    have : ¬ cs.length ≤ 0 := by
      intro h; exact hcs (List.length_eq_zero.mp (Nat.le_zero.mp h))
    simp [from_string_block, decimal_val, this]
  | succ steps ih =>
    cases cs with
    | nil => exact absurd rfl hcs
    | cons c cs =>
      simp only [from_string_block, isdigit_eq, List.take_succ_cons, List.mem_cons,
        forall_eq_or_imp, List.drop_succ_cons, List.length_cons]
      by_cases hc : c.isDigit = true
      · have hc48 : 48 ≤ c.toNat := by
          rw [← isdigit_eq] at hc
          simp only [isdigit, decide_eq_true_eq] at hc
          exact hc.1
        simp only [hc, Bool.true_eq_false, if_false, true_and]
        by_cases hnil : cs = []
        · subst hnil
          simp [decimal_val, hc48]
        · have hlen : cs.length ≠ 0 := fun h => hnil (List.length_eq_zero.mp h)
          rw [if_neg hlen, ih (k + 1) _ cs hnil]
          have e1 : (decimal_val (c :: cs.take steps) : Int)
              = ((c.toNat : Int) - 48) * 10 ^ (min steps cs.length) + decimal_val (cs.take steps) := by
            have h := decimal_val_append [c] (cs.take steps)
            have h2 : decimal_val [c] = c.toNat - 48 := by simp [decimal_val]
            rw [List.singleton_append, h2, List.length_take] at h
            rw [h]
            push_cast [hc48]
            rfl
          by_cases hall : ∀ a ∈ cs.take steps, a.isDigit = true
          · rw [if_pos hall, if_pos hall]
            have e2 : min (steps + 1) (cs.length + 1) = min steps cs.length + 1 := by omega
            rw [e1, e2, pow_succ]
            congr 1
            refine Prod.ext ?_ (Prod.ext ?_ rfl)
            · show k + 1 + min steps cs.length - (if cs.length ≤ steps then 1 else 0)
                = k + (min steps cs.length + 1) - (if cs.length + 1 ≤ steps + 1 then 1 else 0)
              split_ifs <;> omega
            · show (cur * 10 + ((c.toNat : Int) - 48)) * 10 ^ min steps cs.length
                  + (decimal_val (cs.take steps) : Int)
                = cur * (10 ^ min steps cs.length * 10)
                  + (((c.toNat : Int) - 48) * 10 ^ min steps cs.length
                    + (decimal_val (cs.take steps) : Int))
              ring
          · rw [if_neg hall, if_neg hall]
      · simp [hc]

theorem from_string_pow_eq (k : Nat) (hk : k ≤ 8) : from_string_pow k 10 = 10 ^ (k + 1) := by
  interval_cases k <;> rfl

end Bigint

namespace Bigint

theorem value_nonneg_of_not_neg (a : big_integer) (ha : wf a) (h : 0 ≤ value a) :
    a.is_neg = false := by
  cases hs : a.is_neg
  · rfl
  · exact absurd ((is_neg_iff a ha).mp hs) (not_lt.mpr h)

theorem from_string_loop_spec (fuel : Nat) (cs : List Char) (self : big_integer)
    (hwf : wf self) (h0 : 0 ≤ value self) (hfuel : cs.length ≤ fuel) :
    ((∀ c ∈ cs, c.isDigit = true) →
      ∃ r, from_string_loop fuel cs self = .done r ∧ wf r
        ∧ value r = value self * 10 ^ cs.length + decimal_val cs)
    ∧ (¬ (∀ c ∈ cs, c.isDigit = true) →
      from_string_loop fuel cs self
        = .invalid_argument "String has to contain only numbers") := by
  induction fuel generalizing cs self with
  | zero =>
    have : cs = [] := List.length_eq_zero.mp (Nat.le_zero.mp hfuel)
    subst this
    simp [from_string_loop, decimal_val, hwf]
  | succ fuel ih =>
    cases cs with
    | nil => simp [from_string_loop, decimal_val, hwf]
    | cons c cs =>
      simp only [from_string_loop]
      rw [from_string_block_spec POW_10_BLOCK_SIZE 0 0 (c :: cs) (by simp)]
      have hsplit : (∀ x ∈ c :: cs, x.isDigit = true)
          ↔ (∀ x ∈ (c :: cs).take POW_10_BLOCK_SIZE, x.isDigit = true)
            ∧ (∀ x ∈ (c :: cs).drop POW_10_BLOCK_SIZE, x.isDigit = true) := by
        constructor
        · intro h
          exact ⟨fun x hx => h x (List.mem_of_mem_take hx),
            fun x hx => h x (List.mem_of_mem_drop hx)⟩
        · rintro ⟨h1, h2⟩ x hx
          rw [← List.take_append_drop POW_10_BLOCK_SIZE (c :: cs)] at hx
          rcases List.mem_append.mp hx with hx | hx
          · exact h1 x hx
          · exact h2 x hx
      by_cases htake : ∀ x ∈ (c :: cs).take POW_10_BLOCK_SIZE, x.isDigit = true
      · rw [if_pos htake]
        simp only [zero_mul, zero_add]
        -- the multiplier is ten to the number of digits read
        obtain ⟨m, hm⟩ : ∃ m, min POW_10_BLOCK_SIZE (c :: cs).length = m := ⟨_, rfl⟩
        have hm9 : m ≤ 9 := by rw [← hm]; exact Nat.min_le_left _ _
        have hm1 : 1 ≤ m := by
          rw [← hm]; simp [POW_10_BLOCK_SIZE]
        have hmul : (if m - (if (c :: cs).length ≤ POW_10_BLOCK_SIZE then 1 else 0)
              = POW_10_BLOCK_SIZE then small_mul self POW_10_BLOCK
            else small_mul self (from_string_pow
              (m - (if (c :: cs).length ≤ POW_10_BLOCK_SIZE then 1 else 0)) 10))
            = small_mul self (10 ^ m) := by
          by_cases hle : (c :: cs).length ≤ POW_10_BLOCK_SIZE
          · have hne : ¬ (m - 1 = POW_10_BLOCK_SIZE) := by
              simp only [POW_10_BLOCK_SIZE]; omega
            rw [if_pos hle, if_neg hne, from_string_pow_eq _ (by omega)]
            congr 2
            omega
          · have hm' : m = 9 := by
              rw [← hm]; simp only [POW_10_BLOCK_SIZE] at hle ⊢; omega
            rw [if_neg hle, hm']
            rfl
        rw [hm, hmul]
        have hpow : 10 ^ m < BASE := by
          have : 10 ^ m ≤ 10 ^ 9 := Nat.pow_le_pow_right (by decide) hm9
          have hB : BASE = 4294967296 := rfl
          omega
        have hlt := decimal_val_lt _ htake
        have hlen : ((c :: cs).take POW_10_BLOCK_SIZE).length = m := by
          rw [List.length_take, hm]
        rw [hlen] at hlt
        have hlt2 : decimal_val ((c :: cs).take POW_10_BLOCK_SIZE) < 2147483648 := by
          have : 10 ^ m ≤ 10 ^ 9 := Nat.pow_le_pow_right (by decide) hm9
          omega
        have hwf1 := wf_small_mul self (10 ^ m) hwf hpow
        have hv1 := small_mul_value self (10 ^ m) hwf hpow
        rw [abs_of_nonneg h0] at hv1
        have hwf2 := wf_add_int (small_mul self (10 ^ m))
          (decimal_val ((c :: cs).take POW_10_BLOCK_SIZE)) hwf1 (by positivity)
          (by exact_mod_cast hlt2)
        have hv2 := add_int_value (small_mul self (10 ^ m))
          (decimal_val ((c :: cs).take POW_10_BLOCK_SIZE)) hwf1 (by positivity)
          (by exact_mod_cast hlt2)
        rw [hv1] at hv2
        have h02 : 0 ≤ value (add_int (small_mul self (10 ^ m))
            (decimal_val ((c :: cs).take POW_10_BLOCK_SIZE))) := by
          rw [hv2]; positivity
        have hfuel2 : ((c :: cs).drop POW_10_BLOCK_SIZE).length ≤ fuel := by
          rw [List.length_drop]
          simp only [List.length_cons, POW_10_BLOCK_SIZE] at hfuel ⊢
          omega
        obtain ⟨g1, g2⟩ := ih _ _ hwf2 h02 hfuel2
        constructor
        · intro hall
          obtain ⟨r, hr1, hr2, hr3⟩ := g1 (hsplit.mp hall).2
          refine ⟨r, hr1, hr2, ?_⟩
          rw [hr3, hv2]
          have hd := decimal_val_append ((c :: cs).take POW_10_BLOCK_SIZE)
            ((c :: cs).drop POW_10_BLOCK_SIZE)
          rw [List.take_append_drop] at hd
          have hl : (c :: cs).length = m + ((c :: cs).drop POW_10_BLOCK_SIZE).length := by
            rw [← hlen, ← List.length_append, List.take_append_drop]
          rw [hd, hl, pow_add]
          push_cast
          ring
        · intro hnall
          apply g2
          intro hdrop
          exact hnall (hsplit.mpr ⟨htake, hdrop⟩)
      · rw [if_neg htake]
        constructor
        · intro hall
          exact absurd (hsplit.mp hall).1 htake
        · intro _
          rfl

end Bigint

namespace Bigint

theorem wf_zero : wf zero := by
  intro x hx; simp [zero] at hx

theorem value_zero : value zero = 0 := by
  simp [value, zero, limbs_val]

/-- One pass of the block loop: `k` digits are read (`k` is 9, or less for the
last block), the number built so far is multiplied by `10^k` and the block is
added. -/
theorem from_string_loop_step (fuel : Nat) (cs : List Char) (self : big_integer)
    (hne : cs ≠ []) (htake : ∀ x ∈ cs.take 9, x.isDigit = true) :
    from_string_loop (fuel + 1) cs self
      = from_string_loop fuel (cs.drop 9)
          (add_int (small_mul self (10 ^ (min 9 cs.length))) (decimal_val (cs.take 9))) := by
  cases cs with
  | nil => exact absurd rfl hne
  | cons c cs =>
    simp only [from_string_loop]
    rw [from_string_block_spec POW_10_BLOCK_SIZE 0 0 (c :: cs) (by simp)]
    have htake2 : ∀ x ∈ (c :: cs).take POW_10_BLOCK_SIZE, x.isDigit = true := htake
    rw [if_pos htake2]
    simp only [zero_mul, zero_add]
    have h9 : POW_10_BLOCK_SIZE = 9 := rfl
    rw [h9]
    obtain ⟨m, hm⟩ : ∃ m, min 9 (c :: cs).length = m := ⟨_, rfl⟩
    have hm9 : m ≤ 9 := by rw [← hm]; exact Nat.min_le_left _ _
    have hm1 : 1 ≤ m := by rw [← hm]; simp
    rw [hm]
    congr 2
    by_cases hle : (c :: cs).length ≤ 9
    · have hne : ¬ (m - 1 = 9) := by omega
      rw [if_pos hle, if_neg hne, from_string_pow_eq _ (by omega)]
      congr 2
      omega
    · have hm' : m = 9 := by rw [← hm]; omega
      rw [if_neg hle, hm']
      rfl

theorem from_string_spec (str : List Char) :
    (well_formed str → ∃ x, from_string str = .done x ∧ wf x ∧ value x = denoted str)
    ∧ (¬ well_formed str → ∃ what, from_string str = .invalid_argument what) := by
  cases str with
  | nil =>
    refine ⟨fun h => ?_, fun _ => ⟨_, rfl⟩⟩
    simp [well_formed, digits_only] at h
  | cons c cs =>
    by_cases hc : c = '-'
    · subst hc
      by_cases hnil : cs = []
      · subst hnil
        refine ⟨fun h => ?_, fun _ => ⟨_, rfl⟩⟩
        simp [well_formed, digits_only] at h
      · have hlen : ¬ (cs.length + 1 = 1) := by
          intro h
          exact hnil (List.length_eq_zero.mp (by omega))
        obtain ⟨g1, g2⟩ := from_string_loop_spec ('-' :: cs).length cs zero wf_zero
          (by rw [value_zero]) (by simp)
        have hwf_iff : well_formed ('-' :: cs) ↔ ∀ x ∈ cs, x.isDigit = true := by
          simp [well_formed, digits_only, hnil]
        simp only [from_string, List.isEmpty_cons, Bool.false_eq_true, if_false, List.head?_cons,
          if_true, List.length_cons, hlen, false_and, List.drop_one, List.tail_cons,
          List.drop_succ_cons, List.drop_zero, and_true]
        constructor
        · intro h
          obtain ⟨r, hr1, hr2, hr3⟩ := g1 (hwf_iff.mp h)
          simp only [List.length_cons] at hr1
          rw [hr1]
          refine ⟨negate r, rfl, wf_negate r, ?_⟩
          rw [negate_value r hr2, hr3, value_zero]
          simp [denoted]
        · intro h
          have := g2 (fun hall => h (hwf_iff.mpr hall))
          simp only [List.length_cons] at this
          rw [this]
          exact ⟨_, rfl⟩
    · obtain ⟨g1, g2⟩ := from_string_loop_spec (c :: cs).length (c :: cs) zero wf_zero
        (by rw [value_zero]) (le_refl _)
      have hhead : ¬ (some c = some '-') := by simpa using hc
      have hwf_iff : well_formed (c :: cs) ↔ ∀ x ∈ c :: cs, x.isDigit = true := by
        simp [well_formed, digits_only, hc]
      have h01 : ¬ (cs.length + 1 = 1 ∧ 0 = 1) := by omega
      simp only [from_string, List.isEmpty_cons, Bool.false_eq_true, if_false, List.head?_cons,
        hhead, List.length_cons, List.drop_zero]
      rw [if_neg h01]
      constructor
      · intro h
        obtain ⟨r, hr1, hr2, hr3⟩ := g1 (hwf_iff.mp h)
        simp only [List.length_cons] at hr1
        rw [hr1]
        refine ⟨r, rfl, hr2, ?_⟩
        rw [hr3, value_zero]
        simp [denoted, hc]
      · intro h
        have := g2 (fun hall => h (hwf_iff.mpr hall))
        simp only [List.length_cons] at this
        rw [this]
        exact ⟨_, rfl⟩

end Bigint

namespace Bigint

/-! ## Division by one limb -/

theorem getD_set (l : List Nat) (i a j : Nat) :
    (l.set i a).getD j 0 = if i = j ∧ i < l.length then a else l.getD j 0 := by
  simp only [List.getD_eq_getElem?_getD, List.getElem?_set]
  by_cases h : i = j
  · subst h
    by_cases h2 : i < l.length
    · simp [h2]
    · simp [h2, List.getElem?_eq_none (not_lt.mp h2)]
  · simp [h]

theorem getD_drop (l : List Nat) (n j : Nat) : (l.drop n).getD j 0 = l.getD (n + j) 0 := by
  simp only [List.getD_eq_getElem?_getD, List.getElem?_drop]

theorem limbs_val_eq_zero (l : List Nat) (h : ∀ j, l.getD j 0 = 0) : limbs_val l = 0 := by
  induction l with
  | nil => rfl
  | cons x xs ih =>
    have h0 : x = 0 := by simpa using h 0
    have := ih (fun j => by simpa using h (j + 1))
    simp [limbs_val, h0, this]

/-- The number spelled by a limb list depends only on the limbs read with
default zero. -/
theorem limbs_val_congr (l1 l2 : List Nat) (h : ∀ j, l1.getD j 0 = l2.getD j 0) :
    limbs_val l1 = limbs_val l2 := by
  induction l1 generalizing l2 with
  | nil =>
    rw [limbs_val_eq_zero l2 (fun j => by simpa using (h j).symm)]
    rfl
  | cons x xs ih =>
    cases l2 with
    | nil =>
      rw [limbs_val_eq_zero (x :: xs) (fun j => by simpa using h j)]
      rfl
    | cons y ys =>
      have h0 : x = y := by simpa using h 0
      have := ih ys (fun j => by simpa using h (j + 1))
      simp [limbs_val, h0, this]

theorem wf_of_getD (l : List Nat) (h : ∀ j, l.getD j 0 < BASE) : ∀ y ∈ l, y < BASE := by
  intro y hy
  obtain ⟨n, hn, rfl⟩ := List.mem_iff_getElem.mp hy
  have := h n
  simpa [List.getD_eq_getElem?_getD, List.getElem?_eq_getElem hn] using this

theorem getD_of_le (l : List Nat) (j : Nat) (h : l.length ≤ j) : l.getD j 0 = 0 := by
  simp [List.getD_eq_getElem?_getD, List.getElem?_eq_none h]

theorem limbs_val_drop (l : List Nat) (i : Nat) (hi : i < l.length) :
    limbs_val (l.drop i) = l.getD i 0 + BASE * limbs_val (l.drop (i + 1)) := by
  rw [List.drop_eq_getElem_cons hi]
  simp [limbs_val, List.getD_eq_getElem?_getD, List.getElem?_eq_getElem hi]

theorem limbs_val_drop_set (l : List Nat) (i x : Nat) (hi : i < l.length) :
    limbs_val ((l.set i x).drop i) = x + BASE * limbs_val (l.drop (i + 1)) := by
  rw [limbs_val_drop _ i (by simpa using hi), getD_set]
  simp only [hi, and_self, if_true]
  congr 2
  rw [List.drop_set]
  simp

end Bigint

namespace Bigint

theorem div_with_rem_loop_spec (num size : Nat) (hnum : 0 < num) (arr0 : List Nat)
    (hwf0 : ∀ x ∈ arr0, x < BASE) (hsize : arr0.length = size)
    (index : Nat) (arr : List Nat) (rem li1 : Nat)
    (hlen : arr.length = size) (hil : index ≤ li1) (hls : li1 ≤ size)
    (hlow : ∀ j, j < index → arr.getD j 0 = arr0.getD j 0) (hrem : rem < num)
    (heq : limbs_val (arr0.drop index) = limbs_val (arr.drop li1) * num + rem)
    (hwf : ∀ j, li1 ≤ j → arr.getD j 0 < BASE) :
    (div_with_rem_loop num size index arr rem li1).1.length = size
    ∧ (div_with_rem_loop num size index arr rem li1).2.2 ≤ size
    ∧ (div_with_rem_loop num size index arr rem li1).2.1 < num
    ∧ limbs_val arr0
        = limbs_val ((div_with_rem_loop num size index arr rem li1).1.drop
            (div_with_rem_loop num size index arr rem li1).2.2) * num
          + (div_with_rem_loop num size index arr rem li1).2.1
    ∧ (∀ j, (div_with_rem_loop num size index arr rem li1).2.2 ≤ j →
        (div_with_rem_loop num size index arr rem li1).1.getD j 0 < BASE) := by
  induction index generalizing arr rem li1 with
  | zero =>
    simp only [div_with_rem_loop]
    exact ⟨hlen, hls, hrem, by simpa using heq, hwf⟩
  | succ index ih =>
    have hx : arr.getD index 0 = arr0.getD index 0 := hlow index (Nat.lt_succ_self _)
    have hxB : arr0.getD index 0 < BASE := getD_lt_base arr0 0 index hwf0 (by decide)
    have hidx : index < arr0.length := by omega
    have hdrop := limbs_val_drop arr0 index hidx
    simp only [div_with_rem_loop, hx]
    obtain ⟨x, hxdef⟩ : ∃ x, arr0.getD index 0 = x := ⟨_, rfl⟩
    rw [hxdef] at hxB hdrop ⊢
    obtain ⟨res, hres⟩ : ∃ res, rem * BASE + x = res := ⟨_, rfl⟩
    rw [hres]
    have hmod : res % num < num := Nat.mod_lt _ hnum
    have hdm := Nat.div_add_mod res num
    split_ifs with hw
    · -- a quotient limb is written at `li1 - 1`
      have hresB : res < num * BASE := by
        rw [← hres]
        have : (rem + 1) * BASE ≤ num * BASE := Nat.mul_le_mul_right _ hrem
        nlinarith
      have hd : res / num < BASE := by
        rw [Nat.div_lt_iff_lt_mul hnum]
        rw [mul_comm]; exact hresB
      rw [Nat.mod_eq_of_lt hd]
      have hli : li1 - 1 < arr.length := by omega
      have hset := limbs_val_drop_set arr (li1 - 1) (res / num) hli
      have e1 : li1 - 1 + 1 = li1 := by omega
      rw [e1] at hset
      apply ih
      · simp [hlen]
      · omega
      · omega
      · intro j hj
        rw [getD_set]
        have : ¬ (li1 - 1 = j ∧ li1 - 1 < arr.length) := by omega
        rw [if_neg this]
        exact hlow j (by omega)
      · exact hmod
      · rw [hset, hdrop, heq]
        zify at hres hdm ⊢
        linear_combination hres - hdm
      · intro j hj
        rw [getD_set]
        split_ifs with h
        · exact hd
        · apply hwf
          by_contra hlt
          exact h ⟨by omega, hli⟩
    · -- leading zero limbs of the quotient are skipped
      have hw' : li1 = size ∧ res < num := by
        constructor
        · by_contra h; exact hw (Or.inl h)
        · by_contra h; exact hw (Or.inr (not_lt.mp h))
      have hq : limbs_val (arr.drop li1) = 0 := by
        rw [hw'.1, ← hlen, List.drop_length]; rfl
      apply ih
      · exact hlen
      · omega
      · exact hls
      · intro j hj
        exact hlow j (by omega)
      · exact hmod
      · rw [hdrop, heq, hq, Nat.mod_eq_of_lt hw'.2]
        rw [← hres]
        ring
      · exact hwf

end Bigint

namespace Bigint

theorem div_with_rem_swap_spec (li1 size : Nat) (arr0 : List Nat) (steps i : Nat)
    (arr : List Nat) (hlen : arr.length = size) (hi : i + steps = size) (hli : li1 ≤ i)
    (hlow : ∀ t, t + li1 < i → arr.getD t 0 = arr0.getD (t + li1) 0)
    (hhigh : ∀ j, i ≤ j → arr.getD j 0 = arr0.getD j 0) :
    (div_with_rem_swap li1 steps i arr).length = size
    ∧ ∀ t, t + li1 < size → (div_with_rem_swap li1 steps i arr).getD t 0 = arr0.getD (t + li1) 0 := by
  induction steps generalizing i arr with
  | zero =>
    simp only [div_with_rem_swap]
    refine ⟨hlen, fun t ht => hlow t (by omega)⟩
  | succ steps ih =>
    simp only [div_with_rem_swap]
    apply ih
    · simp [hlen]
    · omega
    · omega
    · intro t ht
      rw [getD_set, getD_set, List.length_set]
      by_cases h1 : t + li1 = i
      · have e : i - li1 = t := by omega
        rw [if_pos ⟨e, by omega⟩, ← h1]
        exact hhigh _ (by omega)
      · have n1 : ¬ (i - li1 = t ∧ i - li1 < arr.length) := by omega
        have n2 : ¬ (i = t ∧ i < arr.length) := by omega
        rw [if_neg n1, if_neg n2]
        exact hlow t (by omega)
    · intro j hj
      rw [getD_set, getD_set, List.length_set]
      have n1 : ¬ (i - li1 = j ∧ i - li1 < arr.length) := by omega
      have n2 : ¬ (i = j ∧ i < arr.length) := by omega
      rw [if_neg n1, if_neg n2]
      exact hhigh j (by omega)

theorem div_with_rem_clear_spec (steps i : Nat) (arr : List Nat) :
    (div_with_rem_clear steps i arr).length = arr.length
    ∧ ∀ j, (div_with_rem_clear steps i arr).getD j 0
        = if i ≤ j ∧ j < i + steps then 0 else arr.getD j 0 := by
  induction steps generalizing i arr with
  | zero =>
    refine ⟨rfl, fun j => ?_⟩
    have : ¬ (i ≤ j ∧ j < i + 0) := by omega
    rw [if_neg this]
    rfl
  | succ steps ih =>
    simp only [div_with_rem_clear]
    obtain ⟨h1, h2⟩ := ih (i + 1) (arr.set i 0)
    refine ⟨by rw [h1]; simp, fun j => ?_⟩
    rw [h2 j, getD_set]
    by_cases hj : i = j
    · subst hj
      have n1 : ¬ (i + 1 ≤ i ∧ i < i + 1 + steps) := by omega
      have p1 : i ≤ i ∧ i < i + (steps + 1) := by omega
      rw [if_neg n1, if_pos p1]
      split_ifs with h
      · rfl
      · exact getD_of_le arr i (by omega)
    · have n1 : ¬ (i = j ∧ i < arr.length) := fun h => hj h.1
      rw [if_neg n1]
      by_cases h3 : i + 1 ≤ j ∧ j < i + 1 + steps
      · rw [if_pos h3, if_pos (by omega)]
      · rw [if_neg h3, if_neg (by omega)]

/-- Dividing a non-negative number by a non-zero limb: the receiver becomes
the quotient and the remainder is returned. -/
theorem div_with_rem_spec (a : big_integer) (num : Nat) (ha : wf a) (hs : a.is_neg = false)
    (hnum : 0 < num) :
    wf (div_with_rem a num).1 ∧ (div_with_rem a num).1.is_neg = false
    ∧ value (div_with_rem a num).1 = value a / num
    ∧ ((div_with_rem a num).2 : Int) = value a % num := by
  obtain ⟨arr, s⟩ := a
  simp only at hs
  subst hs
  have habs : absolutify ⟨arr, false⟩ = ⟨arr, false⟩ := by simp [absolutify]
  obtain ⟨h1, h2, h3, h4, h5⟩ := div_with_rem_loop_spec num arr.length hnum arr ha rfl
    arr.length arr 0 arr.length rfl (le_refl _) (le_refl _) (fun _ _ => rfl) hnum
    (by simp [limbs_val]) (fun j hj => by rw [getD_of_le arr j hj]; decide)
  unfold div_with_rem
  simp only [habs, Bool.false_eq_true, if_false]
  obtain ⟨r, hr⟩ : ∃ r, div_with_rem_loop num arr.length arr.length arr 0 arr.length = r :=
    ⟨_, rfl⟩
  rw [hr] at h1 h2 h3 h4 h5 ⊢
  obtain ⟨g1, g2⟩ := div_with_rem_swap_spec r.2.2 arr.length r.1 (arr.length - r.2.2) r.2.2 r.1
    h1 (by omega) (le_refl _) (fun t ht => by omega) (fun _ _ => rfl)
  obtain ⟨k1, k2⟩ := div_with_rem_clear_spec (arr.length - (arr.length - r.2.2))
    (arr.length - r.2.2) (div_with_rem_swap r.2.2 (arr.length - r.2.2) r.2.2 r.1)
  obtain ⟨arr2, harr2⟩ : ∃ arr2, div_with_rem_clear (arr.length - (arr.length - r.2.2))
    (arr.length - r.2.2) (div_with_rem_swap r.2.2 (arr.length - r.2.2) r.2.2 r.1) = arr2 :=
    ⟨_, rfl⟩
  rw [harr2] at k1 k2 ⊢
  have hpt : ∀ j, arr2.getD j 0 = (r.1.drop r.2.2).getD j 0 := by
    intro j
    rw [k2 j, getD_drop]
    by_cases hj : j + r.2.2 < arr.length
    · have n : ¬ (arr.length - r.2.2 ≤ j ∧ j < arr.length - r.2.2 + (arr.length - (arr.length - r.2.2))) := by
        omega
      rw [if_neg n, g2 j hj, add_comm]
    · by_cases hj2 : j < arr.length
      · rw [if_pos (by omega)]
        exact (getD_of_le r.1 _ (by omega)).symm
      · have n : ¬ (arr.length - r.2.2 ≤ j ∧ j < arr.length - r.2.2 + (arr.length - (arr.length - r.2.2))) := by
          omega
        rw [if_neg n, getD_of_le _ j (by rw [g1]; omega)]
        exact (getD_of_le r.1 _ (by omega)).symm
  have hval : limbs_val arr2 = limbs_val (r.1.drop r.2.2) := limbs_val_congr _ _ hpt
  have hwf2 : wf ⟨arr2, false⟩ := by
    apply wf_of_getD
    intro j
    show arr2.getD j 0 < BASE
    rw [hpt j, getD_drop]
    exact h5 _ (by omega)
  refine ⟨wf_remove_leading _ hwf2, by rw [is_neg_remove_leading], ?_, ?_⟩
  · rw [value_remove_leading, value_mk_false, value_mk_false, hval, h4]
    have hq : (limbs_val (r.1.drop r.2.2) * num + r.2.1) / num = limbs_val (r.1.drop r.2.2) := by
      rw [Nat.add_comm, Nat.add_mul_div_right _ _ hnum, Nat.div_eq_of_lt h3, zero_add]
    rw [← Int.natCast_div, hq]
  · rw [value_mk_false, h4]
    have hm : (limbs_val (r.1.drop r.2.2) * num + r.2.1) % num = r.2.1 := by
      rw [Nat.add_comm, Nat.add_mul_mod_self_right, Nat.mod_eq_of_lt h3]
    rw [← Int.natCast_mod, hm]

end Bigint

namespace Bigint

/-! ## Conversion to decimal text -/

theorem toDigitsCore_eq (fuel n : Nat) (ds : List Char) (hn : 0 < n) (hf : n < fuel) :
    Nat.toDigitsCore 10 fuel n ds = (Nat.digits 10 n).reverse.map Nat.digitChar ++ ds := by
  induction fuel generalizing n ds with
  | zero => omega
  | succ fuel ih =>
    simp only [Nat.toDigitsCore]
    rw [Nat.digits_def' (by decide) hn]
    by_cases h0 : n / 10 = 0
    · simp [h0]
    · rw [if_neg h0, ih (n / 10) _ (Nat.pos_of_ne_zero h0) (by omega)]
      simp

theorem toDigits_eq (n : Nat) :
    Nat.toDigits 10 n
      = if n = 0 then ['0'] else (Nat.digits 10 n).reverse.map Nat.digitChar := by
  by_cases h : n = 0
  · subst h; rfl
  · rw [if_neg h]
    unfold Nat.toDigits
    rw [toDigitsCore_eq (n + 1) n [] (Nat.pos_of_ne_zero h) (by omega)]
    simp

theorem toDigits_length (n : Nat) :
    (Nat.toDigits 10 n).length = Nat.log 10 (max n 1) + 1 := by
  rw [toDigits_eq]
  by_cases h : n = 0
  · subst h; simp
  · rw [if_neg h]
    have : max n 1 = n := by omega
    simp [this, Nat.digits_len 10 n (by decide) h]

/-- The decimal digits of a number, least significant first and as characters,
split into the lowest nine-digit group (padded with zeros) and the rest. -/
theorem toDigits_block (q r : Nat) (hq : 0 < q) (hr : r < 1000000000) :
    (Nat.toDigits 10 r).reverse
        ++ List.replicate (9 - (Nat.log 10 (max r 1) + 1)) '0'
        ++ (Nat.toDigits 10 q).reverse
      = (Nat.toDigits 10 (q * 1000000000 + r)).reverse := by
  have hN : q * 1000000000 + r ≠ 0 := by omega
  rw [toDigits_eq q, toDigits_eq (q * 1000000000 + r), if_neg (by omega), if_neg hN]
  by_cases h0 : r = 0
  · subst h0
    have h := @Nat.digits_append_zeroes_append_digits 10 9 q 0 (by decide) hq
    simp only [Nat.digits_zero, List.nil_append, List.length_nil, zero_add] at h
    have e : q * 1000000000 + 0 = 10 ^ 9 * q := by ring
    rw [e, ← h]
    simp only [List.reverse_append, List.map_append, List.reverse_reverse, List.map_reverse,
      List.reverse_replicate, List.map_replicate]
    have e0 : Nat.toDigits 10 0 = ['0'] := rfl
    have e1 : Nat.digitChar 0 = '0' := rfl
    have e2 : 9 - (Nat.log 10 (max 0 1) + 1) = 8 := by simp
    rw [e0, e1, e2]
    rfl
  · have hlen := Nat.digits_len 10 r (by decide) h0
    have hle : (Nat.digits 10 r).length ≤ 9 := by
      have : Nat.log 10 r < 9 := Nat.log_lt_of_lt_pow h0 (by omega)
      omega
    have h := @Nat.digits_append_zeroes_append_digits 10 (9 - (Nat.digits 10 r).length) q r
      (by decide) hq
    have e2 : (Nat.digits 10 r).length + (9 - (Nat.digits 10 r).length) = 9 := by omega
    rw [e2] at h
    have e : q * 1000000000 + r = r + 10 ^ 9 * q := by ring
    have hmax : max r 1 = r := by omega
    rw [e, ← h, toDigits_eq r, if_neg h0, hmax, ← hlen]
    simp only [List.reverse_append, List.map_append, List.reverse_reverse, List.map_reverse,
      List.reverse_replicate, List.map_replicate]
    have e1 : Nat.digitChar 0 = '0' := rfl
    rw [e1]

end Bigint

namespace Bigint

theorem limbs_val_eq_zero_imp (l : List Nat) (h : limbs_val l = 0) : ∀ x ∈ l, x = 0 := by
  induction l with
  | nil => simp
  | cons y ys ih =>
    simp only [limbs_val] at h
    have hy : y = 0 := by omega
    have hys : limbs_val ys = 0 := by
      have hB : BASE = 4294967296 := rfl
      rw [hB] at h; omega
    intro x hx
    simp only [List.mem_cons] at hx
    rcases hx with hx | hx
    · rw [hx, hy]
    · exact ih hys x hx

/-- A normalised non-negative number of value zero has no limbs. -/
theorem remove_leading_eq_zero (a : big_integer) (hs : a.is_neg = false)
    (hv : value (remove_leading a) = 0) : remove_leading a = zero := by
  obtain ⟨arr, s⟩ := a
  simp only at hs
  subst hs
  have hrl : remove_leading ⟨arr, false⟩ = ⟨arr.rdropWhile (fun x => x == 0), false⟩ := by
    simp [remove_leading, get_complement]
  rw [hrl] at hv ⊢
  rw [value_mk_false] at hv
  have hv' : limbs_val (arr.rdropWhile (fun x => x == 0)) = 0 := by exact_mod_cast hv
  have hall := limbs_val_eq_zero_imp _ hv'
  by_cases hnil : arr.rdropWhile (fun x => x == 0) = []
  · rw [hnil]; rfl
  · have hlast := List.rdropWhile_last_not (fun x => x == 0) arr hnil
    have := hall _ (List.getLast_mem hnil)
    simp [this] at hlast

theorem div_with_rem_eq_zero (a : big_integer) (num : Nat) (hs : a.is_neg = false)
    (hv : value (div_with_rem a num).1 = 0) : (div_with_rem a num).1 = zero := by
  have habs : absolutify a = a := by simp [absolutify, hs]
  unfold div_with_rem at hv ⊢
  simp only [habs, hs, Bool.false_eq_true, if_false] at hv ⊢
  exact remove_leading_eq_zero _ rfl hv

theorem of_signed_zero : of_signed 0 = zero := by decide

theorem to_string_loop_spec (fuel : Nat) (copy : big_integer) (res : List Char)
    (hwf : wf copy) (hs : copy.is_neg = false)
    (hfuel : value copy < (1000000000 : Int) ^ (fuel + 1)) :
    to_string_loop (fuel + 1) copy res
      = some (res ++ (Nat.toDigits 10 (value copy).toNat).reverse) := by
  induction fuel generalizing copy res with
  | zero =>
    obtain ⟨h1, h2, h3, h4⟩ := div_with_rem_spec copy POW_10_BLOCK hwf hs (by decide)
    have hv0 : 0 ≤ value copy := by
      rw [← abs_of_nonneg (le_refl (0 : Int))]
      by_contra hneg
      have := (is_neg_iff copy hwf).mpr (not_le.mp hneg)
      rw [hs] at this
      exact Bool.false_ne_true this
    have hP : (POW_10_BLOCK : Int) = 1000000000 := rfl
    have hq : value (div_with_rem copy POW_10_BLOCK).1 = 0 := by
      rw [h3, hP]
      simp only [zero_add, pow_one] at hfuel
      exact Int.ediv_eq_zero_of_lt hv0 hfuel
    have hz := div_with_rem_eq_zero copy POW_10_BLOCK hs hq
    have hrem : (div_with_rem copy POW_10_BLOCK).2 = (value copy).toNat := by
      have : ((div_with_rem copy POW_10_BLOCK).2 : Int) = value copy := by
        rw [h4, hP]
        simp only [zero_add, pow_one] at hfuel
        exact Int.emod_eq_of_lt hv0 hfuel
      omega
    simp only [to_string_loop, hz, of_signed_zero, if_true, hrem]
    rw [← toDigits_length, List.length_append, Nat.add_sub_cancel, List.take_left',
      List.drop_left']
    · rfl
    · rfl
  | succ fuel ih =>
    obtain ⟨h1, h2, h3, h4⟩ := div_with_rem_spec copy POW_10_BLOCK hwf hs (by decide)
    have hv0 : 0 ≤ value copy := by
      by_contra hneg
      have := (is_neg_iff copy hwf).mpr (not_le.mp hneg)
      rw [hs] at this
      exact Bool.false_ne_true this
    have hP : (POW_10_BLOCK : Int) = 1000000000 := rfl
    obtain ⟨N, hN⟩ : ∃ N : Nat, value copy = N := ⟨(value copy).toNat, by omega⟩
    have hNt : (value copy).toNat = N := by omega
    rw [hN, hP] at h3 h4
    have hrem : (div_with_rem copy POW_10_BLOCK).2 = N % 1000000000 := by
      have : ((div_with_rem copy POW_10_BLOCK).2 : Int) = ((N % 1000000000 : Nat) : Int) := by
        rw [h4]; push_cast; rfl
      exact_mod_cast this
    have hq : value (div_with_rem copy POW_10_BLOCK).1 = ((N / 1000000000 : Nat) : Int) := by
      rw [h3]; push_cast; rfl
    rw [to_string_loop]
    simp only [hrem, hNt]
    rw [← toDigits_length, List.length_append, Nat.add_sub_cancel, List.take_left',
      List.drop_left', of_signed_zero]
    rotate_left
    · rfl
    · rfl
    by_cases hq0 : N / 1000000000 = 0
    · have hz := div_with_rem_eq_zero copy POW_10_BLOCK hs (by rw [hq, hq0]; rfl)
      rw [if_pos hz]
      have : N % 1000000000 = N := by omega
      rw [this]
    · have hne : (div_with_rem copy POW_10_BLOCK).1 ≠ zero := by
        intro h
        rw [h, value_zero] at hq
        have : N / 1000000000 = 0 := by exact_mod_cast hq.symm
        exact hq0 this
      rw [if_neg hne]
      have hfuel2 : value (div_with_rem copy POW_10_BLOCK).1 < (1000000000 : Int) ^ (fuel + 1) := by
        rw [hq]
        rw [hN] at hfuel
        have hf : N < 1000000000 ^ (fuel + 1 + 1) := by exact_mod_cast hfuel
        have : N / 1000000000 < 1000000000 ^ (fuel + 1) := by
          rw [Nat.div_lt_iff_lt_mul (by decide)]
          rw [pow_succ] at hf
          exact hf
        exact_mod_cast this
      rw [ih _ _ h1 h2 hfuel2, hq]
      congr 1
      have hb := toDigits_block (N / 1000000000) (N % 1000000000) (Nat.pos_of_ne_zero hq0)
        (Nat.mod_lt _ (by decide))
      have e : N / 1000000000 * 1000000000 + N % 1000000000 = N := Nat.div_add_mod' N 1000000000
      rw [e] at hb
      rw [← hb]
      simp only [Int.toNat_ofNat, toDigits_length, POW_10_BLOCK_SIZE, List.append_assoc]

end Bigint

namespace Bigint

/-- The text `to_string` returns is the canonical decimal text of the value. -/
theorem to_string_value (a : big_integer) (ha : wf a) (hcan : a.arr = [] → a.is_neg = false) :
    to_string a = some (decimal_text (value a)) := by
  by_cases hnil : a.arr = []
  · have hs := hcan hnil
    have hv : value a = 0 := by simp [value, hnil, hs, limbs_val]
    simp [to_string, hnil, hv, decimal_text]
  · have hwf := wf_absolutify a ha
    have hs := absolutify_is_neg a ha
    have hv := absolutify_value a ha
    have hlt := limbs_val_lt (absolutify a).arr hwf
    have hfuel : value (absolutify a)
        < (1000000000 : Int) ^ (2 * (absolutify a).arr.length + 1) := by
      have h1 : value (absolutify a) = (limbs_val (absolutify a).arr : Int) := by
        simp [value, hs]
      rw [h1]
      have h2 : BASE ^ (absolutify a).arr.length
          ≤ 1000000000 ^ (2 * (absolutify a).arr.length + 1) := by
        rw [pow_succ, pow_mul]
        have h3 : BASE ^ (absolutify a).arr.length
            ≤ (1000000000 ^ 2) ^ (absolutify a).arr.length :=
          Nat.pow_le_pow_left (by decide) _
        have h4 : 0 < (1000000000 ^ 2) ^ (absolutify a).arr.length := pow_pos (by decide) _
        nlinarith
      have h5 : limbs_val (absolutify a).arr
          < 1000000000 ^ (2 * (absolutify a).arr.length + 1) := lt_of_lt_of_le hlt h2
      exact_mod_cast h5
    have hloop := to_string_loop_spec (2 * (absolutify a).arr.length) (absolutify a) [] hwf hs
      hfuel
    have hempty : a.arr.isEmpty = false := by
      cases h : a.arr with
      | nil => exact absurd h hnil
      | cons _ _ => rfl
    simp only [to_string, hempty, Bool.false_eq_true, if_false, hloop, List.nil_append]
    congr 1
    rw [hv]
    have hN : (|value a|).toNat = (value a).natAbs := by
      rw [Int.abs_eq_natAbs]; rfl
    rw [hN, toDigits_eq]
    unfold decimal_text
    by_cases h0 : value a = 0
    · have hneg : a.is_neg = false := by
        cases hs2 : a.is_neg
        · rfl
        · have := (is_neg_iff a ha).mp hs2
          omega
      simp [h0, hneg]
    · have hN0 : (value a).natAbs ≠ 0 := by omega
      rw [if_neg hN0, if_neg h0]
      cases hs2 : a.is_neg
      · have : ¬ value a < 0 := fun h => by
          have := (is_neg_iff a ha).mpr h
          rw [hs2] at this
          exact Bool.false_ne_true this
        simp [this]
      · have := (is_neg_iff a ha).mp hs2
        simp [this]

end Bigint

namespace Bigint

/-! ## Division: error behaviour -/

theorem knut_div_zero (a : big_integer) (same_object : Bool) (type : DivType) :
    knut_div a (of_signed 0) same_object type = .invalid_argument a := by
  simp [knut_div]

theorem knut_div_no_throw (a b : big_integer) (same_object : Bool) (type : DivType)
    (s : big_integer) (hb : b ≠ of_signed 0) :
    knut_div a b same_object type ≠ .invalid_argument s := by
  unfold knut_div
  rw [if_neg hb]
  simp only
  repeat' split
  all_goals (intro h; cases h)

theorem ne_zero_of_value_ne_zero (b : big_integer) (h : value b ≠ 0) : b ≠ of_signed 0 := by
  intro hb
  rw [hb, of_signed_zero, value_zero] at h
  exact h rfl

end Bigint

namespace Bigint

/-! ## The claims -/

/-- Claim C1, evaluated on the code: the dividend `-4294967296` (one limb `0`,
negative) and the divisor `4294967296` (limbs `0, 1`) are what the constructors
build; the divisor has more limbs, so `knut_div` takes its limb-count shortcut and
the quotient is `0`, whereas the quotient truncated toward zero is `-1`. -/
theorem C1_div_limb_count_shortcut :
    of_signed (-4294967296) = ⟨[0], true⟩ ∧ of_signed 4294967296 = ⟨[0, 1], false⟩
    ∧ value ⟨[0], true⟩ = -4294967296 ∧ value ⟨[0, 1], false⟩ = 4294967296
    ∧ div ⟨[0], true⟩ ⟨[0, 1], false⟩ = .done zero
    ∧ Int.tdiv (-4294967296) 4294967296 = -1
    ∧ value zero ≠ Int.tdiv (value ⟨[0], true⟩) (value ⟨[0, 1], false⟩) := by
  decide

/-- Claim C2, evaluated on the code: for the dividend `-4294967296` and the
divisor `4294967296` the limb-count shortcut of `knut_div` returns the dividend
itself as remainder; its magnitude equals that of the divisor, whereas the
remainder of truncating division is `0`. -/
theorem C2_mod_limb_count_shortcut :
    mod ⟨[0], true⟩ ⟨[0, 1], false⟩ = .done ⟨[0], true⟩
    ∧ value ⟨[0], true⟩ = -4294967296 ∧ value ⟨[0, 1], false⟩ = 4294967296
    ∧ ¬ (|value ⟨[0], true⟩| < |value ⟨[0, 1], false⟩|)
    ∧ Int.tmod (-4294967296) 4294967296 = 0
    ∧ value ⟨[0], true⟩ ≠ Int.tmod (value ⟨[0], true⟩) (value ⟨[0, 1], false⟩) := by
  decide

/-- Claim C3, evaluated on the code: for `a = 2^95` and `b = 2^95 + 2^31` the
trial digit is 1, the subtraction borrows, and the add-back of
`sub_q_if_overflows` adds the limbs without carrying; `a / b` is `0` but `a % b`
is `2^128 - 2^95 - 2^32`, so `(a / b) * b + a % b` differs from `a`. -/
theorem C3_division_law_add_back :
    value ⟨[0, 0, 2147483648], false⟩ = 39614081257132168796771975168
    ∧ value ⟨[2147483648, 0, 2147483648], false⟩ = 39614081257132168798919458816
    ∧ div ⟨[0, 0, 2147483648], false⟩ ⟨[2147483648, 0, 2147483648], false⟩ = .done zero
    ∧ mod ⟨[0, 0, 2147483648], false⟩ ⟨[2147483648, 0, 2147483648], false⟩
        = .done ⟨[0, 4294967295, 2147483647, 4294967295], false⟩
    ∧ add (mul zero ⟨[2147483648, 0, 2147483648], false⟩)
          ⟨[0, 4294967295, 2147483647, 4294967295], false⟩
        = ⟨[0, 4294967295, 2147483647, 4294967295], false⟩
    ∧ value ⟨[0, 4294967295, 2147483647, 4294967295], false⟩
        = 340282366881324382206242438630701268992
    ∧ add (mul zero ⟨[2147483648, 0, 2147483648], false⟩)
          ⟨[0, 4294967295, 2147483647, 4294967295], false⟩
        ≠ ⟨[0, 0, 2147483648], false⟩ := by
  decide

/-- Claim C4: dividing by zero, with `/` or `%`, throws `std::invalid_argument`
before the receiver is touched, whatever the dividend; a divisor that is not
the zero object never makes `knut_div` throw, and every divisor of non-zero
value is such a divisor. -/
theorem C4_divide_by_zero (a b s : big_integer) (same_object : Bool) (type : DivType) :
    knut_div a (of_signed 0) same_object type = .invalid_argument a
    ∧ (b ≠ of_signed 0 → knut_div a b same_object type ≠ .invalid_argument s)
    ∧ (value b ≠ 0 → b ≠ of_signed 0) :=
  ⟨knut_div_zero a same_object type, knut_div_no_throw a b same_object type s,
    ne_zero_of_value_ne_zero b⟩

/-- Witness of C4: `7 / 0` throws and leaves `7`, `7 / 2` does not throw. -/
theorem C4_divide_by_zero_witness :
    knut_div (of_signed 7) (of_signed 0) false .Quot = .invalid_argument (of_signed 7)
    ∧ knut_div (of_signed 7) (of_signed 2) false .Quot ≠ .invalid_argument (of_signed 7) :=
  ⟨(C4_divide_by_zero (of_signed 7) (of_signed 2) (of_signed 7) false .Quot).1,
    (C4_divide_by_zero (of_signed 7) (of_signed 2) (of_signed 7) false .Quot).2.1 (by decide)⟩

/-- Claim C5: for all big integers `a` and `b` whose limbs are 32-bit words, the
value of `a + b` is `value a + value b`. -/
theorem C5_add_value (a b : big_integer) (ha : wf a) (hb : wf b) :
    value (add a b) = value a + value b :=
  add_value a b ha hb

/-- Witness of C5: `(2^32 - 1) + (-(2^32 - 1))`, a sum that loses a limb. -/
theorem C5_add_value_witness :
    wf ⟨[4294967295], false⟩ ∧ wf ⟨[1], true⟩
    ∧ value (add ⟨[4294967295], false⟩ ⟨[1], true⟩)
        = value ⟨[4294967295], false⟩ + value ⟨[1], true⟩ :=
  ⟨by decide, by decide, C5_add_value _ _ (by decide) (by decide)⟩

/-- Claim C6: subtraction is `add_with_func` with the bitwise complement of the
right limbs and carry-in 1, and the value of `a - b` is `value a - value b`. -/
theorem C6_sub_value (a b : big_integer) (ha : wf a) (hb : wf b) :
    sub a b = add_with_func not32 a b 1 ∧ value (sub a b) = value a - value b :=
  ⟨rfl, sub_value a b ha hb⟩

/-- Witness of C6: `0 - 2^32`, a difference that changes sign and length. -/
theorem C6_sub_value_witness :
    wf zero ∧ wf ⟨[0, 1], false⟩
    ∧ sub zero ⟨[0, 1], false⟩ = add_with_func not32 zero ⟨[0, 1], false⟩ 1
    ∧ value (sub zero ⟨[0, 1], false⟩) = value zero - value ⟨[0, 1], false⟩ :=
  ⟨by decide, by decide, (C6_sub_value _ _ (by decide) (by decide)).1,
    (C6_sub_value zero ⟨[0, 1], false⟩ (by decide) (by decide)).2⟩

/-- Claim C7: the value of `a * b` is `value a * value b`, and the product is
negative exactly when it is non-zero and the sign flags of the operands differ. -/
theorem C7_mul_value (a b : big_integer) (ha : wf a) (hb : wf b) :
    value (mul a b) = value a * value b
    ∧ ((mul a b).is_neg = true ↔ (value a * value b ≠ 0 ∧ a.is_neg ≠ b.is_neg)) := by
  refine ⟨mul_value a b ha hb, ?_⟩
  rw [is_neg_iff (mul a b) (wf_mul a b ha hb), mul_value a b ha hb]
  have h1 := is_neg_iff a ha
  have h2 := is_neg_iff b hb
  constructor
  · intro h
    refine ⟨ne_of_lt h, ?_⟩
    rcases mul_neg_iff.mp h with ⟨p, n⟩ | ⟨n, p⟩
    · have e1 : a.is_neg = false := by
        cases hs : a.is_neg
        · rfl
        · have := h1.mp hs; omega
      rw [e1, h2.mpr n]; decide
    · have e2 : b.is_neg = false := by
        cases hs : b.is_neg
        · rfl
        · have := h2.mp hs; omega
      rw [e2, h1.mpr n]; decide
  · rintro ⟨hne, hsign⟩
    have ha0 : value a ≠ 0 := left_ne_zero_of_mul hne
    have hb0 : value b ≠ 0 := right_ne_zero_of_mul hne
    cases e1 : a.is_neg <;> cases e2 : b.is_neg <;> rw [e1] at h1 hsign <;> rw [e2] at h2 hsign
    · exact absurd rfl hsign
    · have hbn := h2.mp rfl
      have hap : 0 < value a := by
        have : ¬ value a < 0 := fun h => Bool.false_ne_true (h1.mpr h)
        omega
      exact mul_neg_of_pos_of_neg hap hbn
    · have han := h1.mp rfl
      have hbp : 0 < value b := by
        have : ¬ value b < 0 := fun h => Bool.false_ne_true (h2.mpr h)
        omega
      exact mul_neg_of_neg_of_pos han hbp
    · exact absurd rfl hsign

/-- Witness of C7: `(-3) * 2^32`. -/
theorem C7_mul_value_witness :
    wf ⟨[4294967293], true⟩ ∧ wf ⟨[0, 1], false⟩
    ∧ value (mul ⟨[4294967293], true⟩ ⟨[0, 1], false⟩)
        = value ⟨[4294967293], true⟩ * value ⟨[0, 1], false⟩
    ∧ ((mul ⟨[4294967293], true⟩ ⟨[0, 1], false⟩).is_neg = true
        ↔ (value ⟨[4294967293], true⟩ * value ⟨[0, 1], false⟩ ≠ 0
          ∧ (⟨[4294967293], true⟩ : big_integer).is_neg
            ≠ (⟨[0, 1], false⟩ : big_integer).is_neg)) :=
  ⟨by decide, by decide, (C7_mul_value _ _ (by decide) (by decide)).1,
    (C7_mul_value ⟨[4294967293], true⟩ ⟨[0, 1], false⟩ (by decide) (by decide)).2⟩

/-- Claim C8: the constructor from a string succeeds exactly on the well-formed
texts (an optional single leading `-`, then one or more digits); on every other
text it throws `std::invalid_argument`. -/
theorem C8_from_string_succeeds_iff (str : List Char) :
    ((∃ x, from_string str = .done x) ↔ well_formed str)
    ∧ (¬ well_formed str → ∃ what, from_string str = .invalid_argument what) := by
  obtain ⟨h1, h2⟩ := from_string_spec str
  refine ⟨⟨?_, fun h => ?_⟩, h2⟩
  · rintro ⟨x, hx⟩
    by_contra hn
    obtain ⟨what, hw⟩ := h2 hn
    rw [hx] at hw
    cases hw
  · obtain ⟨x, hx, _⟩ := h1 h
    exact ⟨x, hx⟩

/-- Witness of C8: the text `123-456` is rejected. -/
theorem C8_from_string_succeeds_iff_witness :
    ¬ well_formed ['1', '2', '3', '-', '4', '5', '6']
    ∧ ∃ what, from_string ['1', '2', '3', '-', '4', '5', '6'] = .invalid_argument what :=
  ⟨by decide, (C8_from_string_succeeds_iff ['1', '2', '3', '-', '4', '5', '6']).2 (by decide)⟩

/-- Claim C9: on a well-formed text the constructor builds a number whose value
is the integer the text denotes in base 10; and each pass of the block loop
over the digits reads `k` digits (9, or fewer in the last block), multiplies
the number built so far by `10^k` and adds the block. -/
theorem C9_from_string_value (str : List Char) (h : well_formed str) :
    (∃ x, from_string str = .done x ∧ wf x ∧ value x = denoted str)
    ∧ (∀ (fuel : Nat) (self : big_integer),
        from_string_loop (fuel + 1) (if str.head? = some '-' then str.tail else str) self
          = from_string_loop fuel ((if str.head? = some '-' then str.tail else str).drop 9)
              (add_int
                (small_mul self
                  (10 ^ (min 9 (if str.head? = some '-' then str.tail else str).length)))
                (decimal_val ((if str.head? = some '-' then str.tail else str).take 9)))) := by
  refine ⟨(from_string_spec str).1 h, fun fuel self => ?_⟩
  have hd : digits_only (if str.head? = some '-' then str.tail else str) := h
  exact from_string_loop_step fuel _ self hd.1 (fun x hx => hd.2 x (List.mem_of_mem_take hx))

/-- Witness of C9: the text `-0123` denotes `-123`. -/
theorem C9_from_string_value_witness :
    well_formed ['-', '0', '1', '2', '3']
    ∧ ∃ x, from_string ['-', '0', '1', '2', '3'] = .done x ∧ wf x
        ∧ value x = denoted ['-', '0', '1', '2', '3'] :=
  ⟨by decide, (C9_from_string_value ['-', '0', '1', '2', '3'] (by decide)).1⟩

/-- Claim C10: for every big integer with 32-bit limbs that is not a negative
number without limbs, `to_string` returns the canonical decimal text of its
value: `0` for zero, else the digits of the magnitude without leading zeros,
after a `-` exactly when the number is negative. -/
theorem C10_to_string_value (x : big_integer) (hx : wf x)
    (hcan : x.arr = [] → x.is_neg = false) :
    to_string x = some (decimal_text (value x)) :=
  to_string_value x hx hcan

/-- Witness of C10: the number `-(2^32)`. -/
theorem C10_to_string_value_witness :
    wf ⟨[0], true⟩ ∧ ((⟨[0], true⟩ : big_integer).arr = [] → (⟨[0], true⟩ : big_integer).is_neg = false)
    ∧ to_string ⟨[0], true⟩ = some (decimal_text (value ⟨[0], true⟩)) :=
  ⟨by decide, by decide, C10_to_string_value ⟨[0], true⟩ (by decide) (by decide)⟩

end Bigint

namespace Bigint

/-! ## Canonical form -/

theorem canonical_remove_leading (a : big_integer) (ha : wf a) :
    canonical (remove_leading a) := by
  refine ⟨wf_remove_leading a ha, ?_, ?_⟩
  · obtain ⟨arr, s⟩ := a
    unfold remove_leading
    simp only
    split_ifs with h
    · intro h2; simp at h2
    · intro h2
      simp only at h2
      cases s with
      | false => rfl
      | true =>
        exfalso
        apply h
        refine ⟨by rw [h2]; rfl, ?_⟩
        show UINT32_MAX > 0
        decide
  · obtain ⟨arr, s⟩ := a
    unfold remove_leading
    simp only
    split_ifs with h
    · intro _
      have h1 : arr.rdropWhile (fun x => x == get_complement ⟨arr, s⟩) = [] := by
        simpa using h.1
      have hs : s = true := by
        cases s with
        | false => simp [get_complement] at h
        | true => rfl
      subst hs
      show arr.rdropWhile (fun x => x == get_complement ⟨arr, true⟩) ++ [UINT32_MAX]
        = [UINT32_MAX]
      rw [h1]
      rfl
    · intro h2
      exfalso
      simp only at h2
      have hc : get_complement ⟨arr.rdropWhile (fun x => x == get_complement ⟨arr, s⟩), s⟩
          = get_complement ⟨arr, s⟩ := rfl
      rw [hc] at h2
      have hne : arr.rdropWhile (fun x => x == get_complement ⟨arr, s⟩) ≠ [] := by
        intro h3; rw [h3] at h2; simp at h2
      have hlast := List.rdropWhile_last_not (fun x => x == get_complement ⟨arr, s⟩) arr hne
      rw [List.getLast?_eq_getLast _ hne] at h2
      have := Option.some.inj h2
      simp [this] at hlast

theorem limbs_val_inj (l1 l2 : List Nat) (h1 : ∀ x ∈ l1, x < BASE) (h2 : ∀ x ∈ l2, x < BASE)
    (hlen : l1.length = l2.length) (hv : limbs_val l1 = limbs_val l2) : l1 = l2 := by
  induction l1 generalizing l2 with
  | nil =>
    cases l2 with
    | nil => rfl
    | cons _ _ => simp at hlen
  | cons x xs ih =>
    cases l2 with
    | nil => simp at hlen
    | cons y ys =>
      have hx : x < BASE := h1 x (by simp)
      have hy : y < BASE := h2 y (by simp)
      simp only [limbs_val] at hv
      have hB : BASE = 4294967296 := rfl
      rw [hB] at hx hy hv
      have e1 : x = y := by omega
      have e2 : limbs_val xs = limbs_val ys := by omega
      rw [e1, ih ys (fun z hz => h1 z (by simp [hz])) (fun z hz => h2 z (by simp [hz]))
        (by simpa using hlen) e2]

theorem canonical_no_extension (a : big_integer) (ha : canonical a) (l : List Nat) (k : Nat)
    (h : a.arr = l ++ List.replicate (k + 1) (get_complement a))
    (hl : l = [] → a.is_neg = false) : False := by
  obtain ⟨_, h2, h3⟩ := ha
  have hlast : a.arr.getLast? = some (get_complement a) := by
    rw [h, List.replicate_succ', ← List.append_assoc, List.getLast?_append]
    simp
  have h4 := h3 hlast
  rw [h4] at h
  have hlen := congrArg List.length h
  simp only [List.length_singleton, List.length_append, List.length_replicate] at hlen
  have hl0 : l = [] := List.length_eq_zero.mp (by omega)
  have hk : k = 0 := by omega
  have hs := hl hl0
  subst hl0 hk
  simp only [List.nil_append, List.replicate_one, List.cons.injEq, and_true] at h
  simp [get_complement, hs, UINT32_MAX] at h

/-- Two canonical representations of the same integer are equal. -/
theorem canonical_unique (a b : big_integer) (ha : canonical a) (hb : canonical b)
    (hv : value a = value b) : a = b := by
  have hs : a.is_neg = b.is_neg := by
    have h1 := is_neg_iff a ha.1
    have h2 := is_neg_iff b hb.1
    rw [hv] at h1
    exact Bool.eq_iff_iff.mpr (h1.trans h2.symm)
  have hc : get_complement a = get_complement b := by
    unfold get_complement; rw [hs]
  obtain ⟨n, hn⟩ : ∃ n, n = max a.arr.length b.arr.length := ⟨_, rfl⟩
  have hva := value_extend a.arr a.is_neg (n - a.arr.length)
  have hvb := value_extend b.arr b.is_neg (n - b.arr.length)
  have hca : get_complement ⟨a.arr, a.is_neg⟩ = get_complement a := rfl
  have hcb : get_complement ⟨b.arr, b.is_neg⟩ = get_complement a := by rw [hc]
  rw [hca] at hva
  rw [hcb] at hvb
  have heq : a.arr ++ List.replicate (n - a.arr.length) (get_complement a)
      = b.arr ++ List.replicate (n - b.arr.length) (get_complement a) := by
    apply limbs_val_inj
    · intro x hx
      rcases List.mem_append.mp hx with h | h
      · exact ha.1 x h
      · rw [List.eq_of_mem_replicate h]; exact get_complement_lt a
    · intro x hx
      rcases List.mem_append.mp hx with h | h
      · exact hb.1 x h
      · rw [List.eq_of_mem_replicate h]; exact get_complement_lt a
    · simp only [List.length_append, List.length_replicate]; omega
    · have e1 : value ⟨a.arr, a.is_neg⟩ = value a := rfl
      have e2 : value ⟨b.arr, b.is_neg⟩ = value b := rfl
      rw [e1] at hva
      rw [e2] at hvb
      have hlen : (a.arr ++ List.replicate (n - a.arr.length) (get_complement a)).length
          = (b.arr ++ List.replicate (n - b.arr.length) (get_complement a)).length := by
        simp only [List.length_append, List.length_replicate]; omega
      have h3 : value ⟨a.arr ++ List.replicate (n - a.arr.length) (get_complement a), a.is_neg⟩
          = value ⟨b.arr ++ List.replicate (n - b.arr.length) (get_complement a), b.is_neg⟩ := by
        rw [hva, hvb, hv]
      unfold value at h3
      simp only [hlen, hs] at h3
      have h4 : ((limbs_val (a.arr ++ List.replicate (n - a.arr.length) (get_complement a)) : Nat) : Int)
          = limbs_val (b.arr ++ List.replicate (n - b.arr.length) (get_complement a)) := by
        linarith
      exact_mod_cast h4
  have harr : a.arr = b.arr := by
    rcases Nat.lt_trichotomy a.arr.length b.arr.length with hlt | heq2 | hgt
    · exfalso
      have e1 : n - b.arr.length = 0 := by omega
      obtain ⟨k, hk⟩ : ∃ k, n - a.arr.length = k + 1 := ⟨n - a.arr.length - 1, by omega⟩
      rw [e1, hk, List.replicate_zero, List.append_nil, hc] at heq
      refine canonical_no_extension b hb a.arr k heq.symm (fun h0 => ?_)
      rw [← hs]
      exact ha.2.1 h0
    · have e1 : n - b.arr.length = 0 := by omega
      have e2 : n - a.arr.length = 0 := by omega
      rw [e1, e2] at heq
      simpa using heq
    · exfalso
      have e1 : n - a.arr.length = 0 := by omega
      obtain ⟨k, hk⟩ : ∃ k, n - b.arr.length = k + 1 := ⟨n - b.arr.length - 1, by omega⟩
      rw [e1, hk, List.replicate_zero, List.append_nil] at heq
      refine canonical_no_extension a ha b.arr k heq (fun h0 => ?_)
      rw [hs]
      exact hb.2.1 h0
  cases a; cases b
  simp only at hs harr
  rw [hs, harr]

theorem canonical_zero : canonical zero := by decide

/-- A canonical number of value zero is the zero object. -/
theorem canonical_value_zero (a : big_integer) (ha : canonical a) (hv : value a = 0) :
    a = zero :=
  canonical_unique a zero ha canonical_zero (by rw [hv, value_zero])

end Bigint

namespace Bigint

/-! ## Round trip through decimal text -/

theorem digitChar_facts (d : Nat) (hd : d < 10) :
    (Nat.digitChar d).isDigit = true ∧ (Nat.digitChar d).toNat - 48 = d
      ∧ Nat.digitChar d ≠ '-' := by
  interval_cases d <;> decide

theorem decimal_val_digits (n : Nat) :
    decimal_val ((Nat.digits 10 n).reverse.map Nat.digitChar) = n := by
  induction n using Nat.strong_induction_on with
  | _ n ih =>
    by_cases h0 : n = 0
    · subst h0; simp [decimal_val]
    · rw [Nat.digits_def' (by decide) (Nat.pos_of_ne_zero h0)]
      simp only [List.reverse_cons, List.map_append, List.map_cons, List.map_nil]
      rw [decimal_val_append, ih (n / 10) (by omega)]
      have h := (digitChar_facts (n % 10) (Nat.mod_lt _ (by decide))).2.1
      simp only [decimal_val, List.foldl_cons, List.foldl_nil, zero_mul, zero_add,
        List.length_singleton, pow_one, h]
      omega

theorem digits_chars_isDigit (n : Nat) :
    ∀ c ∈ (Nat.digits 10 n).reverse.map Nat.digitChar, c.isDigit = true := by
  intro c hc
  simp only [List.mem_map, List.mem_reverse] at hc
  obtain ⟨d, hd, rfl⟩ := hc
  exact (digitChar_facts d (Nat.digits_lt_base (by decide) hd)).1

theorem digits_chars_head (n : Nat) :
    ((Nat.digits 10 n).reverse.map Nat.digitChar).head? ≠ some '-' := by
  intro h
  have hmem := List.mem_of_mem_head? h
  simp only [List.mem_map, List.mem_reverse] at hmem
  obtain ⟨d, hd, he⟩ := hmem
  exact (digitChar_facts d (Nat.digits_lt_base (by decide) hd)).2.2 he

theorem digits_chars_ne_nil (n : Nat) (hn : n ≠ 0) :
    (Nat.digits 10 n).reverse.map Nat.digitChar ≠ [] := by
  simp only [ne_eq, List.map_eq_nil_iff, List.reverse_eq_nil_iff]
  exact Nat.digits_ne_nil_iff_ne_zero.mpr hn

/-- The canonical decimal text of an integer is well formed and denotes it. -/
theorem decimal_text_spec (z : Int) :
    well_formed (decimal_text z) ∧ denoted (decimal_text z) = z := by
  unfold decimal_text
  by_cases h0 : z = 0
  · subst h0
    refine ⟨by decide, by decide⟩
  · rw [if_neg h0]
    have hn : z.natAbs ≠ 0 := by omega
    by_cases hneg : z < 0
    · rw [if_pos hneg]
      simp only [List.singleton_append]
      refine ⟨?_, ?_⟩
      · simp only [well_formed, List.head?_cons, if_true, List.tail_cons]
        exact ⟨digits_chars_ne_nil _ hn, digits_chars_isDigit _⟩
      · simp only [denoted, List.head?_cons, if_true, List.tail_cons, decimal_val_digits]
        omega
    · rw [if_neg hneg]
      simp only [List.nil_append]
      have hh := digits_chars_head z.natAbs
      refine ⟨?_, ?_⟩
      · simp only [well_formed, if_neg hh]
        exact ⟨digits_chars_ne_nil _ hn, digits_chars_isDigit _⟩
      · simp only [denoted, if_neg hh, decimal_val_digits]
        omega

end Bigint

namespace Bigint

theorem canonical_add_int (a : big_integer) (num : Int) (ha : wf a) (h0 : 0 ≤ num)
    (h1 : num < 2147483648) : canonical (add_int a num) := by
  obtain ⟨hn1, hn2⟩ := int_toNat_mod num h0 h1
  have hB : BASE = 4294967296 := rfl
  obtain ⟨g1, g2, g3, g4⟩ := add_int_loop_spec a.arr ha 0 (num % (BASE : Int)).toNat
    (by rw [hB]; omega)
  unfold add_int
  simp only [not_lt.mpr h0, if_false, add_zero]
  split_ifs with h
  · apply canonical_remove_leading
    intro x hx
    simp only [List.mem_append, List.mem_singleton] at hx
    rcases hx with hx | hx
    · exact g2 x hx
    · rw [hx]; exact Nat.mod_lt _ (by decide)
  · apply canonical_remove_leading
    exact g2

theorem canonical_negate (a : big_integer) : canonical (negate a) :=
  canonical_add_int _ 1 (wf_invert_all a) (by omega) (by omega)

theorem from_string_loop_canonical (fuel : Nat) (cs : List Char) (self : big_integer)
    (hwf : wf self) (hcan : canonical self) (hfuel : cs.length ≤ fuel)
    (hd : ∀ c ∈ cs, c.isDigit = true) (r : big_integer)
    (hr : from_string_loop fuel cs self = .done r) : canonical r := by
  induction fuel generalizing cs self with
  | zero =>
    have : cs = [] := List.length_eq_zero.mp (Nat.le_zero.mp hfuel)
    subst this
    simp only [from_string_loop, ParseOutcome.done.injEq] at hr
    rw [← hr]; exact hcan
  | succ fuel ih =>
    by_cases hnil : cs = []
    · subst hnil
      simp only [from_string_loop, ParseOutcome.done.injEq] at hr
      rw [← hr]; exact hcan
    · rw [from_string_loop_step fuel cs self hnil
        (fun x hx => hd x (List.mem_of_mem_take hx))] at hr
      have hm9 : min 9 cs.length ≤ 9 := Nat.min_le_left _ _
      have hpow : 10 ^ (min 9 cs.length) < BASE := by
        have : 10 ^ (min 9 cs.length) ≤ 10 ^ 9 := Nat.pow_le_pow_right (by decide) hm9
        have hB : BASE = 4294967296 := rfl
        omega
      have hlt := decimal_val_lt (cs.take 9) (fun x hx => hd x (List.mem_of_mem_take hx))
      have hlt2 : decimal_val (cs.take 9) < 2147483648 := by
        have h9 : (cs.take 9).length ≤ 9 := by
          rw [List.length_take]; exact Nat.min_le_left _ _
        have : 10 ^ (cs.take 9).length ≤ 10 ^ 9 := Nat.pow_le_pow_right (by decide) h9
        omega
      have hwf1 := wf_small_mul self (10 ^ (min 9 cs.length)) hwf hpow
      refine ih (cs.drop 9) _ (wf_add_int _ _ hwf1 (by positivity) (by exact_mod_cast hlt2))
        (canonical_add_int _ _ hwf1 (by positivity) (by exact_mod_cast hlt2)) ?_
        (fun x hx => hd x (List.mem_of_mem_drop hx)) hr
      rw [List.length_drop]
      omega

theorem from_string_done_canonical (str : List Char) (h : well_formed str) (x : big_integer)
    (hx : from_string str = .done x) : canonical x := by
  have hd : digits_only (if str.head? = some '-' then str.tail else str) := h
  cases str with
  | nil => simp [digits_only] at hd
  | cons c cs =>
    by_cases hc : c = '-'
    · subst hc
      simp only [List.head?_cons, if_true, List.tail_cons] at hd
      have hlen : ¬ (cs.length + 1 = 1) := by
        intro h1
        exact hd.1 (List.length_eq_zero.mp (by omega))
      simp only [from_string, List.isEmpty_cons, Bool.false_eq_true, if_false, List.head?_cons,
        if_true, List.length_cons, hlen, false_and, List.drop_succ_cons, List.drop_zero] at hx
      split at hx
      · simp only [ParseOutcome.done.injEq] at hx
        rw [← hx]
        exact canonical_negate _
      · rename_i other hne
        obtain ⟨g1, _⟩ := from_string_loop_spec (cs.length + 1) cs zero wf_zero
          (by rw [value_zero]) (by omega)
        obtain ⟨r, hr1, _, _⟩ := g1 hd.2
        exact absurd hr1 (hne r)
    · have hhead : ¬ (some c = some '-') := by simpa using hc
      simp only [List.head?_cons, if_neg hhead] at hd
      have h01 : ¬ (cs.length + 1 = 1 ∧ 0 = 1) := by omega
      simp only [from_string, List.isEmpty_cons, Bool.false_eq_true, if_false, List.head?_cons,
        hhead, List.length_cons, List.drop_zero] at hx
      rw [if_neg h01] at hx
      split at hx
      · rename_i self hself
        simp only [ParseOutcome.done.injEq] at hx
        rw [← hx]
        exact from_string_loop_canonical (cs.length + 1) (c :: cs) zero wf_zero canonical_zero
          (by simp) hd.2 self hself
      · rename_i other hne
        obtain ⟨g1, _⟩ := from_string_loop_spec (cs.length + 1) (c :: cs) zero wf_zero
          (by rw [value_zero]) (by simp)
        obtain ⟨r, hr1, _, _⟩ := g1 hd.2
        exact absurd hr1 (hne r)

/-- Printing a canonical number and parsing the text gives the number back. -/
theorem round_trip (x : big_integer) (hx : canonical x) :
    ∃ t, to_string x = some t ∧ from_string t = .done x := by
  refine ⟨decimal_text (value x), to_string_value x hx.1 hx.2.1, ?_⟩
  obtain ⟨hw, hden⟩ := decimal_text_spec (value x)
  obtain ⟨y, hy1, hy2, hy3⟩ := (from_string_spec (decimal_text (value x))).1 hw
  have hcan := from_string_done_canonical _ hw y hy1
  rw [hy1, canonical_unique y x hcan hx (by rw [hy3, hden])]

end Bigint

namespace Bigint

/-! ## Construction from machine integers -/

theorem init_big_loop_spec (u : Nat) (hu : u < 18446744073709551616) :
    limbs_val (init_big_loop 2 u) = u ∧ (∀ x ∈ init_big_loop 2 u, x < BASE)
      ∧ (4294967296 ≤ u → (init_big_loop 2 u).length = 2) := by
  have hB : BASE = 4294967296 := rfl
  by_cases h0 : u > 0
  · by_cases h1 : u / BASE > 0
    · simp only [init_big_loop, h0, h1, if_true, limbs_val, List.length_cons, List.length_nil,
        List.mem_cons, List.mem_nil_iff, or_false]
      rw [hB] at h1 ⊢
      refine ⟨by omega, ?_, fun _ => trivial⟩
      rintro x (rfl | rfl) <;> omega
    · simp only [init_big_loop, h0, h1, if_true, if_false, limbs_val, List.mem_cons,
        List.mem_nil_iff, or_false]
      rw [hB] at h1 ⊢
      refine ⟨by omega, ?_, fun h => by omega⟩
      rintro x rfl
      omega
  · have : u = 0 := by omega
    subst this
    simp [init_big_loop, limbs_val]

theorem of_unsigned_spec (u : Nat) (hu : u < 18446744073709551616) :
    value (of_unsigned u) = u ∧ canonical (of_unsigned u) := by
  obtain ⟨h1, h2, _⟩ := init_big_loop_spec u hu
  unfold of_unsigned init_big
  rw [Nat.mod_eq_of_lt hu]
  refine ⟨?_, canonical_remove_leading _ h2⟩
  rw [value_remove_leading, value_mk_false, h1]

theorem of_signed_spec (x : Int) (hlo : -9223372036854775808 ≤ x)
    (hhi : x < 9223372036854775808) :
    value (of_signed x) = x ∧ canonical (of_signed x) := by
  obtain ⟨u, hu⟩ : ∃ u, (x % 18446744073709551616).toNat = u := ⟨_, rfl⟩
  have hu64 : u < 18446744073709551616 := by omega
  obtain ⟨h1, h2, h3⟩ := init_big_loop_spec u hu64
  unfold of_signed init_big
  rw [hu, Nat.mod_eq_of_lt hu64]
  refine ⟨?_, canonical_remove_leading _ h2⟩
  rw [value_remove_leading]
  by_cases hneg : x < 0
  · have hbig : 4294967296 ≤ u := by omega
    simp only [hneg, decide_True, value_mk_true, h1, h3 hbig]
    have hB : (BASE : Int) ^ 2 = 18446744073709551616 := by decide
    rw [hB]
    omega
  · simp only [hneg, decide_False, value_mk_false, h1]
    omega

/-- A machine integer converts to a canonical number of the same value, which
prints as the decimal text of the integer. -/
theorem machine_integer_ctor (x : Int) :
    (-9223372036854775808 ≤ x → x ≤ 9223372036854775807 →
      value (of_signed x) = x ∧ canonical (of_signed x)
        ∧ to_string (of_signed x) = some (decimal_text x))
    ∧ (0 ≤ x → x ≤ 18446744073709551615 →
      value (of_unsigned x.toNat) = x ∧ canonical (of_unsigned x.toNat)
        ∧ to_string (of_unsigned x.toNat) = some (decimal_text x)) := by
  constructor
  · intro hlo hhi
    obtain ⟨h1, h2⟩ := of_signed_spec x hlo (by omega)
    refine ⟨h1, h2, ?_⟩
    rw [to_string_value _ h2.1 h2.2.1, h1]
  · intro hlo hhi
    obtain ⟨h1, h2⟩ := of_unsigned_spec x.toNat (by omega)
    have h3 : value (of_unsigned x.toNat) = x := by rw [h1]; omega
    refine ⟨h3, h2, ?_⟩
    rw [to_string_value _ h2.1 h2.2.1, h3]

end Bigint

namespace Bigint

/-! ## Comparison -/

theorem operator_le_loop_total (a b : List Nat) (i : Nat) :
    operator_le_loop a b i = true ∨ operator_le_loop b a i = true := by
  induction i with
  | zero => left; rfl
  | succ i ih =>
    simp only [operator_le_loop]
    by_cases h : a.getD i 0 = b.getD i 0
    · simp only [h, ne_eq, not_true_eq_false, if_false]
      exact ih
    · have h2 : ¬ b.getD i 0 = a.getD i 0 := fun e => h e.symm
      simp only [ne_eq, h, h2, not_false_eq_true, if_true, decide_eq_true_eq]
      omega

theorem operator_le_loop_antisymm (a b : List Nat) (i : Nat)
    (h1 : operator_le_loop a b i = true) (h2 : operator_le_loop b a i = true) :
    ∀ j, j < i → a.getD j 0 = b.getD j 0 := by
  induction i with
  | zero => intro j hj; omega
  | succ i ih =>
    simp only [operator_le_loop] at h1 h2
    by_cases h : a.getD i 0 = b.getD i 0
    · simp only [h, ne_eq, not_true_eq_false, if_false] at h1 h2
      intro j hj
      by_cases hji : j = i
      · rw [hji]; exact h
      · exact ih h1 h2 j (by omega)
    · have h' : ¬ b.getD i 0 = a.getD i 0 := fun e => h e.symm
      simp only [ne_eq, h, h', not_false_eq_true, if_true, decide_eq_true_eq] at h1 h2
      omega

theorem operator_le_loop_refl (a : List Nat) (i : Nat) : operator_le_loop a a i = true := by
  induction i with
  | zero => rfl
  | succ i ih => simp [operator_le_loop, ih]

theorem list_eq_of_getD (l1 l2 : List Nat) (hlen : l1.length = l2.length)
    (h : ∀ j, j < l1.length → l1.getD j 0 = l2.getD j 0) : l1 = l2 := by
  apply List.ext_getElem hlen
  intro n h1 h2
  have := h n h1
  simpa [List.getD_eq_getElem?_getD, List.getElem?_eq_getElem h1,
    List.getElem?_eq_getElem h2] using this

theorem operator_le_refl (a : big_integer) : operator_le a a = true := by
  simp [operator_le, operator_le_loop_refl]

theorem operator_le_total (a b : big_integer) :
    operator_le a b = true ∨ operator_le b a = true := by
  unfold operator_le
  by_cases hs : a.is_neg = b.is_neg
  · simp only [ne_eq, hs, not_true_eq_false, if_false]
    rcases Nat.lt_trichotomy a.arr.length b.arr.length with h | h | h
    · have n1 : ¬ b.arr.length < a.arr.length := by omega
      simp only [h, n1, if_true, if_false, gt_iff_lt]
      cases b.is_neg <;> simp
    · have n1 : ¬ b.arr.length < b.arr.length := by omega
      simp only [h, n1, if_false, gt_iff_lt]
      rw [← h]
      exact operator_le_loop_total a.arr b.arr a.arr.length
    · have n1 : ¬ a.arr.length < b.arr.length := by omega
      simp only [h, n1, if_true, if_false, gt_iff_lt]
      cases b.is_neg <;> simp
  · have hs' : ¬ b.is_neg = a.is_neg := fun e => hs e.symm
    simp only [ne_eq, hs, hs', not_false_eq_true, if_true]
    cases ea : a.is_neg <;> cases eb : b.is_neg <;> simp_all

theorem operator_le_antisymm (a b : big_integer) (h1 : operator_le a b = true)
    (h2 : operator_le b a = true) : a = b := by
  unfold operator_le at h1 h2
  by_cases hs : a.is_neg = b.is_neg
  · simp only [ne_eq, hs, not_true_eq_false, if_false] at h1 h2
    rcases Nat.lt_trichotomy a.arr.length b.arr.length with h | h | h
    · exfalso
      have n1 : ¬ b.arr.length < a.arr.length := by omega
      simp only [h, n1, if_true, if_false, gt_iff_lt] at h1 h2
      cases hb : b.is_neg <;> simp [hb] at h1 h2
    · have n1 : ¬ b.arr.length < b.arr.length := by omega
      simp only [h, n1, if_false, gt_iff_lt] at h1 h2
      rw [← h] at h1 h2
      have harr := list_eq_of_getD a.arr b.arr h
        (operator_le_loop_antisymm a.arr b.arr a.arr.length h1 h2)
      cases a; cases b
      simp only at hs harr
      rw [hs, harr]
    · exfalso
      have n1 : ¬ a.arr.length < b.arr.length := by omega
      simp only [h, n1, if_true, if_false, gt_iff_lt] at h1 h2
      cases hb : b.is_neg <;> simp [hb] at h1 h2
  · exfalso
    have hs' : ¬ b.is_neg = a.is_neg := fun e => hs e.symm
    simp only [ne_eq, hs, hs', not_false_eq_true, if_true] at h1 h2
    rw [h1, h2] at hs
    exact hs rfl

theorem operator_eq_iff (a b : big_integer) : operator_eq a b = true ↔ a = b := by
  unfold operator_eq
  simp only [decide_eq_true_eq]
  constructor
  · rintro ⟨h1, h2⟩
    cases a; cases b
    simp only at h1 h2
    rw [h1, h2]
  · rintro rfl
    exact ⟨rfl, rfl⟩

/-- Exactly one of `a < b`, `a == b`, `a > b` holds. -/
theorem trichotomy (a b : big_integer) :
    (operator_lt a b = true ∧ operator_eq a b = false ∧ operator_gt a b = false)
    ∨ (operator_lt a b = false ∧ operator_eq a b = true ∧ operator_gt a b = false)
    ∨ (operator_lt a b = false ∧ operator_eq a b = false ∧ operator_gt a b = true) := by
  unfold operator_lt operator_gt
  by_cases hab : a = b
  · subst hab
    right; left
    simp [operator_le_refl, (operator_eq_iff a a).mpr rfl]
  · have hne : operator_eq a b = false := by
      cases h : operator_eq a b
      · rfl
      · exact absurd ((operator_eq_iff a b).mp h) hab
    cases h1 : operator_le a b <;> cases h2 : operator_le b a
    · rcases operator_le_total a b with h | h
      · rw [h1] at h; exact absurd h Bool.false_ne_true
      · rw [h2] at h; exact absurd h Bool.false_ne_true
    · right; right
      simp [hne]
    · left
      simp [hne]
    · exact absurd (operator_le_antisymm a b h1 h2) hab

end Bigint

namespace Bigint

theorem limbs_val_take_succ (l : List Nat) (i : Nat) :
    limbs_val (l.take (i + 1)) = limbs_val (l.take i) + BASE ^ i * l.getD i 0 := by
  induction l generalizing i with
  | nil => simp [limbs_val]
  | cons x xs ih =>
    cases i with
    | zero => simp [limbs_val]
    | succ i =>
      simp only [List.take_succ_cons, limbs_val, List.getD_cons_succ, ih i, pow_succ]
      ring

theorem limbs_val_take_lt (l : List Nat) (hl : ∀ x ∈ l, x < BASE) (i : Nat) :
    limbs_val (l.take i) < BASE ^ i := by
  have h := limbs_val_lt (l.take i) (fun x hx => hl x (List.mem_of_mem_take hx))
  have h2 : BASE ^ (l.take i).length ≤ BASE ^ i :=
    Nat.pow_le_pow_right (by decide) (by rw [List.length_take]; exact Nat.min_le_left _ _)
  omega

theorem operator_le_loop_iff (a b : List Nat) (ha : ∀ x ∈ a, x < BASE)
    (hb : ∀ x ∈ b, x < BASE) (i : Nat) :
    operator_le_loop a b i = true ↔ limbs_val (a.take i) ≤ limbs_val (b.take i) := by
  induction i with
  | zero => simp [operator_le_loop, limbs_val]
  | succ i ih =>
    have hta := limbs_val_take_lt a ha i
    have htb := limbs_val_take_lt b hb i
    rw [limbs_val_take_succ, limbs_val_take_succ]
    simp only [operator_le_loop]
    obtain ⟨P, hP⟩ : ∃ P, BASE ^ i = P := ⟨_, rfl⟩
    rw [hP] at hta htb ⊢
    by_cases h : a.getD i 0 = b.getD i 0
    · simp only [h, ne_eq, not_true_eq_false, if_false]
      rw [ih]
      omega
    · simp only [ne_eq, h, not_false_eq_true, if_true, decide_eq_true_eq]
      rcases Nat.lt_or_gt_of_ne h with hlt | hgt
      · have e : P * (a.getD i 0 + 1) ≤ P * b.getD i 0 := Nat.mul_le_mul_left _ hlt
        constructor
        · intro _; nlinarith
        · intro _; omega
      · have e : P * (b.getD i 0 + 1) ≤ P * a.getD i 0 := Nat.mul_le_mul_left _ hgt
        constructor
        · intro h3; omega
        · intro h3; nlinarith

/-- The range of values of a canonical number with `n` limbs. -/
theorem canonical_bounds (a : big_integer) (ha : canonical a) :
    (a.is_neg = false → 0 ≤ value a ∧ value a < (BASE : Int) ^ a.arr.length
        ∧ (1 ≤ a.arr.length → (BASE : Int) ^ (a.arr.length - 1) ≤ value a))
    ∧ (a.is_neg = true → 1 ≤ a.arr.length ∧ -(BASE : Int) ^ a.arr.length ≤ value a
        ∧ value a < 0
        ∧ (2 ≤ a.arr.length → value a < -(BASE : Int) ^ (a.arr.length - 1))) := by
  obtain ⟨arr, s⟩ := a
  obtain ⟨hwf, h1, h2⟩ := ha
  have hlt := limbs_val_lt arr hwf
  have hltz : ((limbs_val arr : Nat) : Int) < (BASE : Int) ^ arr.length := by exact_mod_cast hlt
  simp only at h1 h2 ⊢
  by_cases hnil : arr = []
  · subst hnil
    have hs := h1 rfl
    subst hs
    simp [value, limbs_val]
  · obtain ⟨init, last, hdec⟩ : ∃ init last, arr = init ++ [last] :=
      ⟨arr.dropLast, arr.getLast hnil, (List.dropLast_append_getLast hnil).symm⟩
    have hlen : arr.length = init.length + 1 := by rw [hdec]; simp
    have hval : limbs_val arr = limbs_val init + BASE ^ init.length * last := by
      rw [hdec, limbs_val_snoc]
    have hlast : arr.getLast? = some last := by rw [hdec]; simp
    have hinit := limbs_val_lt init (fun x hx => hwf x (by rw [hdec]; simp [hx]))
    have hlastB : last < BASE := hwf last (by rw [hdec]; simp)
    have hvalz : ((limbs_val arr : Nat) : Int)
        = (limbs_val init : Int) + (BASE : Int) ^ init.length * last := by
      rw [hval]; push_cast; rfl
    have hinitz : ((limbs_val init : Nat) : Int) < (BASE : Int) ^ init.length := by
      exact_mod_cast hinit
    have hP : (0 : Int) < (BASE : Int) ^ init.length := pow_pos (by decide) _
    have hsub : arr.length - 1 = init.length := by omega
    rw [hlast] at h2
    constructor
    · intro hs
      subst hs
      have hne : last ≠ 0 := by
        intro h0
        have := h2 (by rw [h0]; rfl)
        rw [this] at hlast
        simp at hlast
        rw [← hlast] at h0
        exact absurd h0 (by decide)
      simp only [value, Bool.false_eq_true, if_false, sub_zero]
      refine ⟨by positivity, hltz, fun _ => ?_⟩
      rw [hsub, hvalz]
      have : (1 : Int) ≤ last := by
        have : 1 ≤ last := Nat.one_le_iff_ne_zero.mpr hne
        exact_mod_cast this
      nlinarith
    · intro hs
      subst hs
      simp only [value, if_true]
      refine ⟨by omega, by linarith, by linarith, fun h2len => ?_⟩
      have hne : last ≠ UINT32_MAX := by
        intro h0
        have := h2 (by rw [h0]; rfl)
        have hl1 : arr.length = 1 := by rw [this]; rfl
        omega
      rw [hsub, hvalz, hlen, pow_succ]
      have hB : (BASE : Int) = 4294967296 := rfl
      have hle : (last : Int) ≤ 4294967294 := by
        have hm : UINT32_MAX = 4294967295 := rfl
        have hb : BASE = 4294967296 := rfl
        have : last ≤ 4294967294 := by omega
        exact_mod_cast this
      rw [hB] at hP hinitz ⊢
      nlinarith

end Bigint

namespace Bigint

theorem base_pow_mono (k m : Nat) (h : k ≤ m) : (BASE : Int) ^ k ≤ (BASE : Int) ^ m := by
  have : BASE ^ k ≤ BASE ^ m := Nat.pow_le_pow_right (by decide) h
  exact_mod_cast this

/-- On canonical numbers `<=` is the order of the values. -/
theorem operator_le_iff (a b : big_integer) (ha : canonical a) (hb : canonical b) :
    operator_le a b = true ↔ value a ≤ value b := by
  obtain ⟨ha0, ha1⟩ := canonical_bounds a ha
  obtain ⟨hb0, hb1⟩ := canonical_bounds b hb
  unfold operator_le
  cases ea : a.is_neg <;> cases eb : b.is_neg
  · -- both non-negative
    obtain ⟨a1, a2, a3⟩ := ha0 ea
    obtain ⟨b1, b2, b3⟩ := hb0 eb
    simp only [ne_eq, not_true_eq_false, if_false, Bool.not_false, gt_iff_lt]
    rcases Nat.lt_trichotomy a.arr.length b.arr.length with h | h | h
    · have hm := base_pow_mono a.arr.length (b.arr.length - 1) (by omega)
      have := b3 (by omega)
      simp only [h, if_true, true_iff]
      linarith
    · have n1 : ¬ a.arr.length < b.arr.length := by omega
      have n2 : ¬ b.arr.length < a.arr.length := by omega
      simp only [n1, n2, if_false]
      rw [operator_le_loop_iff a.arr b.arr ha.1 hb.1, List.take_length, h, ← h]
      have e : b.arr.take a.arr.length = b.arr := by rw [h]; exact List.take_length _
      rw [e]
      simp only [value, ea, eb, Bool.false_eq_true, if_false, sub_zero]
      exact Nat.cast_le.symm
    · have hm := base_pow_mono b.arr.length (a.arr.length - 1) (by omega)
      have := a3 (by omega)
      have n1 : ¬ a.arr.length < b.arr.length := by omega
      simp only [n1, h, if_true, if_false, Bool.false_eq_true, false_iff, not_le]
      linarith
  · -- `a` non-negative, `b` negative
    obtain ⟨a1, _, _⟩ := ha0 ea
    obtain ⟨_, _, b3, _⟩ := hb1 eb
    simp only [ne_eq, Bool.false_eq_true, not_false_eq_true, if_true, false_iff, not_le]
    linarith
  · -- `a` negative, `b` non-negative
    obtain ⟨_, _, a3, _⟩ := ha1 ea
    obtain ⟨b1, _, _⟩ := hb0 eb
    simp only [ne_eq, Bool.true_eq_false, not_false_eq_true, if_true, true_iff]
    linarith
  · -- both negative
    obtain ⟨a1, a2, a3, a4⟩ := ha1 ea
    obtain ⟨b1, b2, b3, b4⟩ := hb1 eb
    simp only [ne_eq, not_true_eq_false, if_false, Bool.not_true, gt_iff_lt]
    rcases Nat.lt_trichotomy a.arr.length b.arr.length with h | h | h
    · have hm := base_pow_mono a.arr.length (b.arr.length - 1) (by omega)
      have := b4 (by omega)
      simp only [h, if_true, Bool.false_eq_true, false_iff, not_le]
      linarith
    · have n1 : ¬ a.arr.length < b.arr.length := by omega
      have n2 : ¬ b.arr.length < a.arr.length := by omega
      simp only [n1, n2, if_false]
      rw [operator_le_loop_iff a.arr b.arr ha.1 hb.1, List.take_length, h, ← h]
      have e : b.arr.take a.arr.length = b.arr := by rw [h]; exact List.take_length _
      rw [e]
      simp only [value, ea, eb, if_true, h]
      constructor
      · intro h3
        have : ((limbs_val a.arr : Nat) : Int) ≤ limbs_val b.arr := by exact_mod_cast h3
        linarith
      · intro h3
        have : ((limbs_val a.arr : Nat) : Int) ≤ limbs_val b.arr := by linarith
        exact_mod_cast this
    · have hm := base_pow_mono b.arr.length (a.arr.length - 1) (by omega)
      have := a4 (by omega)
      have n1 : ¬ a.arr.length < b.arr.length := by omega
      simp only [n1, h, if_true, if_false, true_iff]
      linarith

/-- On canonical numbers the four order operators are the order of the values. -/
theorem order_operators (a b : big_integer) (ha : canonical a) (hb : canonical b) :
    (operator_le a b = true ↔ value a ≤ value b)
    ∧ (operator_lt a b = true ↔ value a < value b)
    ∧ (operator_gt a b = true ↔ value a > value b)
    ∧ (operator_ge a b = true ↔ value a ≥ value b) := by
  have h1 := operator_le_iff a b ha hb
  have h2 := operator_le_iff b a hb ha
  refine ⟨h1, ?_, ?_, h2⟩
  · unfold operator_lt operator_gt
    rw [Bool.not_eq_true', ← Bool.not_eq_true, h2]
    exact not_le
  · unfold operator_gt
    rw [Bool.not_eq_true', ← Bool.not_eq_true, h1]
    exact not_le

end Bigint

namespace Bigint

/-! ## Unary minus and complement -/

theorem canonical_add_with_func (func : Nat → Nat) (a rhs : big_integer) (carry : Nat)
    (ha : wf a) (hr : wf rhs) (hc : carry ≤ 1) (hf : ∀ x, x < BASE → func x < BASE) :
    canonical (add_with_func func a rhs carry) := by
  unfold add_with_func
  simp only
  have hwf1 := wf_resize a (max a.arr.length rhs.arr.length) (get_complement a) ha
    (get_complement_lt a)
  obtain ⟨h1, h2, h3, h4⟩ := add_with_func_loop_spec func rhs hf hr _ hwf1 0 carry hc
  split_ifs with h
  · apply canonical_remove_leading
    intro x hx
    simp only [List.mem_append, List.mem_singleton] at hx
    rcases hx with hx | hx
    · exact h2 x hx
    · rw [hx]; exact Nat.mod_lt _ (by decide)
  · apply canonical_remove_leading
    exact h2

theorem canonical_add (a b : big_integer) (ha : wf a) (hb : wf b) : canonical (add a b) :=
  canonical_add_with_func _ a b 0 ha hb (by omega) (fun _ hx => hx)

theorem canonical_sub (a b : big_integer) (ha : wf a) (hb : wf b) : canonical (sub a b) :=
  canonical_add_with_func _ a b 1 ha hb (by omega) (fun x _ => not32_lt x)

theorem canonical_mul (a b : big_integer) (ha : wf a) (hb : wf b) : canonical (mul a b) := by
  have hta := wf_absolutify a ha
  have htb := wf_absolutify b hb
  obtain ⟨h1, h2, h3⟩ := mul_outer_spec (absolutify b).arr htb (absolutify a).arr hta 0
    (List.replicate ((absolutify a).arr.length + (absolutify b).arr.length) 0)
    (by intro x hx; rw [List.eq_of_mem_replicate hx]; decide) (by simp)
    (limbs_val_replicate_zero_lt _ _)
  unfold mul
  simp only
  apply canonical_remove_leading
  split_ifs
  · exact wf_negate _
  · exact h2

theorem operator_neg_value (a : big_integer) (ha : wf a) :
    value (operator_neg a) = -value a := by
  unfold operator_neg
  split_ifs with h
  · rw [(operator_eq_iff a _).mp h, of_signed_zero, value_zero]; rfl
  · exact negate_value a ha

theorem canonical_operator_neg (a : big_integer) : canonical (operator_neg a) := by
  unfold operator_neg
  split_ifs with h
  · rw [(operator_eq_iff a _).mp h, of_signed_zero]; exact canonical_zero
  · exact canonical_negate a

/-- Negating twice gives a canonical number back. -/
theorem operator_neg_neg (a : big_integer) (ha : canonical a) :
    operator_neg (operator_neg a) = a := by
  apply canonical_unique _ _ (canonical_operator_neg _) ha
  rw [operator_neg_value _ (canonical_operator_neg a).1, operator_neg_value a ha.1]
  ring

theorem operator_not_value (a : big_integer) (ha : wf a) :
    value (operator_not a) = -value a - 1 := by
  unfold operator_not
  rw [value_remove_leading, value_invert_all a ha]

theorem canonical_operator_not (a : big_integer) : canonical (operator_not a) :=
  canonical_remove_leading _ (wf_invert_all a)

theorem of_signed_one : of_signed 1 = ⟨[1], false⟩ := by decide

/-- The complement law `~a == -a - 1`. -/
theorem operator_not_eq (a : big_integer) (ha : wf a) :
    operator_not a = sub (operator_neg a) (of_signed 1) := by
  have hw1 : wf (of_signed 1) := by rw [of_signed_one]; decide
  have hv1 : value (of_signed 1) = 1 := by rw [of_signed_one]; decide
  apply canonical_unique _ _ (canonical_operator_not a)
    (canonical_sub _ _ (canonical_operator_neg a).1 hw1)
  rw [operator_not_value a ha, sub_value _ _ (canonical_operator_neg a).1 hw1,
    operator_neg_value a ha, hv1]

end Bigint

namespace Bigint

/-! ## Bits of a value -/

theorem int_testBit_ext (m n : Int) (h : ∀ i, m.testBit i = n.testBit i) : m = n := by
  cases m with
  | ofNat a =>
    cases n with
    | ofNat b =>
      congr 1
      exact Nat.eq_of_testBit_eq h
    | negSucc b =>
      exfalso
      have := h (max a b)
      simp only [Int.testBit] at this
      rw [Nat.testBit_lt_two_pow (lt_of_le_of_lt (le_max_left a b) (Nat.lt_two_pow _)),
        Nat.testBit_lt_two_pow (lt_of_le_of_lt (le_max_right a b) (Nat.lt_two_pow _))] at this
      simp at this
  | negSucc a =>
    cases n with
    | ofNat b =>
      exfalso
      have := h (max a b)
      simp only [Int.testBit] at this
      rw [Nat.testBit_lt_two_pow (lt_of_le_of_lt (le_max_left a b) (Nat.lt_two_pow _)),
        Nat.testBit_lt_two_pow (lt_of_le_of_lt (le_max_right a b) (Nat.lt_two_pow _))] at this
      simp at this
    | negSucc b =>
      congr 1
      apply Nat.eq_of_testBit_eq
      intro i
      have := h i
      simp only [Int.testBit] at this
      cases h1 : a.testBit i <;> cases h2 : b.testBit i <;> simp_all

theorem nat_testBit_limb (x m i : Nat) (hx : x < BASE) :
    (x + BASE * m).testBit i = if i < 32 then x.testBit i else m.testBit (i - 32) := by
  have hB : BASE = 2 ^ 32 := by decide
  rw [hB] at hx ⊢
  rw [add_comm]
  exact Nat.testBit_mul_pow_two_add m hx i

theorem int_testBit_limb (x : Nat) (z : Int) (i : Nat) (hx : x < BASE) :
    Int.testBit ((x : Int) + (BASE : Int) * z) i
      = if i < 32 then x.testBit i else z.testBit (i - 32) := by
  have hB : BASE = 4294967296 := rfl
  cases z with
  | ofNat m =>
    have e : (x : Int) + (BASE : Int) * Int.ofNat m = ((x + BASE * m : Nat) : Int) := by
      push_cast; rfl
    rw [e]
    show (x + BASE * m).testBit i = _
    rw [nat_testBit_limb x m i hx]
    rfl
  | negSucc m =>
    have e : (x : Int) + (BASE : Int) * Int.negSucc m
        = Int.negSucc ((BASE - 1 - x) + BASE * m) := by
      rw [Int.negSucc_eq, Int.negSucc_eq]
      push_cast [show x ≤ BASE - 1 by omega, show 1 ≤ BASE by decide]
      ring
    rw [e]
    show (!((BASE - 1 - x) + BASE * m).testBit i) = _
    rw [nat_testBit_limb _ m i (by omega)]
    have hc : BASE - 1 - x = 2 ^ 32 - (x + 1) := by rw [hB]; omega
    split_ifs with hi
    · rw [hc, Nat.testBit_two_pow_sub_succ (by rw [hB] at hx; omega)]
      simp [hi]
    · rfl

end Bigint

namespace Bigint

theorem value_cons (x : Nat) (xs : List Nat) (s : Bool) :
    value ⟨x :: xs, s⟩ = (x : Int) + (BASE : Int) * value ⟨xs, s⟩ := by
  unfold value
  simp only [limbs_val, List.length_cons, pow_succ]
  push_cast
  cases s
  · simp
  · simp; ring

/-- The bit `i` of the value, read in two's complement, is the bit `i % 32` of
the limb `i / 32`, the limbs past the end being the complement word. -/
theorem testBit_value (a : big_integer) (ha : wf a) (i : Nat) :
    (value a).testBit i = (a.arr.getD (i / 32) (get_complement a)).testBit (i % 32) := by
  obtain ⟨arr, s⟩ := a
  induction arr generalizing i with
  | nil =>
    have hlt : i % 32 < 32 := Nat.mod_lt _ (by decide)
    cases s with
    | false =>
      simp [value, limbs_val, get_complement, Int.testBit]
    | true =>
      have hv : value ⟨[], true⟩ = Int.negSucc 0 := by decide
      have hc : get_complement ⟨[], true⟩ = 2 ^ 32 - 1 := by decide
      simp only [hv, List.getD_nil, hc, Int.testBit, Nat.zero_testBit, Bool.not_false,
        Nat.testBit_two_pow_sub_one]
      simp [hlt]
  | cons x xs ih =>
    have hx : x < BASE := ha x (by simp)
    have hxs : wf ⟨xs, s⟩ := fun y hy => ha y (by simp [wf] at hy ⊢; right; exact hy)
    rw [value_cons, int_testBit_limb x _ i hx]
    have hc : get_complement ⟨x :: xs, s⟩ = get_complement ⟨xs, s⟩ := rfl
    split_ifs with hi
    · have e1 : i / 32 = 0 := by omega
      have e2 : i % 32 = i := by omega
      simp [e1, e2]
    · obtain ⟨k, hk⟩ : ∃ k, i / 32 = k + 1 := ⟨i / 32 - 1, by omega⟩
      have e1 : (i - 32) / 32 = k := by omega
      have e2 : (i - 32) % 32 = i % 32 := by omega
      rw [ih (i - 32) hxs, e1, e2, hk, hc]
      simp

end Bigint

namespace Bigint

/-! ## Bitwise operators -/

theorem to_uint32_testBit (z : Int) (i : Nat) :
    (to_uint32 z).testBit i = (decide (i < 32) && z.testBit i) := by
  unfold to_uint32
  have hB : (BASE : Int) = ((2 ^ 32 : Nat) : Int) := by decide
  cases z with
  | ofNat m =>
    have e : (Int.ofNat m % (BASE : Int)).toNat = m % 2 ^ 32 := by
      rw [hB]
      show (((m : Int) % ((2 ^ 32 : Nat) : Int))).toNat = m % 2 ^ 32
      rw [← Int.natCast_mod]
      rfl
    rw [e, Nat.testBit_mod_two_pow]
    rfl
  | negSucc m =>
    have e : (Int.negSucc m % (BASE : Int)).toNat = 2 ^ 32 - (m % 2 ^ 32 + 1) := by
      rw [Int.negSucc_emod m (by decide)]
      have hB2 : (BASE : Int) = 4294967296 := rfl
      rw [hB2]
      omega
    rw [e, Nat.testBit_two_pow_sub_succ (Nat.mod_lt _ (by decide)), Nat.testBit_mod_two_pow]
    simp only [Int.testBit]
    cases decide (i < 32) <;> simp

theorem to_uint32_lt (z : Int) : to_uint32 z < BASE := by
  unfold to_uint32
  have hB : (BASE : Int) = 4294967296 := rfl
  have hB2 : BASE = 4294967296 := rfl
  rw [hB, hB2]
  omega

theorem to_int_testBit (x i : Nat) (hx : x < BASE) (hi : i < 32) :
    (to_int x).testBit i = x.testBit i := by
  unfold to_int
  rw [Nat.mod_eq_of_lt hx]
  have hB : BASE = 4294967296 := rfl
  split_ifs with h
  · rfl
  · have e : ((x : Nat) : Int) - (BASE : Nat) = Int.negSucc (2 ^ 32 - (x + 1)) := by
      rw [Int.negSucc_eq, hB]
      have h2 : ((2 ^ 32 - (x + 1) : Nat) : Int) = 4294967295 - (x : Int) := by
        rw [hB] at hx; omega
      rw [h2]
      push_cast
      ring
    rw [e]
    simp only [Int.testBit]
    rw [Nat.testBit_two_pow_sub_succ (by rw [hB] at hx; omega)]
    simp [hi]

/-- A lambda on `int` that acts bit by bit acts on the limbs as the bit
operation `g` on 32-bit words. -/
theorem limb_func_eq (func : Int → Int → Int) (g : Nat → Nat → Nat) (β : Bool → Bool → Bool)
    (hfunc : ∀ m n k, (func m n).testBit k = β (m.testBit k) (n.testBit k))
    (hg : ∀ x y i, (g x y).testBit i = β (x.testBit i) (y.testBit i))
    (hβ : β false false = false)
    (x y : Nat) (hx : x < BASE) (hy : y < BASE) :
    to_uint32 (func (to_int x) (to_int y)) = g x y := by
  apply Nat.eq_of_testBit_eq
  intro i
  rw [to_uint32_testBit, hfunc, hg]
  by_cases hi : i < 32
  · rw [to_int_testBit x i hx hi, to_int_testBit y i hy hi]
    simp [hi]
  · have hB : BASE = 2 ^ 32 := by decide
    have h1 : x.testBit i = false :=
      Nat.testBit_lt_two_pow (lt_of_lt_of_le (by rw [← hB]; exact hx)
        (Nat.pow_le_pow_right (by decide) (by omega)))
    have h2 : y.testBit i = false :=
      Nat.testBit_lt_two_pow (lt_of_lt_of_le (by rw [← hB]; exact hy)
        (Nat.pow_le_pow_right (by decide) (by omega)))
    simp [hi, h1, h2, hβ]

end Bigint

namespace Bigint

theorem get_complement_testBit (a : big_integer) (k : Nat) (hk : k < 32) :
    (get_complement a).testBit k = a.is_neg := by
  unfold get_complement
  cases a.is_neg
  · simp
  · have : UINT32_MAX = 2 ^ 32 - 1 := by decide
    rw [if_pos rfl, this, Nat.testBit_two_pow_sub_one]
    simp [hk]

theorem bool_to_int_testBit (s : Bool) (k : Nat) :
    (bool_to_int s).testBit k = (decide (k = 0) && s) := by
  cases s
  · simp [bool_to_int, Int.testBit]
  · show Nat.testBit 1 k = _
    cases k with
    | zero => simp
    | succ k =>
      rw [Nat.testBit_lt_two_pow (Nat.one_lt_two_pow (by omega))]
      simp

theorem sign_func_eq (func : Int → Int → Int) (β : Bool → Bool → Bool)
    (hfunc : ∀ m n k, (func m n).testBit k = β (m.testBit k) (n.testBit k))
    (hβ : β false false = false) (sa sb : Bool) :
    decide (func (bool_to_int sa) (bool_to_int sb) > 0) = β sa sb := by
  have h : func (bool_to_int sa) (bool_to_int sb) = bool_to_int (β sa sb) := by
    apply int_testBit_ext
    intro i
    rw [hfunc, bool_to_int_testBit, bool_to_int_testBit, bool_to_int_testBit]
    by_cases hi : i = 0
    · simp [hi]
    · simp [hi, hβ]
  rw [h]
  cases β sa sb <;> decide

theorem abstract_bit_operation_loop_spec (func : Int → Int → Int) (rhs : big_integer)
    (xs : List Nat) (i : Nat) :
    (abstract_bit_operation_loop func rhs i xs).length = xs.length
    ∧ (∀ y ∈ abstract_bit_operation_loop func rhs i xs, y < BASE)
    ∧ ∀ j, j < xs.length → (abstract_bit_operation_loop func rhs i xs).getD j 0
        = to_uint32 (func (to_int (xs.getD j 0))
            (to_int (rhs.arr.getD (i + j) (get_complement rhs)))) := by
  induction xs generalizing i with
  | nil => simp [abstract_bit_operation_loop]
  | cons x xs ih =>
    obtain ⟨h1, h2, h3⟩ := ih (i + 1)
    simp only [abstract_bit_operation_loop, getD_ite_length, List.length_cons]
    refine ⟨by rw [h1], ?_, ?_⟩
    · intro y hy
      simp only [List.mem_cons] at hy
      rcases hy with hy | hy
      · rw [hy]; exact to_uint32_lt _
      · exact h2 y hy
    · intro j hj
      cases j with
      | zero => simp
      | succ j =>
        simp only [List.getD_cons_succ]
        rw [h3 j (by omega)]
        have e : i + 1 + j = i + (j + 1) := by ring
        rw [e]

theorem getD_resize (a : big_integer) (n j : Nat) :
    (resize a n (get_complement a)).arr.getD j (get_complement a)
      = a.arr.getD j (get_complement a) := by
  unfold resize
  split_ifs with h
  · rfl
  · simp only [List.getD_eq_getElem?_getD]
    by_cases hj : j < a.arr.length
    · rw [List.getElem?_append_left hj]
    · rw [List.getElem?_append_right (not_lt.mp hj), List.getElem?_eq_none (not_lt.mp hj)]
      simp only [List.getElem?_replicate]
      split_ifs <;> rfl

theorem getD_default_of_lt (l : List Nat) (j d1 d2 : Nat) (h : j < l.length) :
    l.getD j d1 = l.getD j d2 := by
  simp [List.getD_eq_getElem?_getD, List.getElem?_eq_getElem h]

theorem getD_default_of_ge (l : List Nat) (j d : Nat) (h : l.length ≤ j) : l.getD j d = d := by
  simp [List.getD_eq_getElem?_getD, List.getElem?_eq_none h]

/-- The result of `abstract_bit_operation` is canonical, its sign is the bit
operation of the signs, and every bit of its value is the bit operation of the
bits of the two values. -/
theorem abstract_bit_operation_spec (func : Int → Int → Int) (g : Nat → Nat → Nat)
    (β : Bool → Bool → Bool)
    (hfunc : ∀ m n k, (func m n).testBit k = β (m.testBit k) (n.testBit k))
    (hg : ∀ x y i, (g x y).testBit i = β (x.testBit i) (y.testBit i))
    (hβ : β false false = false)
    (a b : big_integer) (ha : wf a) (hb : wf b) :
    canonical (abstract_bit_operation func a b)
    ∧ (abstract_bit_operation func a b).is_neg = β a.is_neg b.is_neg
    ∧ ∀ i, (value (abstract_bit_operation func a b)).testBit i
        = β ((value a).testBit i) ((value b).testBit i) := by
  unfold abstract_bit_operation
  simp only
  have hlen1 := length_resize a (max a.arr.length b.arr.length) (get_complement a)
  have hneg1 := is_neg_resize a (max a.arr.length b.arr.length) (get_complement a)
  have hwf1 := wf_resize a (max a.arr.length b.arr.length) (get_complement a) ha
    (get_complement_lt a)
  have hget := getD_resize a (max a.arr.length b.arr.length)
  obtain ⟨a1, ha1⟩ : ∃ a1, resize a (max a.arr.length b.arr.length) (get_complement a) = a1 :=
    ⟨_, rfl⟩
  rw [ha1] at hlen1 hneg1 hwf1 hget ⊢
  obtain ⟨h1, h2, h3⟩ := abstract_bit_operation_loop_spec func b a1.arr 0
  obtain ⟨L, hL⟩ : ∃ L, abstract_bit_operation_loop func b 0 a1.arr = L := ⟨_, rfl⟩
  rw [hL] at h1 h2 h3 ⊢
  rw [sign_func_eq func β hfunc hβ, hneg1]
  have hwft : wf ⟨L, β a.is_neg b.is_neg⟩ := h2
  refine ⟨canonical_remove_leading _ hwft, is_neg_remove_leading _, fun i => ?_⟩
  rw [value_remove_leading, testBit_value _ hwft, testBit_value a ha, testBit_value b hb]
  have hk : i % 32 < 32 := Nat.mod_lt _ (by decide)
  simp only
  by_cases hj : i / 32 < a1.arr.length
  · rw [getD_default_of_lt L _ _ 0 (by rw [h1]; exact hj), h3 _ hj, zero_add]
    rw [getD_default_of_lt a1.arr _ 0 (get_complement a) hj, hget]
    rw [limb_func_eq func g β hfunc hg hβ _ _
      (getD_lt_base _ _ _ ha (get_complement_lt a))
      (getD_lt_base _ _ _ hb (get_complement_lt b)), hg]
  · have hj' : a1.arr.length ≤ i / 32 := not_lt.mp hj
    rw [getD_default_of_ge L _ _ (by rw [h1]; exact hj'),
      getD_default_of_ge a.arr _ _ (by omega), getD_default_of_ge b.arr _ _ (by omega),
      get_complement_testBit _ _ hk, get_complement_testBit _ _ hk,
      get_complement_testBit _ _ hk]

end Bigint

namespace Bigint

theorem operator_and_spec (a b : big_integer) (ha : wf a) (hb : wf b) :
    canonical (operator_and a b)
    ∧ (operator_and a b).is_neg = (a.is_neg && b.is_neg)
    ∧ ∀ i, (value (operator_and a b)).testBit i
        = ((value a).testBit i && (value b).testBit i) :=
  abstract_bit_operation_spec Int.land (fun x y => x &&& y) (fun p q => p && q)
    Int.testBit_land Nat.testBit_and rfl a b ha hb

theorem operator_or_spec (a b : big_integer) (ha : wf a) (hb : wf b) :
    canonical (operator_or a b)
    ∧ (operator_or a b).is_neg = (a.is_neg || b.is_neg)
    ∧ ∀ i, (value (operator_or a b)).testBit i
        = ((value a).testBit i || (value b).testBit i) :=
  abstract_bit_operation_spec Int.lor (fun x y => x ||| y) (fun p q => p || q)
    Int.testBit_lor Nat.testBit_or rfl a b ha hb

theorem operator_xor_spec (a b : big_integer) (ha : wf a) (hb : wf b) :
    canonical (operator_xor a b)
    ∧ (operator_xor a b).is_neg = xor a.is_neg b.is_neg
    ∧ ∀ i, (value (operator_xor a b)).testBit i
        = xor ((value a).testBit i) ((value b).testBit i) :=
  abstract_bit_operation_spec Int.xor (fun x y => x ^^^ y) (fun p q => xor p q)
    Int.testBit_lxor Nat.testBit_xor rfl a b ha hb

theorem operator_and_value (a b : big_integer) (ha : wf a) (hb : wf b) :
    value (operator_and a b) = Int.land (value a) (value b) := by
  apply int_testBit_ext
  intro i
  rw [(operator_and_spec a b ha hb).2.2 i, Int.testBit_land]

theorem operator_or_value (a b : big_integer) (ha : wf a) (hb : wf b) :
    value (operator_or a b) = Int.lor (value a) (value b) := by
  apply int_testBit_ext
  intro i
  rw [(operator_or_spec a b ha hb).2.2 i, Int.testBit_lor]

theorem operator_xor_value (a b : big_integer) (ha : wf a) (hb : wf b) :
    value (operator_xor a b) = Int.xor (value a) (value b) := by
  apply int_testBit_ext
  intro i
  rw [(operator_xor_spec a b ha hb).2.2 i, Int.testBit_lxor]

theorem operator_xor_comm (a b : big_integer) (ha : wf a) (hb : wf b) :
    operator_xor a b = operator_xor b a := by
  apply canonical_unique _ _ (operator_xor_spec a b ha hb).1 (operator_xor_spec b a hb ha).1
  apply int_testBit_ext
  intro i
  rw [(operator_xor_spec a b ha hb).2.2 i, (operator_xor_spec b a hb ha).2.2 i, Bool.xor_comm]

theorem operator_xor_self (a : big_integer) (ha : wf a) : operator_xor a a = zero := by
  apply canonical_value_zero _ (operator_xor_spec a a ha ha).1
  apply int_testBit_ext
  intro i
  rw [(operator_xor_spec a a ha ha).2.2 i]
  simp [Int.testBit]

theorem sub_self (a : big_integer) (ha : wf a) : sub a a = zero := by
  apply canonical_value_zero _ (canonical_sub a a ha ha)
  rw [sub_value a a ha ha]
  ring

theorem mul_zero_eq (a : big_integer) (ha : wf a) :
    mul a zero = zero ∧ mul zero a = zero := by
  constructor
  · apply canonical_value_zero _ (canonical_mul a zero ha wf_zero)
    rw [mul_value a zero ha wf_zero, value_zero]
    ring
  · apply canonical_value_zero _ (canonical_mul zero a wf_zero ha)
    rw [mul_value zero a wf_zero ha, value_zero]
    ring

/-- Negating twice gives the canonical form of the operand. -/
theorem operator_neg_neg_remove_leading (a : big_integer) (ha : wf a) :
    operator_neg (operator_neg a) = remove_leading a := by
  apply canonical_unique _ _ (canonical_operator_neg _) (canonical_remove_leading a ha)
  rw [operator_neg_value _ (canonical_operator_neg a).1, operator_neg_value a ha,
    value_remove_leading]
  ring

/-- Canonical numbers are the fixed points of `remove_leading`. -/
theorem canonical_iff_remove_leading (a : big_integer) (ha : wf a) :
    canonical a ↔ remove_leading a = a := by
  constructor
  · intro hc
    exact canonical_unique _ _ (canonical_remove_leading a ha) hc (value_remove_leading a)
  · intro h
    rw [← h]
    exact canonical_remove_leading a ha

end Bigint

namespace Bigint

/-! ## The claims, continued -/

/-- Claim C11: for every canonical big integer `x`, `to_string x` returns a text
and the constructor from that text builds `x` again, with the same sign flag
and the same limbs. -/
theorem C11_round_trip (x : big_integer) (hx : canonical x) :
    ∃ t, to_string x = some t ∧ from_string t = .done x :=
  round_trip x hx

/-- Witness of C11: the number built from the machine integer `-4294967296`. -/
theorem C11_round_trip_witness :
    canonical (of_signed (-4294967296))
    ∧ ∃ t, to_string (of_signed (-4294967296)) = some t
        ∧ from_string t = .done (of_signed (-4294967296)) :=
  ⟨by decide, C11_round_trip (of_signed (-4294967296)) (by decide)⟩

/-- Claim C12: a signed machine integer `x` (64 bits, which covers `int`, `long`
and `long long`) and an unsigned one (`unsigned`, `unsigned long`,
`unsigned long long`) convert to a canonical number of value `x` whose
`to_string` is the decimal text of `x`; the extreme values are included. -/
theorem C12_machine_integer_ctor (x : Int) :
    (-9223372036854775808 ≤ x → x ≤ 9223372036854775807 →
      value (of_signed x) = x ∧ canonical (of_signed x)
        ∧ to_string (of_signed x) = some (decimal_text x))
    ∧ (0 ≤ x → x ≤ 18446744073709551615 →
      value (of_unsigned x.toNat) = x ∧ canonical (of_unsigned x.toNat)
        ∧ to_string (of_unsigned x.toNat) = some (decimal_text x)) :=
  machine_integer_ctor x

/-- Witness of C12: the least `long long` and the greatest `unsigned long long`. -/
theorem C12_machine_integer_ctor_witness :
    (value (of_signed (-9223372036854775808)) = -9223372036854775808
      ∧ canonical (of_signed (-9223372036854775808))
      ∧ to_string (of_signed (-9223372036854775808))
          = some (decimal_text (-9223372036854775808)))
    ∧ (value (of_unsigned (18446744073709551615 : Int).toNat) = 18446744073709551615
      ∧ canonical (of_unsigned (18446744073709551615 : Int).toNat)
      ∧ to_string (of_unsigned (18446744073709551615 : Int).toNat)
          = some (decimal_text 18446744073709551615)) :=
  ⟨(C12_machine_integer_ctor (-9223372036854775808)).1 (by decide) (by decide),
    (C12_machine_integer_ctor 18446744073709551615).2 (by decide) (by decide)⟩

/-- Claim C13: for canonical `a` and `b`, `a <= b` is true exactly when
`value a ≤ value b`, and `<`, `>`, `>=` are the strict and the converse orders
of the values. -/
theorem C13_order_operators (a b : big_integer) (ha : canonical a) (hb : canonical b) :
    (operator_le a b = true ↔ value a ≤ value b)
    ∧ (operator_lt a b = true ↔ value a < value b)
    ∧ (operator_gt a b = true ↔ value a > value b)
    ∧ (operator_ge a b = true ↔ value a ≥ value b) :=
  order_operators a b ha hb

/-- Witness of C13: `-2^32` (one limb) against `-2^33` (two limbs). -/
theorem C13_order_operators_witness :
    canonical ⟨[0], true⟩ ∧ canonical ⟨[0, 4294967294], true⟩
    ∧ (operator_le ⟨[0], true⟩ ⟨[0, 4294967294], true⟩ = true
        ↔ value ⟨[0], true⟩ ≤ value ⟨[0, 4294967294], true⟩)
    ∧ (operator_lt ⟨[0], true⟩ ⟨[0, 4294967294], true⟩ = true
        ↔ value ⟨[0], true⟩ < value ⟨[0, 4294967294], true⟩)
    ∧ (operator_gt ⟨[0], true⟩ ⟨[0, 4294967294], true⟩ = true
        ↔ value ⟨[0], true⟩ > value ⟨[0, 4294967294], true⟩)
    ∧ (operator_ge ⟨[0], true⟩ ⟨[0, 4294967294], true⟩ = true
        ↔ value ⟨[0], true⟩ ≥ value ⟨[0, 4294967294], true⟩) :=
  ⟨by decide, by decide,
    C13_order_operators ⟨[0], true⟩ ⟨[0, 4294967294], true⟩ (by decide) (by decide)⟩

/-- Claim C14: for all big integers `a` and `b`, canonical or not, exactly one
of `a < b`, `a == b`, `a > b` holds, `==` comparing sign flags and limb vectors. -/
theorem C14_trichotomy (a b : big_integer) :
    (operator_lt a b = true ∧ operator_eq a b = false ∧ operator_gt a b = false)
    ∨ (operator_lt a b = false ∧ operator_eq a b = true ∧ operator_gt a b = false)
    ∨ (operator_lt a b = false ∧ operator_eq a b = false ∧ operator_gt a b = true) :=
  trichotomy a b

/-- Zero has one canonical representation, the number without limbs and with
`is_neg` false; negating zero, parsing `-0`, `a - a`, `a * 0`, `0 * a` and
`x ^ x` all give it; it compares equal to `big_integer(0)` and prints as `0`. -/
theorem zero_representation :
    (∀ r, canonical r → value r = 0 → r = zero)
    ∧ zero = ⟨[], false⟩
    ∧ negate zero = zero ∧ operator_neg zero = zero
    ∧ from_string ['-', '0'] = .done zero
    ∧ (∀ a, wf a → sub a a = zero)
    ∧ (∀ a, wf a → mul a zero = zero ∧ mul zero a = zero)
    ∧ (∀ x, wf x → operator_xor x x = zero)
    ∧ operator_eq zero (of_signed 0) = true
    ∧ to_string zero = some ['0'] :=
  ⟨canonical_value_zero, rfl, by decide, by decide, by decide, sub_self, mul_zero_eq,
    operator_xor_self, by decide, by decide⟩

/-- Claim C15 fails on the code: the remainder of `-4294967296` by `4294967296`
is mathematically zero, and both operands are canonical, but `%` returns the
dividend, one limb `0` with `is_neg` set; this is not the number without limbs
and with `is_neg` false, it does not compare equal to `big_integer(0)` and its
value is `-4294967296`. -/
theorem C15_zero_from_remainder :
    canonical ⟨[0], true⟩ ∧ canonical ⟨[0, 1], false⟩
    ∧ Int.tmod (value ⟨[0], true⟩) (value ⟨[0, 1], false⟩) = 0
    ∧ mod ⟨[0], true⟩ ⟨[0, 1], false⟩ = .done ⟨[0], true⟩
    ∧ (⟨[0], true⟩ : big_integer) ≠ zero
    ∧ operator_eq ⟨[0], true⟩ (of_signed 0) = false
    ∧ value ⟨[0], true⟩ = -4294967296 := by
  decide

/-- Claim C16: the value of `-a` is the negation of the value of `a`; negating
twice gives the canonical form of `a`, hence `a` itself when `a` is canonical,
as every number built by a constructor or an operator is. -/
theorem C16_operator_neg (a : big_integer) (ha : wf a) :
    value (operator_neg a) = -value a
    ∧ operator_neg (operator_neg a) = remove_leading a
    ∧ (canonical a → operator_neg (operator_neg a) = a) :=
  ⟨operator_neg_value a ha, operator_neg_neg_remove_leading a ha, operator_neg_neg a⟩

/-- Witness of C16: `-2^32`, one limb, whose negation `2^32` needs a second limb. -/
theorem C16_operator_neg_witness :
    wf ⟨[0], true⟩
    ∧ value (operator_neg ⟨[0], true⟩) = -value ⟨[0], true⟩
    ∧ operator_neg (operator_neg ⟨[0], true⟩) = ⟨[0], true⟩ :=
  ⟨by decide, (C16_operator_neg ⟨[0], true⟩ (by decide)).1,
    (C16_operator_neg ⟨[0], true⟩ (by decide)).2.2 (by decide)⟩

/-- Claim C17: `~a == -a - 1`, with the same sign flag and the same limbs, for
every big integer `a` with 32-bit limbs. -/
theorem C17_complement_law (a : big_integer) (ha : wf a) :
    operator_not a = sub (operator_neg a) (of_signed 1) :=
  operator_not_eq a ha

/-- Witness of C17: `a = 0`. -/
theorem C17_complement_law_witness :
    wf zero ∧ operator_not zero = sub (operator_neg zero) (of_signed 1) :=
  ⟨by decide, C17_complement_law zero (by decide)⟩

/-- Claim C18: the value of `a & b` is the bitwise AND of the values read in
two's complement: every bit of it is the AND of the bits, and the sign flag is
the AND of the sign flags. -/
theorem C18_operator_and (a b : big_integer) (ha : wf a) (hb : wf b) :
    value (operator_and a b) = Int.land (value a) (value b)
    ∧ (∀ i, (value (operator_and a b)).testBit i
        = ((value a).testBit i && (value b).testBit i))
    ∧ (operator_and a b).is_neg = (a.is_neg && b.is_neg) :=
  ⟨operator_and_value a b ha hb, (operator_and_spec a b ha hb).2.2,
    (operator_and_spec a b ha hb).2.1⟩

/-- Witness of C18: `-1 & 2^32`, operands of different lengths and signs. -/
theorem C18_operator_and_witness :
    wf ⟨[4294967295], true⟩ ∧ wf ⟨[0, 1], false⟩
    ∧ value (operator_and ⟨[4294967295], true⟩ ⟨[0, 1], false⟩)
        = Int.land (value ⟨[4294967295], true⟩) (value ⟨[0, 1], false⟩) :=
  ⟨by decide, by decide,
    (C18_operator_and ⟨[4294967295], true⟩ ⟨[0, 1], false⟩ (by decide) (by decide)).1⟩

/-- Claim C19: the value of `a | b` is the bitwise OR of the values read in
two's complement: every bit of it is the OR of the bits, and the sign flag is
the OR of the sign flags. -/
theorem C19_operator_or (a b : big_integer) (ha : wf a) (hb : wf b) :
    value (operator_or a b) = Int.lor (value a) (value b)
    ∧ (∀ i, (value (operator_or a b)).testBit i
        = ((value a).testBit i || (value b).testBit i))
    ∧ (operator_or a b).is_neg = (a.is_neg || b.is_neg) :=
  ⟨operator_or_value a b ha hb, (operator_or_spec a b ha hb).2.2,
    (operator_or_spec a b ha hb).2.1⟩

/-- Witness of C19: `-2^32 | 5`. -/
theorem C19_operator_or_witness :
    wf ⟨[0], true⟩ ∧ wf ⟨[5], false⟩
    ∧ value (operator_or ⟨[0], true⟩ ⟨[5], false⟩)
        = Int.lor (value ⟨[0], true⟩) (value ⟨[5], false⟩) :=
  ⟨by decide, by decide,
    (C19_operator_or ⟨[0], true⟩ ⟨[5], false⟩ (by decide) (by decide)).1⟩

/-- Claim C20: the value of `a ^ b` is the bitwise XOR of the values read in
two's complement: every bit of it is the XOR of the bits, and the sign flag is
the XOR of the sign flags; moreover `a ^ b == b ^ a` and `a ^ a == 0`. -/
theorem C20_operator_xor (a b : big_integer) (ha : wf a) (hb : wf b) :
    value (operator_xor a b) = Int.xor (value a) (value b)
    ∧ (∀ i, (value (operator_xor a b)).testBit i
        = xor ((value a).testBit i) ((value b).testBit i))
    ∧ (operator_xor a b).is_neg = xor a.is_neg b.is_neg
    ∧ operator_xor a b = operator_xor b a
    ∧ operator_xor a a = zero :=
  ⟨operator_xor_value a b ha hb, (operator_xor_spec a b ha hb).2.2,
    (operator_xor_spec a b ha hb).2.1, operator_xor_comm a b ha hb, operator_xor_self a ha⟩

/-- Witness of C20: `0xAA ^ -3`. -/
theorem C20_operator_xor_witness :
    wf ⟨[170], false⟩ ∧ wf ⟨[4294967293], true⟩
    ∧ value (operator_xor ⟨[170], false⟩ ⟨[4294967293], true⟩)
        = Int.xor (value ⟨[170], false⟩) (value ⟨[4294967293], true⟩)
    ∧ operator_xor ⟨[170], false⟩ ⟨[4294967293], true⟩
        = operator_xor ⟨[4294967293], true⟩ ⟨[170], false⟩
    ∧ operator_xor ⟨[170], false⟩ ⟨[170], false⟩ = zero :=
  ⟨by decide, by decide,
    (C20_operator_xor ⟨[170], false⟩ ⟨[4294967293], true⟩ (by decide) (by decide)).1,
    (C20_operator_xor ⟨[170], false⟩ ⟨[4294967293], true⟩ (by decide) (by decide)).2.2.2.1,
    (C20_operator_xor ⟨[170], false⟩ ⟨[4294967293], true⟩ (by decide) (by decide)).2.2.2.2⟩

end Bigint

namespace Bigint

/-! ## Bits of shifted numbers -/

theorem nat_testBit_div_two_pow (n k i : Nat) : (n / 2 ^ k).testBit i = n.testBit (i + k) := by
  rw [← Nat.shiftRight_eq_div_pow, Nat.testBit_shiftRight, add_comm]

theorem int_testBit_mul_two_pow (z : Int) (k i : Nat) :
    (z * 2 ^ k).testBit i = (decide (k ≤ i) && z.testBit (i - k)) := by
  cases z with
  | ofNat n =>
    have e : Int.ofNat n * 2 ^ k = ((2 ^ k * n : Nat) : Int) := by
      push_cast; rw [mul_comm]; rfl
    rw [e]
    show (2 ^ k * n).testBit i = (decide (k ≤ i) && n.testBit (i - k))
    rw [Nat.testBit_mul_pow_two]
  | negSucc n =>
    have hp : 0 < 2 ^ k := Nat.two_pow_pos k
    have e : Int.negSucc n * 2 ^ k = Int.negSucc (2 ^ k * n + (2 ^ k - 1)) := by
      rw [Int.negSucc_eq, Int.negSucc_eq]
      push_cast [show 1 ≤ 2 ^ k from hp]
      ring
    rw [e]
    show (!(2 ^ k * n + (2 ^ k - 1)).testBit i) = (decide (k ≤ i) && !n.testBit (i - k))
    rw [Nat.testBit_mul_pow_two_add n (show 2 ^ k - 1 < 2 ^ k by omega) i]
    by_cases h : i < k
    · simp [h, Nat.testBit_two_pow_sub_one, Nat.not_le.mpr h]
    · simp [h, Nat.not_lt.mp h]

theorem int_testBit_div_two_pow (z : Int) (k i : Nat) :
    (z / 2 ^ k).testBit i = z.testBit (i + k) := by
  cases z with
  | ofNat n =>
    have e : Int.ofNat n / 2 ^ k = ((n / 2 ^ k : Nat) : Int) := by
      push_cast; rfl
    rw [e]
    show (n / 2 ^ k).testBit i = n.testBit (i + k)
    rw [nat_testBit_div_two_pow]
  | negSucc n =>
    have hp : (0 : Int) < 2 ^ k := by positivity
    have e : Int.negSucc n / 2 ^ k = Int.negSucc (n / 2 ^ k) := by
      rw [Int.negSucc_ediv n hp, Int.negSucc_eq]
      push_cast
      rfl
    rw [e]
    show (!(n / 2 ^ k).testBit i) = !n.testBit (i + k)
    rw [nat_testBit_div_two_pow]

/-- The limb a right shift by `r` bits forms from two neighbouring limbs. -/
theorem shr_limb_testBit (x y r j : Nat) (hr : r ≤ 32) (hx : x < BASE) :
    ((x / 2 ^ r + y % 2 ^ r * 2 ^ (32 - r) % BASE) % BASE).testBit j
      = if j < 32 - r then x.testBit (j + r) else (decide (j < 32) && y.testBit (j + r - 32)) := by
  have hB : BASE = 2 ^ 32 := by decide
  have hsplit : 2 ^ 32 = 2 ^ (32 - r) * 2 ^ r := by
    rw [← pow_add]; congr 1; omega
  have hlo : x / 2 ^ r < 2 ^ (32 - r) := by
    rw [Nat.div_lt_iff_lt_mul (Nat.two_pow_pos r), ← hsplit, ← hB]; exact hx
  have hhi : y % 2 ^ r * 2 ^ (32 - r) < BASE := by
    rw [hB, hsplit, mul_comm]
    exact Nat.mul_lt_mul_of_pos_left (Nat.mod_lt _ (Nat.two_pow_pos r)) (Nat.two_pow_pos _)
  rw [Nat.mod_eq_of_lt hhi]
  have hsum : x / 2 ^ r + y % 2 ^ r * 2 ^ (32 - r) < BASE := by
    have h1 : y % 2 ^ r ≤ 2 ^ r - 1 := Nat.le_sub_one_of_lt (Nat.mod_lt _ (Nat.two_pow_pos r))
    have h2 : y % 2 ^ r * 2 ^ (32 - r) ≤ (2 ^ r - 1) * 2 ^ (32 - r) :=
      Nat.mul_le_mul_right _ h1
    have h3 : (2 ^ r - 1) * 2 ^ (32 - r) = 2 ^ 32 - 2 ^ (32 - r) := by
      rw [Nat.sub_mul, one_mul, hsplit, mul_comm]
    rw [hB]
    have h4 : 2 ^ (32 - r) ≤ 2 ^ 32 := Nat.pow_le_pow_right (by decide) (by omega)
    omega
  rw [Nat.mod_eq_of_lt hsum]
  have e : x / 2 ^ r + y % 2 ^ r * 2 ^ (32 - r) = 2 ^ (32 - r) * (y % 2 ^ r) + x / 2 ^ r := by
    ring
  rw [e, Nat.testBit_mul_pow_two_add _ hlo j]
  split_ifs with hj
  · rw [nat_testBit_div_two_pow]
  · rw [Nat.testBit_mod_two_pow]
    have e2 : j - (32 - r) = j + r - 32 := by omega
    rw [e2]
    congr 1
    simp only [decide_eq_decide]
    omega

/-- The limb a left shift by `rem` bits forms from two neighbouring limbs. -/
theorem shl_limb_testBit (x c rem j : Nat) (hr : rem < 32) (hx : x < BASE) :
    ((x / 2 ^ (32 - rem) + c * 2 ^ rem % BASE) % BASE).testBit j
      = if j < rem then x.testBit (j + (32 - rem)) else (decide (j < 32) && c.testBit (j - rem)) := by
  have hB : BASE = 2 ^ 32 := by decide
  have hsplit : 2 ^ 32 = 2 ^ (32 - rem) * 2 ^ rem := by
    rw [← pow_add]; congr 1; omega
  have hc : c * 2 ^ rem % BASE = c % 2 ^ (32 - rem) * 2 ^ rem := by
    rw [hB, hsplit, Nat.mul_mod_mul_right]
  rw [hc]
  have e := shr_limb_testBit x c (32 - rem) j (by omega) hx
  have e3 : 32 - (32 - rem) = rem := by omega
  rw [e3] at e
  have hhi : c % 2 ^ (32 - rem) * 2 ^ rem < BASE := by
    rw [hB, hsplit]
    exact Nat.mul_lt_mul_of_pos_right (Nat.mod_lt _ (Nat.two_pow_pos _)) (Nat.two_pow_pos _)
  rw [Nat.mod_eq_of_lt hhi] at e
  rw [e]
  split_ifs with hj
  · rfl
  · congr 2
    omega

end Bigint

namespace Bigint

/-! ## Left shift -/

theorem shl_loop_spec (offset rem : Nat) (t : Nat) (arr : List Nat) (carry : Nat)
    (h : t + offset < arr.length) :
    (shl_loop offset rem t arr carry).1.length = arr.length
    ∧ (shl_loop offset rem t arr carry).2 = (if t = 0 then carry else arr.getD 0 0)
    ∧ ∀ idx, (shl_loop offset rem t arr carry).1.getD idx 0
        = if offset < idx ∧ idx ≤ offset + t then
            (arr.getD (idx - offset - 1) 0 / 2 ^ (32 - rem)
              + (if idx - offset = t then carry else arr.getD (idx - offset) 0) * 2 ^ rem % BASE)
              % BASE
          else arr.getD idx 0 := by
  induction t generalizing arr carry with
  | zero =>
    refine ⟨rfl, rfl, fun idx => ?_⟩
    have : ¬ (offset < idx ∧ idx ≤ offset + 0) := by omega
    simp only [shl_loop, if_neg this]
  | succ t ih =>
    simp only [shl_loop]
    obtain ⟨v, hv⟩ : ∃ v, (arr.getD t 0 / 2 ^ (32 - rem) + carry * 2 ^ rem % BASE) % BASE = v :=
      ⟨_, rfl⟩
    rw [hv]
    have hlen : (arr.set (t + 1 + offset) v).length = arr.length := List.length_set _ _ _
    obtain ⟨h1, h2, h3⟩ := ih (arr.set (t + 1 + offset) v) (arr.getD t 0) (by rw [hlen]; omega)
    refine ⟨by rw [h1, hlen], ?_, fun idx => ?_⟩
    · rw [h2, if_neg (Nat.succ_ne_zero t)]
      split_ifs with ht
      · rw [ht]
      · rw [getD_set, if_neg (by omega)]
    · rw [h3]
      by_cases c1 : idx = t + 1 + offset
      · have n1 : ¬ (offset < idx ∧ idx ≤ offset + t) := by omega
        have p1 : offset < idx ∧ idx ≤ offset + (t + 1) := by omega
        rw [if_neg n1, if_pos p1, getD_set, if_pos ⟨c1.symm, by omega⟩]
        have e1 : idx - offset - 1 = t := by omega
        have e2 : idx - offset = t + 1 := by omega
        rw [e1, e2, if_pos rfl, hv]
      · by_cases c2 : offset < idx ∧ idx ≤ offset + t
        · have p1 : offset < idx ∧ idx ≤ offset + (t + 1) := by omega
          rw [if_pos c2, if_pos p1, getD_set, if_neg (by omega)]
          have n2 : ¬ idx - offset = t + 1 := by omega
          rw [if_neg n2]
          by_cases c3 : idx - offset = t
          · rw [if_pos c3, c3]
          · rw [if_neg c3, getD_set, if_neg (by omega)]
        · have n1 : ¬ (offset < idx ∧ idx ≤ offset + (t + 1)) := by omega
          rw [if_neg c2, if_neg n1, getD_set, if_neg (by omega)]

theorem shl_clear_spec (i : Nat) (arr : List Nat) :
    (shl_clear i arr).length = arr.length
    ∧ ∀ idx, (shl_clear i arr).getD idx 0 = if idx < i then 0 else arr.getD idx 0 := by
  induction i generalizing arr with
  | zero => exact ⟨rfl, fun idx => by simp [shl_clear]⟩
  | succ i ih =>
    simp only [shl_clear]
    obtain ⟨h1, h2⟩ := ih (arr.set i 0)
    refine ⟨by rw [h1, List.length_set], fun idx => ?_⟩
    rw [h2, getD_set]
    by_cases c1 : idx < i
    · rw [if_pos c1, if_pos (Nat.lt_succ_of_lt c1)]
    · rw [if_neg c1]
      by_cases c2 : idx = i
      · rw [if_pos (show idx < i + 1 by omega)]
        by_cases c3 : i < arr.length
        · rw [if_pos ⟨c2.symm, c3⟩]
        · rw [if_neg (fun hh => c3 hh.2), getD_of_le _ _ (by omega)]
      · rw [if_neg (fun hh => c2 hh.1.symm), if_neg (show ¬ idx < i + 1 by omega)]

end Bigint

namespace Bigint

theorem getD_resize_default (a : big_integer) (n j c : Nat) :
    (resize a n c).arr.getD j c = a.arr.getD j c := by
  unfold resize
  split_ifs with h
  · rfl
  · simp only [List.getD_eq_getElem?_getD]
    by_cases hj : j < a.arr.length
    · rw [List.getElem?_append_left hj]
    · rw [List.getElem?_append_right (not_lt.mp hj), List.getElem?_eq_none (not_lt.mp hj)]
      simp only [List.getElem?_replicate]
      split_ifs <;> rfl

/-- The limbs `operator<<=` has written when it calls `remove_leading`. -/
theorem operator_shl_limbs (a : big_integer) (k : Nat) :
    ∃ F, operator_shl a k = remove_leading ⟨F, a.is_neg⟩
      ∧ F.length = a.arr.length + k / 32 + 1
      ∧ ∀ idx, F.getD idx 0 =
          if idx < k / 32 then 0
          else if idx ≤ k / 32 + a.arr.length then
            ((if idx = k / 32 then 0 else a.arr.getD (idx - k / 32 - 1) 0) / 2 ^ (32 - k % 32)
              + a.arr.getD (idx - k / 32) (get_complement a) * 2 ^ (k % 32) % BASE) % BASE
          else 0 := by
  unfold operator_shl
  simp only
  have hlen1 := length_resize a (a.arr.length + k / 32 + 1) 0
  have hneg1 := is_neg_resize a (a.arr.length + k / 32 + 1) 0
  have hget := fun j => getD_resize_default a (a.arr.length + k / 32 + 1) j 0
  obtain ⟨a1, ha1⟩ : ∃ a1, resize a (a.arr.length + k / 32 + 1) 0 = a1 := ⟨_, rfl⟩
  rw [ha1] at hlen1 hneg1 hget ⊢
  have hlen : a1.arr.length = a.arr.length + k / 32 + 1 := by rw [hlen1]; omega
  have hc : get_complement a1 = get_complement a := by unfold get_complement; rw [hneg1]
  have hsteps : a.arr.length + k / 32 + 1 - 1 - k / 32 = a.arr.length := by omega
  rw [hsteps, hc, hneg1]
  obtain ⟨h1, h2, h3⟩ := shl_loop_spec (k / 32) (k % 32) a.arr.length a1.arr (get_complement a)
    (by rw [hlen]; omega)
  obtain ⟨r, hr⟩ : ∃ r, shl_loop (k / 32) (k % 32) a.arr.length a1.arr (get_complement a) = r :=
    ⟨_, rfl⟩
  rw [hr] at h1 h2 h3 ⊢
  obtain ⟨g1, g2⟩ := shl_clear_spec (k / 32) (r.1.set (k / 32) (r.2 * 2 ^ (k % 32) % BASE))
  refine ⟨_, rfl, by rw [g1, List.length_set, h1, hlen], fun idx => ?_⟩
  rw [g2]
  by_cases c1 : idx < k / 32
  · rw [if_pos c1, if_pos c1]
  · rw [if_neg c1, if_neg c1, getD_set]
    by_cases c2 : idx = k / 32
    · have hin : k / 32 < r.1.length := by rw [h1, hlen]; omega
      have c2' : idx ≤ k / 32 + a.arr.length := by omega
      rw [if_pos ⟨c2.symm, hin⟩, if_pos c2', if_pos c2, h2]
      have e0 : idx - k / 32 = 0 := by omega
      rw [e0, Nat.zero_div, zero_add, Nat.mod_mod]
      by_cases c3 : a.arr.length = 0
      · rw [if_pos c3, getD_default_of_ge _ _ _ (by omega)]
      · rw [if_neg c3, hget 0, getD_default_of_lt a.arr 0 0 (get_complement a) (by omega)]
    · rw [if_neg (fun hh => c2 hh.1.symm), h3]
      by_cases c3 : idx ≤ k / 32 + a.arr.length
      · have c2' : k / 32 < idx := by omega
        rw [if_pos ⟨c2', c3⟩, if_pos c3, if_neg c2, hget, hget]
        by_cases c4 : idx - k / 32 = a.arr.length
        · rw [if_pos c4, getD_default_of_ge a.arr (idx - k / 32) (get_complement a) (by omega)]
        · rw [if_neg c4,
            getD_default_of_lt a.arr (idx - k / 32) 0 (get_complement a) (by omega)]
      · rw [if_neg (fun hh => c3 hh.2), if_neg c3, getD_of_le _ _ (by omega)]

end Bigint

namespace Bigint

theorem operator_shl_spec (a : big_integer) (ha : wf a) (k : Nat) :
    canonical (operator_shl a k) ∧ value (operator_shl a k) = value a * 2 ^ k := by
  obtain ⟨F, hF, hlen, hget⟩ := operator_shl_limbs a k
  have hc : get_complement ⟨F, a.is_neg⟩ = get_complement a := rfl
  have hwf : wf ⟨F, a.is_neg⟩ := by
    apply wf_of_getD
    intro j
    have hB : 0 < BASE := by decide
    rw [hget]
    split_ifs
    all_goals first | exact hB | exact Nat.mod_lt _ hB
  rw [hF]
  refine ⟨canonical_remove_leading _ hwf, ?_⟩
  apply int_testBit_ext
  intro i
  rw [value_remove_leading, testBit_value _ hwf, int_testBit_mul_two_pow, testBit_value a ha, hc]
  have hj : i % 32 < 32 := Nat.mod_lt _ (by decide)
  have hr : k % 32 < 32 := Nat.mod_lt _ (by decide)
  show (F.getD (i / 32) (get_complement a)).testBit (i % 32) = _
  by_cases cB : i / 32 < F.length
  · rw [getD_default_of_lt F _ (get_complement a) 0 cB, hget]
    by_cases c1 : i / 32 < k / 32
    · rw [if_pos c1]
      have : ¬ k ≤ i := by omega
      simp [this]
    · have c2 : i / 32 ≤ k / 32 + a.arr.length := by omega
      rw [if_neg c1, if_pos c2]
      have hx : (if i / 32 = k / 32 then 0 else a.arr.getD (i / 32 - k / 32 - 1) 0) < BASE := by
        split_ifs
        · decide
        · exact getD_lt_base _ _ _ ha (by decide)
      rw [shl_limb_testBit _ _ _ _ hr hx]
      by_cases c3 : i % 32 < k % 32
      · rw [if_pos c3]
        by_cases c4 : i / 32 = k / 32
        · rw [if_pos c4]
          have : ¬ k ≤ i := by omega
          simp [this]
        · rw [if_neg c4]
          have h1 : k ≤ i := by omega
          have e1 : (i - k) / 32 = i / 32 - k / 32 - 1 := by omega
          have e2 : (i - k) % 32 = i % 32 + (32 - k % 32) := by omega
          rw [e1, e2, getD_default_of_lt a.arr _ 0 (get_complement a) (by omega)]
          simp [h1]
      · rw [if_neg c3]
        have h1 : k ≤ i := by omega
        have e1 : (i - k) / 32 = i / 32 - k / 32 := by omega
        have e2 : (i - k) % 32 = i % 32 - k % 32 := by omega
        rw [e1, e2]
        simp [h1, hj]
  · have cB' : F.length ≤ i / 32 := not_lt.mp cB
    have h1 : k ≤ i := by omega
    rw [getD_default_of_ge F _ _ cB', getD_default_of_ge a.arr _ _ (by omega),
      get_complement_testBit _ _ hj, get_complement_testBit _ _ (Nat.mod_lt _ (by decide))]
    simp [h1]

theorem operator_shl_value (a : big_integer) (ha : wf a) (k : Nat) :
    value (operator_shl a k) = value a * 2 ^ k :=
  (operator_shl_spec a ha k).2

/-- A left shift is the product by any representation of `2^k`. -/
theorem operator_shl_eq_mul (a p : big_integer) (ha : wf a) (hp : wf p) (k : Nat)
    (hv : value p = 2 ^ k) : operator_shl a k = mul a p := by
  apply canonical_unique _ _ (operator_shl_spec a ha k).1 (canonical_mul a p ha hp)
  rw [operator_shl_value a ha, mul_value a p ha hp, hv]

theorem operator_shl_zero (a : big_integer) (ha : wf a) :
    operator_shl a 0 = remove_leading a := by
  apply canonical_unique _ _ (operator_shl_spec a ha 0).1 (canonical_remove_leading a ha)
  rw [operator_shl_value a ha, value_remove_leading]
  simp

end Bigint

namespace Bigint

/-! ## Right shift -/

theorem shl_u32_of_lt (x count : Nat) (h : count < 32) :
    shl_u32 x count = some (x * 2 ^ count % BASE) := if_pos h

theorem shl_u32_of_ge (x count : Nat) (h : 32 ≤ count) : shl_u32 x count = none :=
  if_neg (by omega)

/-- For a bit count `rem` other than zero the first loop of `operator>>=` has a
defined result, described limb by limb. -/
theorem shr_loop_spec (offset rem : Nat) (hr : 0 < rem) (steps i : Nat) (arr : List Nat)
    (h : i + steps ≤ arr.length) :
    ∃ out, shr_loop offset rem steps i arr = some out
      ∧ out.length = arr.length
      ∧ ∀ idx, out.getD idx 0
        = if i ≤ idx ∧ idx < i + steps then
            (arr.getD (idx + offset) 0 / 2 ^ rem
              + arr.getD (idx + offset + 1) 0 % 2 ^ rem * 2 ^ (32 - rem) % BASE) % BASE
          else arr.getD idx 0 := by
  induction steps generalizing i arr with
  | zero =>
    refine ⟨arr, rfl, rfl, fun idx => ?_⟩
    have : ¬ (i ≤ idx ∧ idx < i + 0) := by omega
    rw [if_neg this]
  | succ steps ih =>
    simp only [shr_loop]
    rw [shl_u32_of_lt _ _ (by omega)]
    simp only
    have hi : i < arr.length := by omega
    have hl1 : (arr.set i (arr.getD (i + offset) 0 / 2 ^ rem)).length = arr.length :=
      List.length_set _ _ _
    have e1 : (arr.set i (arr.getD (i + offset) 0 / 2 ^ rem)).getD i 0
        = arr.getD (i + offset) 0 / 2 ^ rem := by
      rw [getD_set, if_pos ⟨rfl, hi⟩]
    have e2 : (arr.set i (arr.getD (i + offset) 0 / 2 ^ rem)).getD (i + offset + 1) 0
        = arr.getD (i + offset + 1) 0 := by
      rw [getD_set, if_neg (by omega)]
    rw [e1, e2]
    obtain ⟨v, hv⟩ : ∃ v, (arr.getD (i + offset) 0 / 2 ^ rem
        + arr.getD (i + offset + 1) 0 % 2 ^ rem * 2 ^ (32 - rem) % BASE) % BASE = v := ⟨_, rfl⟩
    rw [hv]
    obtain ⟨arr2, harr2⟩ : ∃ arr2, (arr.set i (arr.getD (i + offset) 0 / 2 ^ rem)).set i v = arr2 :=
      ⟨_, rfl⟩
    have hl2 : arr2.length = arr.length := by rw [← harr2, List.length_set, hl1]
    have hg2 : ∀ j, arr2.getD j 0 = if j = i then v else arr.getD j 0 := by
      intro j
      rw [← harr2, getD_set, hl1]
      by_cases c : j = i
      · rw [if_pos ⟨c.symm, hi⟩, if_pos c]
      · rw [if_neg (fun hh => c hh.1.symm), if_neg c, getD_set, if_neg (fun hh => c hh.1.symm)]
    rw [harr2]
    obtain ⟨out, h0, h1, h2⟩ := ih (i + 1) arr2 (by rw [hl2]; omega)
    refine ⟨out, h0, by rw [h1, hl2], fun idx => ?_⟩
    rw [h2]
    by_cases c1 : i + 1 ≤ idx ∧ idx < i + 1 + steps
    · have p1 : i ≤ idx ∧ idx < i + (steps + 1) := by omega
      rw [if_pos c1, if_pos p1, hg2, hg2, if_neg (by omega), if_neg (by omega)]
    · rw [if_neg c1, hg2]
      by_cases c2 : idx = i
      · have p1 : i ≤ idx ∧ idx < i + (steps + 1) := by omega
        rw [if_pos c2, if_pos p1, c2, hv]
      · have n1 : ¬ (i ≤ idx ∧ idx < i + (steps + 1)) := by omega
        rw [if_neg c2, if_neg n1]

/-- With a bit count of zero every pass of the first loop of `operator>>=`
shifts a `uint32_t` by 32. -/
theorem shr_loop_rem_zero (offset steps i : Nat) (arr : List Nat) :
    shr_loop offset 0 (steps + 1) i arr = none := by
  simp only [shr_loop]
  rw [shl_u32_of_ge _ _ (le_refl _)]

theorem shr_fill_spec (c : Nat) (steps i : Nat) (arr : List Nat) (h : i + steps ≤ arr.length) :
    (shr_fill c steps i arr).length = arr.length
    ∧ ∀ idx, (shr_fill c steps i arr).getD idx 0
        = if i ≤ idx ∧ idx < i + steps then c else arr.getD idx 0 := by
  induction steps generalizing i arr with
  | zero =>
    refine ⟨rfl, fun idx => ?_⟩
    have : ¬ (i ≤ idx ∧ idx < i + 0) := by omega
    simp only [shr_fill, if_neg this]
  | succ steps ih =>
    simp only [shr_fill]
    have hi : i < arr.length := by omega
    obtain ⟨h1, h2⟩ := ih (i + 1) (arr.set i c) (by rw [List.length_set]; omega)
    refine ⟨by rw [h1, List.length_set], fun idx => ?_⟩
    rw [h2, getD_set]
    by_cases c1 : i + 1 ≤ idx ∧ idx < i + 1 + steps
    · have p1 : i ≤ idx ∧ idx < i + (steps + 1) := by omega
      rw [if_pos c1, if_pos p1]
    · rw [if_neg c1]
      by_cases c2 : idx = i
      · have p1 : i ≤ idx ∧ idx < i + (steps + 1) := by omega
        rw [if_pos ⟨c2.symm, hi⟩, if_pos p1]
      · have n1 : ¬ (i ≤ idx ∧ idx < i + (steps + 1)) := by omega
        rw [if_neg (fun hh => c2 hh.1.symm), if_neg n1]

end Bigint

namespace Bigint

/-- The limbs `operator>>=` has written when it calls `remove_leading`, for a
shift count below the number of stored bits. -/
theorem operator_shr_limbs (a : big_integer) (k : Nat) (hk : k < 32 * a.arr.length)
    (hr : k % 32 ≠ 0) :
    ∃ F, operator_shr a k = .done (remove_leading ⟨F, a.is_neg⟩)
      ∧ F.length = a.arr.length
      ∧ ∀ idx, F.getD idx 0 =
          if idx < a.arr.length - k / 32 then
            (a.arr.getD (idx + k / 32) (get_complement a) / 2 ^ (k % 32)
              + a.arr.getD (idx + k / 32 + 1) (get_complement a) % 2 ^ (k % 32)
                * 2 ^ (32 - k % 32) % BASE) % BASE
          else if idx < a.arr.length then get_complement a else 0 := by
  unfold operator_shr
  rw [if_neg (by omega)]
  simp only
  have hoff : k / 32 < a.arr.length := by omega
  obtain ⟨arr1, harr1, h1, h2⟩ := shr_loop_spec (k / 32) (k % 32) (by omega)
    (a.arr.length - k / 32 - 1) 0 a.arr (by omega)
  rw [harr1]
  simp only
  rw [shl_u32_of_lt _ _ (by omega)]
  simp only
  have eb : arr1.getD (arr1.length - 1) 0 = a.arr.getD (a.arr.length - 1) 0 := by
    rw [h2, h1, if_neg (by omega)]
  rw [eb]
  obtain ⟨x, hx⟩ : ∃ x, a.arr.getD (a.arr.length - 1) 0 / 2 ^ (k % 32) = x := ⟨_, rfl⟩
  rw [hx]
  have hin : a.arr.length - k / 32 - 1 < arr1.length := by rw [h1]; omega
  have e3 : (arr1.set (a.arr.length - k / 32 - 1) x).getD (a.arr.length - k / 32 - 1) 0 = x := by
    rw [getD_set, if_pos ⟨rfl, hin⟩]
  rw [e3]
  obtain ⟨y, hy⟩ : ∃ y,
    (x + get_complement a % 2 ^ (k % 32) * 2 ^ (32 - k % 32) % BASE) % BASE = y := ⟨_, rfl⟩
  rw [hy]
  obtain ⟨arr3, harr3⟩ : ∃ arr3,
    (arr1.set (a.arr.length - k / 32 - 1) x).set (a.arr.length - k / 32 - 1) y = arr3 :=
    ⟨_, rfl⟩
  rw [harr3]
  have hl3 : arr3.length = a.arr.length := by
    rw [← harr3, List.length_set, List.length_set, h1]
  have hg3 : ∀ j, arr3.getD j 0
      = if j = a.arr.length - k / 32 - 1 then y else arr1.getD j 0 := by
    intro j
    rw [← harr3, getD_set, List.length_set]
    by_cases c : j = a.arr.length - k / 32 - 1
    · rw [if_pos ⟨c.symm, hin⟩, if_pos c]
    · rw [if_neg (fun hh => c hh.1.symm), if_neg c, getD_set, if_neg (fun hh => c hh.1.symm)]
  obtain ⟨g1, g2⟩ := shr_fill_spec (get_complement a) (a.arr.length - (a.arr.length - k / 32))
    (a.arr.length - k / 32) arr3 (by rw [hl3]; omega)
  refine ⟨_, rfl, by rw [g1, hl3], fun idx => ?_⟩
  rw [g2, hg3, h2]
  by_cases c1 : idx < a.arr.length - k / 32
  · have n1 : ¬ (a.arr.length - k / 32 ≤ idx
        ∧ idx < a.arr.length - k / 32 + (a.arr.length - (a.arr.length - k / 32))) := by omega
    rw [if_pos c1, if_neg n1]
    by_cases c2 : idx = a.arr.length - k / 32 - 1
    · rw [if_pos c2, ← hy, ← hx]
      have e1 : idx + k / 32 = a.arr.length - 1 := by omega
      have e2 : idx + k / 32 + 1 = a.arr.length := by omega
      rw [e2, e1, getD_default_of_ge a.arr a.arr.length (get_complement a) (le_refl _),
        getD_default_of_lt a.arr (a.arr.length - 1) (get_complement a) 0 (by omega)]
    · have p1 : 0 ≤ idx ∧ idx < 0 + (a.arr.length - k / 32 - 1) := by omega
      rw [if_neg c2, if_pos p1,
        getD_default_of_lt a.arr (idx + k / 32) (get_complement a) 0 (by omega),
        getD_default_of_lt a.arr (idx + k / 32 + 1) (get_complement a) 0 (by omega)]
  · rw [if_neg c1]
    by_cases c2 : idx < a.arr.length
    · have p1 : a.arr.length - k / 32 ≤ idx
        ∧ idx < a.arr.length - k / 32 + (a.arr.length - (a.arr.length - k / 32)) := by omega
      rw [if_pos p1, if_pos c2]
    · have n1 : ¬ (a.arr.length - k / 32 ≤ idx
        ∧ idx < a.arr.length - k / 32 + (a.arr.length - (a.arr.length - k / 32))) := by omega
      have n2 : ¬ idx = a.arr.length - k / 32 - 1 := by omega
      have n3 : ¬ (0 ≤ idx ∧ idx < 0 + (a.arr.length - k / 32 - 1)) := by omega
      rw [if_neg n1, if_neg c2, if_neg n2, if_neg n3, getD_of_le _ _ (by omega)]

/-- The saturating branch of `operator>>=`: zero, or the one limb of `-1`. -/
theorem operator_shr_saturate (a : big_integer) (k : Nat) (hk : 32 * a.arr.length ≤ k) :
    operator_shr a k = .done (if a.is_neg then ⟨[UINT32_MAX], true⟩ else zero) := by
  unfold operator_shr
  rw [if_pos hk]
  cases h : a.is_neg <;> simp [get_complement, h] <;> decide

/-- Below the saturation bound a shift count that is a multiple of 32 makes
`operator>>=` shift a `uint32_t` left by 32. -/
theorem operator_shr_undefined (a : big_integer) (k : Nat) (hk : k < 32 * a.arr.length)
    (hr : k % 32 = 0) : operator_shr a k = .undefined := by
  unfold operator_shr
  rw [if_neg (by omega)]
  simp only
  rw [hr]
  cases shr_loop (k / 32) 0 (a.arr.length - k / 32 - 1) 0 a.arr with
  | none => rfl
  | some arr1 =>
    simp only
    rw [shl_u32_of_ge _ _ (le_refl _)]

/-- Where `operator>>=` has a defined result (a bit count `k % 32` other than
zero, or saturation), the result is canonical and its value is the floor of
`value a / 2 ^ k`. -/
theorem operator_shr_spec (a : big_integer) (ha : wf a) (k : Nat)
    (hd : k % 32 ≠ 0 ∨ 32 * a.arr.length ≤ k) :
    ∃ r, operator_shr a k = .done r ∧ canonical r ∧ value r = value a / 2 ^ k := by
  have hj32 : ∀ i, i % 32 < 32 := fun i => Nat.mod_lt _ (by decide)
  by_cases hk : k < 32 * a.arr.length
  · have hr : k % 32 ≠ 0 := by omega
    obtain ⟨F, hF, hlen, hget⟩ := operator_shr_limbs a k hk hr
    have hc : get_complement ⟨F, a.is_neg⟩ = get_complement a := rfl
    have hwf : wf ⟨F, a.is_neg⟩ := by
      apply wf_of_getD
      intro j
      have hB : 0 < BASE := by decide
      rw [hget]
      split_ifs
      all_goals first | exact hB | exact Nat.mod_lt _ hB | exact get_complement_lt a
    refine ⟨_, hF, canonical_remove_leading _ hwf, ?_⟩
    apply int_testBit_ext
    intro i
    rw [value_remove_leading, testBit_value _ hwf, int_testBit_div_two_pow, testBit_value a ha, hc]
    show (F.getD (i / 32) (get_complement a)).testBit (i % 32) = _
    by_cases c1 : i / 32 < a.arr.length - k / 32
    · rw [getD_default_of_lt F _ (get_complement a) 0 (by omega), hget, if_pos c1,
        shr_limb_testBit _ _ _ _ (le_of_lt (hj32 k))
          (getD_lt_base _ _ _ ha (get_complement_lt a))]
      by_cases c2 : i % 32 < 32 - k % 32
      · have e1 : (i + k) / 32 = i / 32 + k / 32 := by omega
        have e2 : (i + k) % 32 = i % 32 + k % 32 := by omega
        rw [if_pos c2, e1, e2]
      · have e1 : (i + k) / 32 = i / 32 + k / 32 + 1 := by omega
        have e2 : (i + k) % 32 = i % 32 + k % 32 - 32 := by omega
        rw [if_neg c2, e1, e2]
        simp [hj32 i]
    · have e : F.getD (i / 32) (get_complement a) = get_complement a := by
        by_cases c2 : i / 32 < a.arr.length
        · rw [getD_default_of_lt F _ (get_complement a) 0 (by omega), hget, if_neg c1, if_pos c2]
        · exact getD_default_of_ge F _ _ (by omega)
      rw [e, getD_default_of_ge a.arr _ _ (by omega), get_complement_testBit _ _ (hj32 _),
        get_complement_testBit _ _ (hj32 _)]
  · have hk' : 32 * a.arr.length ≤ k := not_lt.mp hk
    have hcan : canonical (if a.is_neg then (⟨[UINT32_MAX], true⟩ : big_integer) else zero) := by
      cases a.is_neg <;> decide
    refine ⟨_, operator_shr_saturate a k hk', hcan, ?_⟩
    apply int_testBit_ext
    intro i
    rw [int_testBit_div_two_pow, testBit_value a ha,
      getD_default_of_ge a.arr _ _ (by omega), get_complement_testBit _ _ (hj32 _)]
    cases h : a.is_neg
    · simp [zero, value, limbs_val, Int.testBit]
    · have hv : value ⟨[UINT32_MAX], true⟩ = Int.negSucc 0 := by decide
      rw [if_pos rfl, hv]
      simp [Int.testBit]

/-- The call `operator>>=` is undefined exactly for a multiple of 32 below the
saturation bound. -/
theorem operator_shr_undefined_iff (a : big_integer) (ha : wf a) (k : Nat) :
    operator_shr a k = .undefined ↔ (k < 32 * a.arr.length ∧ k % 32 = 0) := by
  constructor
  · intro h
    by_contra hn
    obtain ⟨r, hr, _⟩ := operator_shr_spec a ha k (by omega)
    rw [h] at hr
    exact ShiftOutcome.noConfusion hr
  · intro h
    exact operator_shr_undefined a k h.1 h.2

/-- Every result `operator>>=` returns is canonical and is the floor of
`value a / 2 ^ k`. -/
theorem operator_shr_done (a : big_integer) (ha : wf a) (k : Nat) (r : big_integer)
    (h : operator_shr a k = .done r) : canonical r ∧ value r = value a / 2 ^ k := by
  by_cases hd : k % 32 ≠ 0 ∨ 32 * a.arr.length ≤ k
  · obtain ⟨r1, h1, h2⟩ := operator_shr_spec a ha k hd
    rw [h] at h1
    injection h1 with h1
    rw [h1]
    exact h2
  · rw [operator_shr_undefined a k (by omega) (by omega)] at h
    exact ShiftOutcome.noConfusion h

/-- Shifting left and then right by the same count gives the canonical form,
where the right shift has a defined result. -/
theorem operator_shr_shl (a : big_integer) (ha : wf a) (k : Nat)
    (hd : k % 32 ≠ 0 ∨ 32 * (operator_shl a k).arr.length ≤ k) :
    operator_shr (operator_shl a k) k = .done (remove_leading a) := by
  have h1 := operator_shl_spec a ha k
  obtain ⟨r, hr, hc, hv⟩ := operator_shr_spec _ h1.1.1 k hd
  rw [hr]
  congr 1
  apply canonical_unique _ _ hc (canonical_remove_leading a ha)
  rw [hv, h1.2, value_remove_leading]
  exact Int.mul_ediv_cancel _ (by positivity)

/-- For every `a` other than 0 and -1 and every shift count that is a multiple
of 32, `a << k` keeps more than `k / 32` limbs, so that `(a << k) >> k` shifts
a `uint32_t` left by 32. -/
theorem operator_shr_shl_undefined (a : big_integer) (ha : wf a) (h0 : value a ≠ 0)
    (h1 : value a ≠ -1) (k : Nat) (hk : k % 32 = 0) :
    operator_shr (operator_shl a k) k = .undefined := by
  obtain ⟨hc, hv⟩ := operator_shl_spec a ha k
  apply operator_shr_undefined _ k ?_ hk
  by_contra hn
  have hle : 32 * (operator_shl a k).arr.length ≤ k := not_lt.mp hn
  have hp : (BASE : Int) ^ (operator_shl a k).arr.length ≤ 2 ^ k := by
    have e : (BASE : Int) = 2 ^ 32 := by decide
    rw [e, ← pow_mul]
    exact pow_le_pow_right₀ (by norm_num) hle
  have h2 : (0 : Int) < 2 ^ k := by positivity
  obtain ⟨bp, bn⟩ := canonical_bounds _ hc
  cases hs : (operator_shl a k).is_neg
  · obtain ⟨b1, b2, _⟩ := bp hs
    rw [hv] at b1 b2
    have ha0 : 0 ≤ value a := by
      by_contra hneg
      have : value a * 2 ^ k < 0 := mul_neg_of_neg_of_pos (not_le.mp hneg) h2
      omega
    have ha1 : 1 ≤ value a := by omega
    have : 1 * 2 ^ k ≤ value a * 2 ^ k := mul_le_mul_of_nonneg_right ha1 (le_of_lt h2)
    linarith
  · obtain ⟨_, b2, b3, _⟩ := bn hs
    rw [hv] at b2 b3
    have ha0 : value a < 0 := by
      by_contra hneg
      have : 0 ≤ value a * 2 ^ k := mul_nonneg (not_lt.mp hneg) (le_of_lt h2)
      omega
    have ha1 : value a ≤ -2 := by omega
    have : value a * 2 ^ k ≤ -2 * 2 ^ k := mul_le_mul_of_nonneg_right ha1 (le_of_lt h2)
    linarith

end Bigint

namespace Bigint

/-! ## Increment, decrement, additive identity -/

theorem add_int_loop_wf (num_compl : Nat) (xs : List Nat) (hxs : ∀ x ∈ xs, x < BASE)
    (i carry : Nat) : ∀ y ∈ (add_int_loop num_compl i xs carry).1, y < BASE := by
  induction xs generalizing i carry with
  | nil => simp [add_int_loop]
  | cons x xs ih =>
    have hxs1 : ∀ y ∈ xs, y < BASE := fun y hy => hxs y (by simp [hy])
    simp only [add_int_loop]
    split_ifs <;> intro y hy <;> simp only [List.mem_cons] at hy <;> rcases hy with hy | hy
    all_goals first
      | (subst hy; exact Nat.mod_lt _ (by decide))
      | exact hxs1 y hy
      | exact ih hxs1 _ _ y hy

/-- Whatever `int32_t` is added, `add_int` leaves a canonical number. -/
theorem canonical_add_int_any (a : big_integer) (num : Int) (ha : wf a) :
    canonical (add_int a num) := by
  have g2 := add_int_loop_wf (if num < 0 then UINT32_MAX else 0) a.arr ha 0
    (num % (BASE : Int)).toNat
  unfold add_int
  simp only
  generalize (if num < 0 then UINT32_MAX else 0) = nc at g2 ⊢
  split_ifs with h
  · apply canonical_remove_leading
    intro x hx
    simp only [List.mem_append, List.mem_singleton] at hx
    rcases hx with hx | hx
    · exact g2 x hx
    · rw [hx]; exact Nat.mod_lt _ (by decide)
  · apply canonical_remove_leading
    exact g2

theorem operator_pre_inc_spec (a : big_integer) (ha : wf a) :
    value (operator_pre_inc a).1 = value a + 1
    ∧ (operator_pre_inc a).2 = (operator_pre_inc a).1
    ∧ (operator_pre_inc a).1 = add a (of_signed 1)
    ∧ canonical (operator_pre_inc a).1 := by
  have hv : value (add_int a 1) = value a + 1 := add_int_value a 1 ha (by omega) (by omega)
  have hc : canonical (add_int a 1) := canonical_add_int a 1 ha (by omega) (by omega)
  have h1 : wf (of_signed 1) := by decide
  refine ⟨hv, rfl, ?_, hc⟩
  apply canonical_unique _ _ hc (canonical_add a _ ha h1)
  show value (add_int a 1) = _
  rw [hv, add_value a _ ha h1]
  have : value (of_signed 1) = 1 := by decide
  rw [this]

theorem operator_post_inc_spec (a : big_integer) (ha : wf a) :
    value (operator_post_inc a).1 = value a + 1
    ∧ (operator_post_inc a).2 = a
    ∧ (operator_post_inc a).1 = add a (of_signed 1)
    ∧ canonical (operator_post_inc a).1 :=
  ⟨(operator_pre_inc_spec a ha).1, rfl, (operator_pre_inc_spec a ha).2.2.1,
    (operator_pre_inc_spec a ha).2.2.2⟩

theorem add_zero_eq (a : big_integer) (ha : wf a) : add a zero = remove_leading a := by
  apply canonical_unique _ _ (canonical_add a zero ha wf_zero) (canonical_remove_leading a ha)
  rw [add_value a zero ha wf_zero, value_zero, value_remove_leading, add_zero]

theorem add_neg_eq (a : big_integer) (ha : wf a) : add a (operator_neg a) = zero := by
  have hn := canonical_operator_neg a
  apply canonical_unique _ _ (canonical_add a _ ha hn.1) canonical_zero
  rw [add_value a _ ha hn.1, operator_neg_value a ha, value_zero]
  ring

end Bigint

namespace Bigint

/-- The loop of `add_int` for a negative `num`, past the first limb: every limb
gets the complement word and the carry added. -/
theorem add_int_loop_neg_spec (xs : List Nat) (hxs : ∀ x ∈ xs, x < BASE) (i carry : Nat)
    (hi : i ≠ 0) (hc : carry ≤ 1) :
    (add_int_loop UINT32_MAX i xs carry).1.length = xs.length
    ∧ (add_int_loop UINT32_MAX i xs carry).2 ≤ 1
    ∧ limbs_val (add_int_loop UINT32_MAX i xs carry).1
        + BASE ^ xs.length * (add_int_loop UINT32_MAX i xs carry).2 + 1
      = limbs_val xs + BASE ^ xs.length + carry := by
  induction xs generalizing i carry with
  | nil => simp [add_int_loop, limbs_val, hc, add_comm]
  | cons x xs ih =>
    have hx : x < 4294967296 := hxs x (by simp)
    have hxs1 : ∀ y ∈ xs, y < BASE := fun y hy => hxs y (by simp [hy])
    have hB : BASE = 4294967296 := rfl
    have hM : UINT32_MAX = 4294967295 := rfl
    have hnb : ¬ ((x + UINT32_MAX + carry) / BASE % BASE = 0 ∧ UINT32_MAX = 0) := by
      rw [hM]; omega
    simp only [add_int_loop, if_pos hi, if_neg hnb]
    have hdiv : (x + UINT32_MAX + carry) / BASE % BASE = (x + UINT32_MAX + carry) / BASE := by
      rw [hB, hM]; omega
    have hle : (x + UINT32_MAX + carry) / BASE ≤ 1 := by
      rw [hB, hM]; omega
    have hdm := Nat.div_add_mod (x + UINT32_MAX + carry) BASE
    rw [hdiv]
    obtain ⟨q, hq⟩ : ∃ q, (x + UINT32_MAX + carry) / BASE = q := ⟨_, rfl⟩
    obtain ⟨m, hm⟩ : ∃ m, (x + UINT32_MAX + carry) % BASE = m := ⟨_, rfl⟩
    rw [hq] at hle hdm ⊢
    rw [hm] at hdm ⊢
    obtain ⟨h1, h2, h3⟩ := ih hxs1 (i + 1) q (by omega) hle
    obtain ⟨r, hr⟩ : ∃ r, add_int_loop UINT32_MAX (i + 1) xs q = r := ⟨_, rfl⟩
    rw [hr] at h1 h2 h3 ⊢
    refine ⟨by simp [h1], h2, ?_⟩
    simp only [limbs_val, List.length_cons, pow_succ]
    have hM' : UINT32_MAX + 1 = BASE := rfl
    zify at h3 hdm hM' ⊢
    linear_combination (BASE : Int) * h3 + hdm + hM'

theorem add_int_loop_neg_one (x : Nat) (xs : List Nat) (hxs : ∀ y ∈ x :: xs, y < BASE) :
    (add_int_loop UINT32_MAX 0 (x :: xs) UINT32_MAX).1.length = (x :: xs).length
    ∧ (add_int_loop UINT32_MAX 0 (x :: xs) UINT32_MAX).2 ≤ 1
    ∧ limbs_val (add_int_loop UINT32_MAX 0 (x :: xs) UINT32_MAX).1
        + BASE ^ (x :: xs).length * (add_int_loop UINT32_MAX 0 (x :: xs) UINT32_MAX).2 + 1
      = limbs_val (x :: xs) + BASE ^ (x :: xs).length := by
  have hx : x < 4294967296 := hxs x (by simp)
  have hxs1 : ∀ y ∈ xs, y < BASE := fun y hy => hxs y (by simp [hy])
  have hB : BASE = 4294967296 := rfl
  have hM : UINT32_MAX = 4294967295 := rfl
  have hnb : ¬ ((x + 0 + UINT32_MAX) / BASE % BASE = 0 ∧ UINT32_MAX = 0) := by
    rw [hM]; omega
  have h00 : ¬ (0 ≠ 0) := by simp
  simp only [add_int_loop, if_neg h00, if_neg hnb]
  have hdiv : (x + 0 + UINT32_MAX) / BASE % BASE = (x + 0 + UINT32_MAX) / BASE := by
    rw [hB, hM]; omega
  have hle : (x + 0 + UINT32_MAX) / BASE ≤ 1 := by
    rw [hB, hM]; omega
  have hdm := Nat.div_add_mod (x + 0 + UINT32_MAX) BASE
  rw [hdiv]
  obtain ⟨q, hq⟩ : ∃ q, (x + 0 + UINT32_MAX) / BASE = q := ⟨_, rfl⟩
  obtain ⟨m, hm⟩ : ∃ m, (x + 0 + UINT32_MAX) % BASE = m := ⟨_, rfl⟩
  rw [hq] at hle hdm ⊢
  rw [hm] at hdm ⊢
  obtain ⟨h1, h2, h3⟩ := add_int_loop_neg_spec xs hxs1 (0 + 1) q (by omega) hle
  obtain ⟨r, hr⟩ : ∃ r, add_int_loop UINT32_MAX (0 + 1) xs q = r := ⟨_, rfl⟩
  rw [hr] at h1 h2 h3 ⊢
  refine ⟨by simp [h1], h2, ?_⟩
  simp only [limbs_val, List.length_cons, pow_succ]
  have hM' : UINT32_MAX + 1 = BASE := rfl
  zify at h3 hdm hM' ⊢
  linear_combination (BASE : Int) * h3 + hdm + hM'

/-- On a number that stores at least one limb, `add_int(-1)` subtracts one. -/
theorem add_int_neg_one_value (a : big_integer) (ha : wf a) (hne : a.arr ≠ []) :
    value (add_int a (-1)) = value a - 1 := by
  obtain ⟨arr, s⟩ := a
  obtain ⟨x, xs, rfl⟩ : ∃ x xs, arr = x :: xs := by
    cases arr with
    | nil => exact absurd rfl hne
    | cons x xs => exact ⟨x, xs, rfl⟩
  obtain ⟨h1, h2, h3⟩ := add_int_loop_neg_one x xs ha
  have hcar : ((-1 : Int) % (BASE : Int)).toNat = UINT32_MAX := by decide
  have hneg : ((-1 : Int) < 0) := by decide
  unfold add_int
  simp only [hcar, if_pos hneg]
  obtain ⟨r, hr⟩ : ∃ r, add_int_loop UINT32_MAX 0 (x :: xs) UINT32_MAX = r := ⟨_, rfl⟩
  rw [hr] at h1 h2 h3 ⊢
  have hts := value_top_step r.1 s true r.2 h2
  simp only [if_true] at hts
  have hg : get_complement ⟨x :: xs, s⟩ = if s then UINT32_MAX else 0 := rfl
  rw [hg, hts, h1]
  zify at h3
  unfold value
  simp only
  linear_combination h3

end Bigint

namespace Bigint

/-! ## Normalising twice -/

theorem remove_leading_idem (a : big_integer) :
    remove_leading (remove_leading a) = remove_leading a := by
  obtain ⟨arr, s⟩ := a
  obtain ⟨c, hcdef⟩ : ∃ c, get_complement ⟨arr, s⟩ = c := ⟨_, rfl⟩
  have hc : ∀ l, get_complement ⟨l, s⟩ = c := fun _ => hcdef
  by_cases h : (arr.rdropWhile (fun x => x == c)).isEmpty ∧ c > 0
  · have hnil : arr.rdropWhile (fun x => x == c) = [] := by simpa using h.1
    have e1 : remove_leading ⟨arr, s⟩ = ⟨[c], s⟩ := by
      unfold remove_leading
      simp only [hcdef, hnil, List.nil_append]
      rw [if_pos ⟨rfl, h.2⟩]
    have h2 : ([c].rdropWhile (fun x => x == c)) = [] := by
      simp [List.rdropWhile]
    have e2 : remove_leading ⟨[c], s⟩ = ⟨[c], s⟩ := by
      unfold remove_leading
      simp only [hc, h2, List.nil_append]
      rw [if_pos ⟨rfl, h.2⟩]
    rw [e1, e2]
  · have e1 : remove_leading ⟨arr, s⟩ = ⟨arr.rdropWhile (fun x => x == c), s⟩ := by
      unfold remove_leading
      simp only [hcdef, if_neg h]
    have e2 : remove_leading ⟨arr.rdropWhile (fun x => x == c), s⟩
        = ⟨arr.rdropWhile (fun x => x == c), s⟩ := by
      unfold remove_leading
      simp only [hc, List.rdropWhile_idempotent, if_neg h]
    rw [e1, e2]

theorem canonical_of_wf_remove_leading (a : big_integer) (h : wf (remove_leading a)) :
    canonical (remove_leading a) :=
  (canonical_iff_remove_leading _ h).mpr (remove_leading_idem a)

theorem div_with_rem_canonical (a : big_integer) (num : Nat) (ha : wf a) (hs : a.is_neg = false)
    (hnum : 0 < num) : canonical (div_with_rem a num).1 := by
  have h := (div_with_rem_spec a num ha hs hnum).1
  unfold div_with_rem at h ⊢
  exact canonical_of_wf_remove_leading _ h

/-- A canonical number of magnitude below `2^32` other than zero: its
magnitude is stored in one limb. -/
theorem absolutify_one_limb (b : big_integer) (hb : canonical b) (hb0 : value b ≠ 0)
    (hb1 : |value b| < (BASE : Int)) :
    (absolutify b).arr = [(value b).natAbs] ∧ b.arr.length = 1 := by
  have hcan : canonical (absolutify b) := by
    unfold absolutify
    split_ifs
    · exact canonical_negate b
    · exact hb
  have hv := absolutify_value b hb.1
  have hs := absolutify_is_neg b hb.1
  have hbd := (canonical_bounds _ hcan).1 hs
  have hlen : (absolutify b).arr.length = 1 := by
    by_contra hne
    rcases Nat.lt_or_ge (absolutify b).arr.length 1 with h0 | h2
    · have : (absolutify b).arr.length = 0 := by omega
      rw [this, pow_zero, hv] at hbd
      have : |value b| = 0 := by omega
      exact hb0 (abs_eq_zero.mp this)
    · have h2' : 2 ≤ (absolutify b).arr.length := by omega
      have h3 := hbd.2.2 (by omega)
      have h4 : (BASE : Int) ^ 1 ≤ (BASE : Int) ^ ((absolutify b).arr.length - 1) :=
        pow_le_pow_right₀ (by decide) (by omega)
      rw [pow_one] at h4
      rw [hv] at h3
      omega
  have hl := absolutify_limbs b hb.1
  obtain ⟨x, hx⟩ : ∃ x, (absolutify b).arr = [x] := by
    match hm : (absolutify b).arr, hlen with
    | [x], _ => exact ⟨x, rfl⟩
  rw [hx] at hl
  simp only [limbs_val, mul_zero, add_zero] at hl
  have hxv : x = (value b).natAbs := by
    rw [Int.abs_eq_natAbs] at hl
    exact_mod_cast hl
  refine ⟨by rw [hx, hxv], ?_⟩
  rcases Bool.eq_false_or_eq_true b.is_neg with hn | hn
  · have hbn := (canonical_bounds _ hb).2 hn
    by_contra hne
    have h2' : 2 ≤ b.arr.length := by omega
    have h3 := hbn.2.2.2 h2'
    have h4 : (BASE : Int) ^ 1 ≤ (BASE : Int) ^ (b.arr.length - 1) :=
      pow_le_pow_right₀ (by decide) (by omega)
    rw [pow_one] at h4
    have : |value b| = -value b := abs_of_neg hbn.2.2.1
    omega
  · have : absolutify b = b := by unfold absolutify; rw [hn]; rfl
    rw [this] at hlen
    exact hlen

end Bigint

namespace Bigint

/-! ## Truncating division from magnitudes -/

theorem tdiv_of_abs (a b : Int) :
    Int.tdiv a b
      = if xor (decide (a < 0)) (decide (b < 0)) then -(|a| / |b|) else |a| / |b| := by
  rcases le_or_lt 0 a with ha | ha <;> rcases le_or_lt 0 b with hb | hb
  · rw [abs_of_nonneg ha, abs_of_nonneg hb, Int.tdiv_eq_ediv ha hb]
    simp [not_lt.mpr ha, not_lt.mpr hb]
  · have e : b = -(-b) := by ring
    rw [abs_of_nonneg ha, abs_of_neg hb]
    conv_lhs => rw [e, Int.tdiv_neg, Int.tdiv_eq_ediv ha (by omega)]
    simp [not_lt.mpr ha, hb]
  · have e : a = -(-a) := by ring
    rw [abs_of_neg ha, abs_of_nonneg hb]
    conv_lhs => rw [e, Int.neg_tdiv, Int.tdiv_eq_ediv (by omega) hb]
    simp [not_lt.mpr hb, ha]
  · have e : a = -(-a) := by ring
    have e' : b = -(-b) := by ring
    rw [abs_of_neg ha, abs_of_neg hb]
    conv_lhs => rw [e, e', Int.neg_tdiv_neg, Int.tdiv_eq_ediv (by omega) (by omega)]
    simp [ha, hb]

theorem tmod_of_abs (a b : Int) :
    Int.tmod a b = if a < 0 then -(|a| % |b|) else |a| % |b| := by
  have hneg : ∀ x y : Int, Int.tmod (-x) y = -Int.tmod x y := by
    intro x y
    rw [Int.tmod_def, Int.tmod_def, Int.neg_tdiv]
    ring
  rcases le_or_lt 0 a with ha | ha <;> rcases le_or_lt 0 b with hb | hb
  · rw [abs_of_nonneg ha, abs_of_nonneg hb, Int.tmod_eq_emod ha hb, if_neg (not_lt.mpr ha)]
  · have e : b = -(-b) := by ring
    rw [abs_of_nonneg ha, abs_of_neg hb, if_neg (not_lt.mpr ha)]
    conv_lhs => rw [e, Int.tmod_neg, Int.tmod_eq_emod ha (by omega)]
  · have e : a = -(-a) := by ring
    rw [abs_of_neg ha, abs_of_nonneg hb, if_pos ha]
    conv_lhs => rw [e, hneg, Int.tmod_eq_emod (by omega) hb]
  · have e : a = -(-a) := by ring
    have e' : b = -(-b) := by ring
    rw [abs_of_neg ha, abs_of_neg hb, if_pos ha]
    conv_lhs => rw [e, e', hneg, Int.tmod_neg, Int.tmod_eq_emod (by omega) (by omega)]

theorem is_neg_eq_decide (a : big_integer) (ha : wf a) : a.is_neg = decide (value a < 0) := by
  have h := is_neg_iff a ha
  cases hs : a.is_neg
  · have : ¬ value a < 0 := fun hh => by rw [h.mpr hh] at hs; exact Bool.noConfusion hs
    simp [this]
  · simp [h.mp hs]

end Bigint

namespace Bigint

/-! ## Division by a one-limb divisor -/

theorem knut_div_single_limb (a b : big_integer) (type : DivType) (ha : wf a)
    (ha0 : a.arr = [] → a.is_neg = false) (hb : canonical b) (hb0 : value b ≠ 0)
    (hb1 : |value b| < (BASE : Int)) :
    ∃ r, knut_div a b false type = .done r
      ∧ value r = (if type = .Quot then Int.tdiv (value a) (value b)
          else Int.tmod (value a) (value b))
      ∧ wf r ∧ (b ≠ of_signed 1 → canonical r) ∧ (canonical a → canonical r) := by
  have hbz : b ≠ of_signed 0 := ne_zero_of_value_ne_zero b hb0
  obtain ⟨hv1, hlen⟩ := absolutify_one_limb b hb hb0 hb1
  have hz0 : canonical (of_signed 0) := by decide
  have hzv : value (of_signed 0) = 0 := by decide
  unfold knut_div
  rw [if_neg hbz]
  by_cases h1 : b = of_signed 1
  · rw [if_pos h1]
    have hv : value b = 1 := by rw [h1]; decide
    rw [hv]
    refine ⟨_, rfl, ?_, ?_, fun hh => absurd h1 hh, fun hca => ?_⟩
    · cases type
      · simp
      · simp [hzv]
    · cases type
      · simpa using ha
      · simpa using hz0.1
    · cases type
      · simpa using hca
      · simpa using hz0
  · rw [if_neg h1]
    simp only [Bool.false_eq_true, if_false]
    by_cases h2 : b.arr.length > a.arr.length
    · rw [if_pos h2]
      have hnil : a.arr = [] := List.length_eq_zero.mp (by omega)
      have haz : a = zero := by
        obtain ⟨arr, s⟩ := a
        simp only at hnil
        subst hnil
        have := ha0 rfl
        simp only at this
        rw [this]; rfl
      have hav : value a = 0 := by rw [haz]; exact value_zero
      have hcz : canonical a := by rw [haz]; exact canonical_zero
      rw [hav]
      refine ⟨_, rfl, ?_, ?_, fun _ => ?_, fun _ => ?_⟩
      · cases type
        · simp [hzv]
        · simp [hav]
      · cases type
        · simpa using hz0.1
        · simpa using hcz.1
      · cases type
        · simpa using hz0
        · simpa using hcz
      · cases type
        · simpa using hz0
        · simpa using hcz
    · rw [if_neg h2]
      have hn0 : ¬ (absolutify b).arr.length = 0 := by rw [hv1]; simp
      have hn1 : (absolutify b).arr.length = 1 := by rw [hv1]; rfl
      rw [if_neg hn0, if_pos hn1]
      have hx : (absolutify b).arr.getLastD 0 = (value b).natAbs := by rw [hv1]; rfl
      rw [hx]
      have hxpos : 0 < (value b).natAbs := Int.natAbs_pos.mpr hb0
      have hxlt : (value b).natAbs < BASE := by
        have := Int.abs_eq_natAbs (value b)
        omega
      have hxabs : ((value b).natAbs : Int) = |value b| := (Int.abs_eq_natAbs _).symm
      have hwa := wf_absolutify a ha
      have hsa := absolutify_is_neg a ha
      have hva := absolutify_value a ha
      obtain ⟨s1, s2, s3, s4⟩ := div_with_rem_spec (absolutify a) _ hwa hsa hxpos
      have s5 := div_with_rem_canonical (absolutify a) _ hwa hsa hxpos
      obtain ⟨r, hr⟩ : ∃ r, div_with_rem (absolutify a) (value b).natAbs = r := ⟨_, rfl⟩
      rw [hr] at s1 s2 s3 s4 s5 ⊢
      rw [hva, hxabs] at s3 s4
      have hda := is_neg_eq_decide a ha
      have hdb := is_neg_eq_decide b hb.1
      cases type
      · simp only [if_neg (show ¬ DivType.Quot = DivType.Remainder by decide), if_true]
        refine ⟨_, rfl, ?_, ?_, fun _ => ?_, fun _ => ?_⟩
        · rw [tdiv_of_abs, ← hda, ← hdb]
          split_ifs
          · rw [negate_value _ s1, s3]
          · exact s3
        · split_ifs
          · exact wf_negate _
          · exact s1
        · split_ifs
          · exact canonical_negate _
          · exact s5
        · split_ifs
          · exact canonical_negate _
          · exact s5
      · simp only [if_true, if_neg (show ¬ DivType.Remainder = DivType.Quot by decide)]
        have hr2 : r.2 < 18446744073709551616 := by
          have h5 : (r.2 : Int) < |value b| := by
            rw [s4]; exact Int.emod_lt_of_pos _ (abs_pos.mpr hb0)
          have hB : (BASE : Int) = 4294967296 := rfl
          omega
        obtain ⟨u1, u2⟩ := of_unsigned_spec r.2 hr2
        refine ⟨_, rfl, ?_, ?_, fun _ => ?_, fun _ => ?_⟩
        · rw [tmod_of_abs]
          have hneg := is_neg_iff a ha
          by_cases hs : a.is_neg = true
          · rw [if_pos hs, if_pos (hneg.mp hs), negate_value _ u2.1, u1, s4]
          · rw [if_neg hs, if_neg (fun hh => hs (hneg.mpr hh)), u1, s4]
        · split_ifs
          · exact wf_negate _
          · exact u2.1
        · split_ifs
          · exact canonical_negate _
          · exact u2
        · split_ifs
          · exact canonical_negate _
          · exact u2

end Bigint

namespace Bigint

/-! ## Limbs stay 32-bit words through the long division -/

theorem get_trialed_quot_lt (u : List Nat) (b j n : Nat) (v : List Nat) :
    get_trialed_quot u b j n v < BASE := by
  have hB : 0 < BASE := by decide
  unfold get_trialed_quot
  simp only
  split_ifs
  all_goals exact Nat.mod_lt _ hB

theorem sub_from_current_wf (n : Nat) (v : List Nat) (q_ j : Nat) (steps i : Nat)
    (u : List Nat) (carry_v carry_u : Nat) (hu : ∀ x ∈ u, x < BASE) :
    ∀ x ∈ ( sub_from_current_prefix n v q_ j steps i u carry_v carry_u).1, x < BASE := by
  induction steps generalizing i u carry_v carry_u with
  | zero => simpa [ sub_from_current_prefix] using hu
  | succ steps ih =>
    simp only [ sub_from_current_prefix]
    exact ih _ _ _ _ (wf_set _ _ _ hu (Nat.mod_lt _ (by decide)))

theorem sub_q_add_back_wf (n : Nat) (v : List Nat) (j : Nat) (steps i : Nat)
    (u : List Nat) (carry_u : Nat) (hu : ∀ x ∈ u, x < BASE) :
    ∀ x ∈ sub_q_add_back n v j steps i u carry_u, x < BASE := by
  induction steps generalizing i u carry_u with
  | zero => simpa [sub_q_add_back] using hu
  | succ steps ih =>
    simp only [sub_q_add_back]
    exact ih _ _ _ (wf_set _ _ _ hu (Nat.mod_lt _ (by decide)))

theorem sub_q_if_overflows_wf (n j carry_u : Nat) (u q v : List Nat)
    (hu : ∀ x ∈ u, x < BASE) (hq : ∀ x ∈ q, x < BASE) :
    (∀ x ∈ (sub_q_if_overflows n j carry_u u q v).1, x < BASE)
    ∧ (∀ x ∈ (sub_q_if_overflows n j carry_u u q v).2, x < BASE) := by
  unfold sub_q_if_overflows
  split_ifs
  · exact ⟨sub_q_add_back_wf _ _ _ _ _ _ _ hu, wf_set _ _ _ hq (Nat.mod_lt _ (by decide))⟩
  · exact ⟨hu, hq⟩

theorem knut_div_loop_wf (b n : Nat) (v : List Nat) (steps : Nat) (u q : List Nat)
    (hu : ∀ x ∈ u, x < BASE) (hq : ∀ x ∈ q, x < BASE) (u1 q1 : List Nat)
    (h : knut_div_loop b n v steps u q = some (u1, q1)) :
    (∀ x ∈ u1, x < BASE) ∧ (∀ x ∈ q1, x < BASE) := by
  induction steps generalizing u q with
  | zero =>
    simp only [knut_div_loop, Option.some.injEq, Prod.mk.injEq] at h
    rw [← h.1, ← h.2]
    exact ⟨hu, hq⟩
  | succ j ih =>
    simp only [knut_div_loop] at h
    split_ifs at h with c1 c2
    have hs := sub_from_current_wf n v (get_trialed_quot u b j n v) j (n + 1) 0 u 0 0 hu
    have hq2 := wf_set q j _ hq (get_trialed_quot_lt u b j n v)
    obtain ⟨g1, g2⟩ := sub_q_if_overflows_wf n j
      ( sub_from_current_prefix n v (get_trialed_quot u b j n v) j (n + 1) 0 u 0 0).2
      ( sub_from_current_prefix n v (get_trialed_quot u b j n v) j (n + 1) 0 u 0 0).1
      (q.set j (get_trialed_quot u b j n v)) v hs hq2
    exact ih _ _ g1 g2 h

theorem getLastD_pos_of_canonical (v : big_integer) (hv : canonical v) (hs : v.is_neg = false)
    (hne : v.arr ≠ []) : 0 < v.arr.getLastD 0 := by
  by_contra h0
  have h0' : v.arr.getLastD 0 = 0 := by omega
  have hc : get_complement v = 0 := by unfold get_complement; rw [hs]; rfl
  have hl : v.arr.getLast? = some (get_complement v) := by
    rw [hc, List.getLast?_eq_getLast _ hne]
    rw [List.getLastD_eq_getLast?, List.getLast?_eq_getLast _ hne] at h0'
    simpa using h0'
  have := hv.2.2 hl
  rw [this] at h0'
  exact absurd h0' (by decide)

end Bigint

namespace Bigint

theorem canonical_absolutify (a : big_integer) (ha : canonical a) : canonical (absolutify a) := by
  unfold absolutify
  split_ifs
  · exact canonical_negate a
  · exact ha

theorem is_neg_small_mul (a : big_integer) (rhs : Nat) (ha : wf a) :
    (small_mul a rhs).is_neg = false := by
  unfold small_mul
  simp only
  rw [is_neg_remove_leading]
  exact absolutify_is_neg a ha

/-- Whatever `knut_div` returns on canonical operands is canonical. -/
theorem canonical_knut_div (a b : big_integer) (so : Bool) (type : DivType)
    (ha : canonical a) (hb : canonical b) (r : big_integer)
    (h : knut_div a b so type = .done r) : canonical r := by
  have hz0 : canonical (of_signed 0) := by decide
  have hz1 : canonical (of_signed 1) := by decide
  unfold knut_div at h
  by_cases h0 : b = of_signed 0
  · rw [if_pos h0] at h; cases h
  rw [if_neg h0] at h
  by_cases h1 : b = of_signed 1
  · rw [if_pos h1] at h
    injection h with h
    rw [← h]
    split_ifs
    · exact hz0
    · exact ha
  rw [if_neg h1] at h
  by_cases h2 : so = true
  · rw [if_pos h2] at h
    injection h with h
    rw [← h]
    split_ifs
    · exact hz1
    · exact hz0
  rw [if_neg h2] at h
  by_cases h3 : b.arr.length > a.arr.length
  · rw [if_pos h3] at h
    injection h with h
    rw [← h]
    split_ifs
    · exact hz0
    · exact ha
  rw [if_neg h3] at h
  have hcv := canonical_absolutify b hb
  have hsv := absolutify_is_neg b hb.1
  have hwa := wf_absolutify a ha.1
  have hsa := absolutify_is_neg a ha.1
  obtain ⟨v, hv⟩ : ∃ v, absolutify b = v := ⟨_, rfl⟩
  obtain ⟨a1, ha1⟩ : ∃ a1, absolutify a = a1 := ⟨_, rfl⟩
  rw [hv] at hcv hsv
  rw [ha1] at hwa hsa
  simp only [hv, ha1] at h
  by_cases h4 : v.arr.length = 0
  · rw [if_pos h4] at h; cases h
  rw [if_neg h4] at h
  have hne : v.arr ≠ [] := fun hh => h4 (by rw [hh]; rfl)
  have hlast := getLastD_pos_of_canonical v hcv hsv hne
  have hlastlt : v.arr.getLastD 0 < BASE := by
    rw [List.getLastD_eq_getLast?, List.getLast?_eq_getLast _ hne]
    exact hcv.1 _ (List.getLast_mem hne)
  by_cases h5 : v.arr.length = 1
  · rw [if_pos h5] at h
    obtain ⟨s1, s2, s3, s4⟩ := div_with_rem_spec a1 _ hwa hsa hlast
    have s5 := div_with_rem_canonical a1 _ hwa hsa hlast
    obtain ⟨q, hq⟩ : ∃ q, div_with_rem a1 (v.arr.getLastD 0) = q := ⟨_, rfl⟩
    rw [hq] at s1 s2 s3 s4 s5 h
    have hr2 : q.2 < 18446744073709551616 := by
      have h6 : (q.2 : Int) < (v.arr.getLastD 0 : Int) := by
        rw [s4]; exact Int.emod_lt_of_pos _ (by exact_mod_cast hlast)
      have hB : BASE = 4294967296 := rfl
      omega
    have u2 := (of_unsigned_spec q.2 hr2).2
    split_ifs at h <;> injection h with h <;> rw [← h]
    all_goals first | exact canonical_negate _ | exact u2 | exact s5
  rw [if_neg h5] at h
  have hB : BASE = 4294967296 := rfl
  have hM : UINT32_MAX = 4294967295 := rfl
  have hd : UINT32_MAX + 1 = BASE := rfl
  have hdlt : (UINT32_MAX + 1) / (v.arr.getLastD 0 + 1) % BASE < BASE := Nat.mod_lt _ (by decide)
  have hdpos : 0 < (UINT32_MAX + 1) / (v.arr.getLastD 0 + 1) % BASE := by
    have e1 : (UINT32_MAX + 1) / (v.arr.getLastD 0 + 1) < BASE := by
      rw [hd]
      exact Nat.div_lt_self (by decide) (by omega)
    rw [Nat.mod_eq_of_lt e1]
    exact Nat.div_pos (by rw [hd]; omega) (by omega)
  obtain ⟨d, hdd⟩ : ∃ d, (UINT32_MAX + 1) / (v.arr.getLastD 0 + 1) % BASE = d := ⟨_, rfl⟩
  rw [hdd] at hdlt hdpos
  simp only [hdd] at h
  have hwa2 := wf_small_mul a1 d hwa hdlt
  have hsa2 := is_neg_small_mul a1 d hwa
  obtain ⟨m, hm⟩ : ∃ m,
    (a1.arr.length + 18446744073709551616 - v.arr.length) % 18446744073709551616 % BASE = m :=
    ⟨_, rfl⟩
  simp only [hm] at h
  have hwa3 := wf_resize (small_mul a1 d) (m + v.arr.length + 1) 0 hwa2 (by decide)
  have hsa3 : (resize (small_mul a1 d) (m + v.arr.length + 1) 0).is_neg = false := by
    rw [is_neg_resize]; exact hsa2
  have hwq := wf_resize zero ((m + 1) % BASE) 0 wf_zero (by decide)
  have hsq : (resize zero ((m + 1) % BASE) 0).is_neg = false := by
    rw [is_neg_resize]; rfl
  cases hloop : knut_div_loop (UINT32_MAX + 1) v.arr.length (small_mul v d).arr (m + 1)
      (resize (small_mul a1 d) (m + v.arr.length + 1) 0).arr
      (resize zero ((m + 1) % BASE) 0).arr with
  | none => rw [hloop] at h; cases h
  | some p =>
    obtain ⟨u1, q1⟩ := p
    rw [hloop] at h
    obtain ⟨g1, g2⟩ := knut_div_loop_wf _ _ _ _ _ _ hwa3 hwq u1 q1 hloop
    simp only at h
    split_ifs at h with t1 t2 t3
    · injection h with h
      rw [← h]
      exact canonical_remove_leading _ (wf_negate _)
    · injection h with h
      rw [← h]
      exact canonical_remove_leading _ g2
    · injection h with h
      rw [← h]
      exact canonical_remove_leading _ (wf_negate _)
    · injection h with h
      rw [← h]
      rw [hsa3]
      exact canonical_remove_leading _ (div_with_rem_spec ⟨u1, false⟩ d g1 rfl hdpos).1

end Bigint

namespace Bigint

/-! ## Constructors, sign flag and top bit -/

theorem init_big_loop_wf (fuel u : Nat) : ∀ x ∈ init_big_loop fuel u, x < BASE := by
  induction fuel generalizing u with
  | zero => simp [init_big_loop]
  | succ fuel ih =>
    simp only [init_big_loop]
    split_ifs
    · intro x hx
      simp only [List.mem_cons] at hx
      rcases hx with hx | hx
      · subst hx; exact Nat.mod_lt _ (by decide)
      · exact ih _ x hx
    · simp

theorem canonical_init_big (s : Bool) (u : Nat) : canonical (init_big s u) :=
  canonical_remove_leading _ (init_big_loop_wf 2 _)

theorem canonical_from_string (str : List Char) (x : big_integer)
    (hx : from_string str = .done x) : canonical x := by
  by_cases h : well_formed str
  · exact from_string_done_canonical str h x hx
  · obtain ⟨what, hw⟩ := (from_string_spec str).2 h
    rw [hx] at hw
    cases hw

/-- The sign flag equals bit 31 of the last limb exactly when the value fits
the stored limbs as a two's-complement number. -/
theorem sign_is_top_bit_iff (a : big_integer) (ha : wf a) (hne : a.arr ≠ []) :
    a.is_neg = decide (a.arr.getLastD 0 / 2147483648 ≠ 0)
      ↔ (-((BASE : Int) ^ a.arr.length) ≤ 2 * value a
          ∧ 2 * value a < (BASE : Int) ^ a.arr.length) := by
  obtain ⟨arr, s⟩ := a
  simp only at hne
  obtain ⟨ini, t, rfl⟩ : ∃ ini t, arr = ini ++ [t] := by
    rcases List.eq_nil_or_concat arr with h | ⟨ini, t, h⟩
    · exact absurd h hne
    · exact ⟨ini, t, by rw [h, List.concat_eq_append]⟩
  have ht : t < 4294967296 := ha t (by simp)
  have hini : ∀ x ∈ ini, x < BASE := fun x hx => ha x (by simp [hx])
  have hlo := limbs_val_lt ini hini
  have hB : (BASE : Int) = 4294967296 := rfl
  have hlast : (ini ++ [t]).getLastD 0 = t := by simp [List.getLastD_eq_getLast?]
  have hpos : (0 : Int) < (BASE : Int) ^ ini.length := by rw [hB]; positivity
  simp only [hlast]
  have hv : limbs_val (ini ++ [t]) = limbs_val ini + BASE ^ ini.length * t :=
    limbs_val_snoc ini t
  have hl : (ini ++ [t]).length = ini.length + 1 := by simp
  obtain ⟨P, hP⟩ : ∃ P : Int, (BASE : Int) ^ ini.length = P := ⟨_, rfl⟩
  obtain ⟨L, hL⟩ : ∃ L : Int, (limbs_val ini : Int) = L := ⟨_, rfl⟩
  have hL0 : 0 ≤ L := by rw [← hL]; positivity
  have hLP : L < P := by rw [← hL, ← hP]; exact_mod_cast hlo
  rw [hP] at hpos
  have hval : ∀ s', value ⟨ini ++ [t], s'⟩
      = L + P * t - (if s' then P * 4294967296 else 0) := by
    intro s'
    unfold value
    simp only [hv, hl, pow_succ]
    push_cast
    rw [hP, hL, hB]
  rw [hl, pow_succ, hP, hB, hval]
  by_cases htop : t / 2147483648 ≠ 0
  · have ht2 : (2147483648 : Int) ≤ t := by omega
    have ht3 : (t : Int) ≤ 4294967295 := by omega
    have m1 : P * 2147483648 ≤ P * t := mul_le_mul_of_nonneg_left ht2 hpos.le
    have m2 : P * t ≤ P * 4294967295 := mul_le_mul_of_nonneg_left ht3 hpos.le
    rw [decide_eq_true htop]
    cases s
    · simp only [Bool.false_eq_true, if_false, sub_zero, false_iff, not_and, not_lt]
      intro _
      linarith
    · simp only [if_true, true_iff]
      constructor <;> linarith
  · have ht2 : (t : Int) ≤ 2147483647 := by omega
    have ht0 : (0 : Int) ≤ t := by omega
    have m1 : P * t ≤ P * 2147483647 := mul_le_mul_of_nonneg_left ht2 hpos.le
    have m2 : 0 ≤ P * t := mul_nonneg hpos.le ht0
    rw [decide_eq_false htop]
    cases s
    · simp only [Bool.false_eq_true, if_false, sub_zero, true_iff]
      constructor <;> linarith
    · simp only [if_true, Bool.true_eq_false, false_iff, not_and, not_lt]
      intro h1
      linarith

/-! ## Division by `-1` -/

theorem div_neg_one (a : big_integer) (ha : wf a) (ha0 : a.arr = [] → a.is_neg = false) :
    div a (of_signed (-1)) = .done (operator_neg a) := by
  have hb : canonical (of_signed (-1)) := by decide
  have hv : value (of_signed (-1)) = -1 := by decide
  have hne : of_signed (-1) ≠ of_signed 1 := by decide
  obtain ⟨r, h1, h2, _, h3, _⟩ := knut_div_single_limb a (of_signed (-1)) .Quot ha ha0 hb
    (by rw [hv]; decide) (by rw [hv]; decide)
  unfold div
  rw [h1]
  congr 1
  apply canonical_unique _ _ (h3 hne) (canonical_operator_neg a)
  rw [h2, if_pos rfl, operator_neg_value a ha, hv]
  have e : (-1 : Int) = -(1 : Int) := rfl
  rw [e, Int.tdiv_neg, Int.tdiv_one]

end Bigint

namespace Bigint

theorem tdiv_neg_iff (a b : Int) (h : Int.tdiv a b ≠ 0) :
    Int.tdiv a b < 0 ↔ xor (decide (a < 0)) (decide (b < 0)) = true := by
  have hq : 0 ≤ |a| / |b| := Int.ediv_nonneg (abs_nonneg a) (abs_nonneg b)
  rw [tdiv_of_abs] at h ⊢
  by_cases hx : xor (decide (a < 0)) (decide (b < 0)) = true
  · rw [if_pos hx] at h ⊢
    constructor
    · intro _; exact hx
    · intro _; omega
  · rw [if_neg hx] at h ⊢
    constructor
    · intro h1; omega
    · intro h1; exact absurd h1 hx

theorem tmod_neg_iff (a b : Int) (h : Int.tmod a b ≠ 0) : Int.tmod a b < 0 ↔ a < 0 := by
  have hq : 0 ≤ |a| % |b| := by
    by_cases hb : b = 0
    · rw [hb, abs_zero, Int.emod_zero]; exact abs_nonneg a
    · exact Int.emod_nonneg _ (abs_ne_zero.mpr hb)
  rw [tmod_of_abs] at h ⊢
  by_cases hx : a < 0
  · rw [if_pos hx] at h ⊢
    constructor
    · intro _; exact hx
    · intro _; omega
  · rw [if_neg hx] at h ⊢
    constructor
    · intro h1; omega
    · intro h1; exact absurd h1 hx

/-- Quotient and remainder by a divisor whose magnitude fits one limb. -/
theorem single_limb_division (a b : big_integer) (ha : wf a)
    (ha0 : a.arr = [] → a.is_neg = false) (hb : canonical b) (hb0 : value b ≠ 0)
    (hb1 : |value b| < (BASE : Int)) :
    (∃ q, div a b = .done q ∧ value q = Int.tdiv (value a) (value b)
        ∧ (canonical a → canonical q)
        ∧ (value q ≠ 0 → q.is_neg = xor a.is_neg b.is_neg))
    ∧ (∃ r, mod a b = .done r ∧ value r = Int.tmod (value a) (value b)
        ∧ (canonical a → canonical r)
        ∧ (value r ≠ 0 → r.is_neg = a.is_neg))
    ∧ (absolutify b).arr.length = 1 := by
  have hda := is_neg_eq_decide a ha
  have hdb := is_neg_eq_decide b hb.1
  refine ⟨?_, ?_, by rw [(absolutify_one_limb b hb hb0 hb1).1]; rfl⟩
  · obtain ⟨q, h1, h2, h3, _, h5⟩ := knut_div_single_limb a b .Quot ha ha0 hb hb0 hb1
    rw [if_pos rfl] at h2
    refine ⟨q, h1, h2, h5, fun hne => ?_⟩
    rw [is_neg_eq_decide q h3, hda, hdb]
    rw [h2] at hne ⊢
    have := tdiv_neg_iff _ _ hne
    by_cases hx : xor (decide (value a < 0)) (decide (value b < 0)) = true
    · rw [hx, decide_eq_true (this.mpr hx)]
    · rw [Bool.not_eq_true] at hx
      rw [hx, decide_eq_false (fun hh => by rw [this.mp hh] at hx; exact Bool.noConfusion hx)]
  · obtain ⟨r, h1, h2, h3, _, h5⟩ := knut_div_single_limb a b .Remainder ha ha0 hb hb0 hb1
    rw [if_neg (by decide)] at h2
    refine ⟨r, h1, h2, h5, fun hne => ?_⟩
    rw [is_neg_eq_decide r h3, hda]
    rw [h2] at hne ⊢
    have := tmod_neg_iff _ _ hne
    by_cases hx : value a < 0
    · rw [decide_eq_true hx, decide_eq_true (this.mpr hx)]
    · rw [decide_eq_false hx, decide_eq_false (fun hh => hx (this.mp hh))]

theorem sign_is_top_bit_of_ne (a : big_integer) (hne : a.arr ≠ []) :
    sign_is_top_bit a ↔ a.is_neg = decide (a.arr.getLastD 0 / 2147483648 ≠ 0) := by
  unfold sign_is_top_bit
  constructor
  · intro h; exact h.1 hne
  · intro h; exact ⟨fun _ => h, fun hh => absurd hh hne⟩

end Bigint

namespace Bigint

/-! ## The claims, third part -/

/-- Claim C21: for every big integer `a` and every shift count `k`, `a << k` is
canonical, has the value of `a` times `2^k` and is the same object as `a * p`
for every representation `p` of `2^k`; a shift by 0 gives the canonical form of
`a`, which is `a` itself when `a` is canonical. -/
theorem C21_shift_left (a : big_integer) (ha : wf a) (k : Nat) :
    value (operator_shl a k) = value a * 2 ^ k
    ∧ canonical (operator_shl a k)
    ∧ (∀ p, wf p → value p = 2 ^ k → operator_shl a k = mul a p)
    ∧ operator_shl a 0 = remove_leading a
    ∧ (canonical a → operator_shl a 0 = a) :=
  ⟨operator_shl_value a ha k, (operator_shl_spec a ha k).1,
    fun p hp hv => operator_shl_eq_mul a p ha hp k hv, operator_shl_zero a ha,
    fun hc => (operator_shl_zero a ha).trans ((canonical_iff_remove_leading a ha).mp hc)⟩

/-- Witness of C21: `-2^31` shifted by 31 bits. -/
theorem C21_shift_left_witness :
    wf ⟨[2147483648], true⟩
    ∧ value (operator_shl ⟨[2147483648], true⟩ 31) = value ⟨[2147483648], true⟩ * 2 ^ 31
    ∧ operator_shl ⟨[2147483648], true⟩ 0 = ⟨[2147483648], true⟩ :=
  ⟨by decide, (C21_shift_left ⟨[2147483648], true⟩ (by decide) 31).1,
    (C21_shift_left ⟨[2147483648], true⟩ (by decide) 31).2.2.2.2 (by decide)⟩

/-- Claim C22 fails on the code: `big_integer(-5) >> 0`,
`big_integer(2^32) >> 32` and `big_integer(2^32) >> 0` take the second branch
of `operator>>=` with a bit count `rhs % 32` of zero, where a `uint32_t` is
shifted left by 32, which has no defined result. With a bit count other than
zero the call is defined: `-1234 >> 3` is `-155`. -/
theorem C22_shift_right_multiple_of_32 :
    of_signed (-5) = ⟨[4294967291], true⟩ ∧ canonical (of_signed (-5))
    ∧ operator_shr (of_signed (-5)) 0 = .undefined
    ∧ of_signed 4294967296 = ⟨[0, 1], false⟩ ∧ canonical (of_signed 4294967296)
    ∧ operator_shr (of_signed 4294967296) 32 = .undefined
    ∧ operator_shr (of_signed 4294967296) 0 = .undefined
    ∧ operator_shr (of_signed (-1234)) 3 = .done (of_signed (-155)) := by
  decide

/-- Claim C23: when the shift count `k` is at least 32 times the number of
stored limbs, `a >> k` returns exactly `big_integer(0)` for a non-negative `a`
and exactly `big_integer(-1)` for a negative one; `big_integer(1) >> 32` is 0. -/
theorem C23_shift_right_saturates (a : big_integer) (k : Nat)
    (hk : 32 * a.arr.length ≤ k) :
    operator_shr a k = .done (if a.is_neg then of_signed (-1) else of_signed 0)
    ∧ (∀ r, operator_shr a k = .done r → value r = (if a.is_neg then -1 else 0))
    ∧ operator_shr (of_signed 1) 32 = .done (of_signed 0) := by
  rw [operator_shr_saturate a k hk]
  refine ⟨?_, ?_, by decide⟩
  · cases a.is_neg <;> decide
  · intro r hr
    injection hr with hr
    rw [← hr]
    cases a.is_neg <;> decide

/-- Witness of C23: `-5 >> 32` and `-5 >> 1000`. -/
theorem C23_shift_right_saturates_witness :
    32 * (of_signed (-5)).arr.length ≤ 32
    ∧ operator_shr (of_signed (-5)) 32 = .done (of_signed (-1))
    ∧ operator_shr (of_signed (-5)) 1000 = .done (of_signed (-1)) :=
  ⟨by decide, (C23_shift_right_saturates (of_signed (-5)) 32 (by decide)).1,
    (C23_shift_right_saturates (of_signed (-5)) 1000 (by decide)).1⟩

/-- Claim C24: pre-increment leaves the receiver with the old value plus one
(the same object as `a + 1`) and returns the receiver; post-increment leaves
the same receiver and returns the old `a`. -/
theorem C24_increment (a : big_integer) (ha : wf a) :
    value (operator_pre_inc a).1 = value a + 1
    ∧ (operator_pre_inc a).2 = (operator_pre_inc a).1
    ∧ (operator_pre_inc a).1 = add a (of_signed 1)
    ∧ value (operator_post_inc a).1 = value a + 1
    ∧ (operator_post_inc a).1 = add a (of_signed 1)
    ∧ (operator_post_inc a).2 = a :=
  ⟨(operator_pre_inc_spec a ha).1, (operator_pre_inc_spec a ha).2.1,
    (operator_pre_inc_spec a ha).2.2.1, (operator_post_inc_spec a ha).1,
    (operator_post_inc_spec a ha).2.2.1, (operator_post_inc_spec a ha).2.1⟩

/-- Witness of C24: `2^32 - 1`, whose increment needs a second limb, and `-1`. -/
theorem C24_increment_witness :
    wf ⟨[4294967295], false⟩ ∧ wf ⟨[4294967295], true⟩
    ∧ value (operator_pre_inc ⟨[4294967295], false⟩).1 = value ⟨[4294967295], false⟩ + 1
    ∧ value (operator_post_inc ⟨[4294967295], true⟩).1 = value ⟨[4294967295], true⟩ + 1 :=
  ⟨by decide, by decide, (C24_increment ⟨[4294967295], false⟩ (by decide)).1,
    (C24_increment ⟨[4294967295], true⟩ (by decide)).2.2.2.1⟩

/-- Claim C25 fails on the code: decrementing zero, by `--a` or by `a--`, leaves
`-2` (one limb `0xFFFFFFFE`, negative), whereas `a - 1` is `-1`. -/
theorem C25_decrement_of_zero :
    (operator_pre_dec zero).1 = ⟨[4294967294], true⟩
    ∧ (operator_pre_dec zero).2 = ⟨[4294967294], true⟩
    ∧ (operator_post_dec zero).1 = ⟨[4294967294], true⟩
    ∧ value (operator_pre_dec zero).1 = -2
    ∧ value zero - 1 = -1
    ∧ sub zero (of_signed 1) = of_signed (-1) := by
  decide

/-- Claim C26: for every big integer `a`, `a / big_integer(-1)` returns `-a`,
whose value is the negation of the value of `a`; `INT_MIN / -1` has value `2^31`
and `(INT_MIN / -1) - INT_MAX` is 1. -/
theorem C26_div_minus_one (a : big_integer) (ha : wf a)
    (ha0 : a.arr = [] → a.is_neg = false) :
    div a (of_signed (-1)) = .done (operator_neg a)
    ∧ value (operator_neg a) = -value a
    ∧ div (of_signed (-2147483648)) (of_signed (-1)) = .done ⟨[2147483648], false⟩
    ∧ value ⟨[2147483648], false⟩ = 2147483648
    ∧ sub ⟨[2147483648], false⟩ (of_signed 2147483647) = of_signed 1 :=
  ⟨div_neg_one a ha ha0, operator_neg_value a ha, by decide, by decide, by decide⟩

/-- Witness of C26: `-2^63`, the value of `LLONG_MIN`. -/
theorem C26_div_minus_one_witness :
    wf (of_signed (-9223372036854775808))
    ∧ ((of_signed (-9223372036854775808)).arr = []
        → (of_signed (-9223372036854775808)).is_neg = false)
    ∧ div (of_signed (-9223372036854775808)) (of_signed (-1))
        = .done (operator_neg (of_signed (-9223372036854775808))) :=
  ⟨by decide, by decide,
    (C26_div_minus_one (of_signed (-9223372036854775808)) (by decide) (by decide)).1⟩

/-- Claim C27: `a + 0` is the canonical form of `a`, hence `a` itself for a
canonical `a`; `a + (-a)` and `a - a` are `big_integer(0)`; all three as
equalities of sign flag and limbs. -/
theorem C27_additive_identity (a : big_integer) (ha : wf a) :
    add a (of_signed 0) = remove_leading a
    ∧ (canonical a → add a (of_signed 0) = a)
    ∧ add a (operator_neg a) = of_signed 0
    ∧ sub a a = of_signed 0 := by
  rw [of_signed_zero]
  exact ⟨add_zero_eq a ha,
    fun hc => (add_zero_eq a ha).trans ((canonical_iff_remove_leading a ha).mp hc),
    add_neg_eq a ha, sub_self a ha⟩

/-- Witness of C27: `-2^32`. -/
theorem C27_additive_identity_witness :
    wf ⟨[0], true⟩
    ∧ add ⟨[0], true⟩ (of_signed 0) = ⟨[0], true⟩
    ∧ add ⟨[0], true⟩ (operator_neg ⟨[0], true⟩) = of_signed 0
    ∧ sub ⟨[0], true⟩ ⟨[0], true⟩ = of_signed 0 :=
  ⟨by decide, (C27_additive_identity ⟨[0], true⟩ (by decide)).2.1 (by decide),
    (C27_additive_identity ⟨[0], true⟩ (by decide)).2.2.1,
    (C27_additive_identity ⟨[0], true⟩ (by decide)).2.2.2⟩

/-- Claim C28: the default constructor, the constructors from machine integers
and from text, and every public operator applied to canonical operands return
a canonical number; for `/`, `%` and `>>` this is whatever the call returns. -/
theorem C28_canonical_invariant (a b : big_integer) (ha : canonical a) (hb : canonical b)
    (k : Nat) (x : Int) (u : Nat) (str : List Char) :
    canonical zero ∧ canonical (of_signed x) ∧ canonical (of_unsigned u)
    ∧ (∀ r, from_string str = .done r → canonical r)
    ∧ canonical (add a b) ∧ canonical (sub a b) ∧ canonical (mul a b)
    ∧ (∀ r, div a b = .done r → canonical r)
    ∧ (∀ r, mod a b = .done r → canonical r)
    ∧ canonical (operator_and a b) ∧ canonical (operator_or a b)
    ∧ canonical (operator_xor a b) ∧ canonical (operator_not a)
    ∧ canonical (operator_shl a k)
    ∧ (∀ r, operator_shr a k = .done r → canonical r)
    ∧ canonical (operator_neg a)
    ∧ canonical (operator_pre_inc a).1 ∧ canonical (operator_pre_inc a).2
    ∧ canonical (operator_post_inc a).1 ∧ canonical (operator_post_inc a).2
    ∧ canonical (operator_pre_dec a).1 ∧ canonical (operator_pre_dec a).2
    ∧ canonical (operator_post_dec a).1 ∧ canonical (operator_post_dec a).2 :=
  ⟨canonical_zero, canonical_init_big _ _, canonical_init_big _ _,
    fun r hr => canonical_from_string str r hr,
    canonical_add a b ha.1 hb.1, canonical_sub a b ha.1 hb.1, canonical_mul a b ha.1 hb.1,
    fun r hr => canonical_knut_div a b false .Quot ha hb r hr,
    fun r hr => canonical_knut_div a b false .Remainder ha hb r hr,
    (operator_and_spec a b ha.1 hb.1).1, (operator_or_spec a b ha.1 hb.1).1,
    (operator_xor_spec a b ha.1 hb.1).1, canonical_operator_not a,
    (operator_shl_spec a ha.1 k).1, fun r hr => (operator_shr_done a ha.1 k r hr).1,
    canonical_operator_neg a,
    canonical_add_int_any a 1 ha.1, canonical_add_int_any a 1 ha.1,
    canonical_add_int_any a 1 ha.1, ha,
    canonical_add_int_any a (-1) ha.1, canonical_add_int_any a (-1) ha.1,
    canonical_add_int_any a (-1) ha.1, ha⟩

/-- Witness of C28: `-2^32` and `2^32`, with the quotient `-2^32 / 2^32` and
the shift `-2^32 >> 31`. -/
theorem C28_canonical_invariant_witness :
    canonical ⟨[0], true⟩ ∧ canonical ⟨[0, 1], false⟩
    ∧ canonical (mul ⟨[0], true⟩ ⟨[0, 1], false⟩)
    ∧ (∀ r, div ⟨[0], true⟩ ⟨[0, 1], false⟩ = .done r → canonical r)
    ∧ operator_shr ⟨[0], true⟩ 31 = .done ⟨[4294967294], true⟩
    ∧ canonical ⟨[4294967294], true⟩
    ∧ canonical (operator_pre_dec ⟨[0], true⟩).1 :=
  ⟨by decide, by decide,
    (C28_canonical_invariant ⟨[0], true⟩ ⟨[0, 1], false⟩ (by decide) (by decide)
      0 0 0 []).2.2.2.2.2.2.1,
    (C28_canonical_invariant ⟨[0], true⟩ ⟨[0, 1], false⟩ (by decide) (by decide)
      0 0 0 []).2.2.2.2.2.2.2.1,
    by decide,
    (C28_canonical_invariant ⟨[0], true⟩ ⟨[0, 1], false⟩ (by decide) (by decide)
      31 0 0 []).2.2.2.2.2.2.2.2.2.2.2.2.2.2.1 ⟨[4294967294], true⟩ (by decide),
    (C28_canonical_invariant ⟨[0], true⟩ ⟨[0, 1], false⟩ (by decide) (by decide)
      0 0 0 []).2.2.2.2.2.2.2.2.2.2.2.2.2.2.2.2.2.2.2.2.1⟩

/-- Claim C29 as written fails: `big_integer(2147483648u)`, which is also
`big_integer(INT_MAX) + 1`, is canonical and stores the one limb `0x80000000`,
whose bit 31 is set, while `is_neg` is false. -/
theorem C29_top_bit_counterexample :
    of_unsigned 2147483648 = ⟨[2147483648], false⟩
    ∧ add (of_signed 2147483647) (of_signed 1) = of_unsigned 2147483648
    ∧ canonical (of_unsigned 2147483648)
    ∧ ¬ sign_is_top_bit (of_unsigned 2147483648) := by
  decide

/-- Claim C29, amended: in a canonical number `is_neg` is set exactly when the
value is negative; without limbs the value is zero and `is_neg` is false; with
`n ≥ 1` limbs `is_neg` equals bit 31 of the last limb exactly when
`-2^(32n-1) ≤ value < 2^(32n-1)`. -/
theorem C29_sign_flag (a : big_integer) (ha : canonical a) :
    (a.is_neg = true ↔ value a < 0)
    ∧ (a.arr = [] → value a = 0 ∧ a.is_neg = false)
    ∧ (a.arr ≠ [] → (sign_is_top_bit a
        ↔ (-((BASE : Int) ^ a.arr.length) ≤ 2 * value a
            ∧ 2 * value a < (BASE : Int) ^ a.arr.length))) := by
  refine ⟨is_neg_iff a ha.1, fun h => ?_, fun h => ?_⟩
  · have hs := ha.2.1 h
    refine ⟨?_, hs⟩
    unfold value
    rw [h, hs]
    rfl
  · rw [sign_is_top_bit_of_ne a h]
    exact sign_is_top_bit_iff a ha.1 h

/-- Witness of C29: `-2^31 - 1`, stored as the limb `0x7FFFFFFF` with `is_neg`. -/
theorem C29_sign_flag_witness :
    canonical ⟨[2147483647], true⟩
    ∧ ((⟨[2147483647], true⟩ : big_integer).is_neg = true ↔ value ⟨[2147483647], true⟩ < 0)
    ∧ (sign_is_top_bit ⟨[2147483647], true⟩
        ↔ (-((BASE : Int) ^ (⟨[2147483647], true⟩ : big_integer).arr.length)
              ≤ 2 * value ⟨[2147483647], true⟩
            ∧ 2 * value ⟨[2147483647], true⟩
              < (BASE : Int) ^ (⟨[2147483647], true⟩ : big_integer).arr.length)) :=
  ⟨by decide, (C29_sign_flag ⟨[2147483647], true⟩ (by decide)).1,
    (C29_sign_flag ⟨[2147483647], true⟩ (by decide)).2.2 (by decide)⟩

/-- Claim C30: for a divisor `b` with `0 < |value b| < 2^32` the magnitude of
`b` has one limb, and `a / b` and `a % b` return the truncating quotient and
remainder of the values; a non-zero quotient has the XOR of the signs as sign
flag, a non-zero remainder the sign flag of `a`. -/
theorem C30_single_limb_division (a b : big_integer) (ha : wf a)
    (ha0 : a.arr = [] → a.is_neg = false) (hb : canonical b) (hb0 : value b ≠ 0)
    (hb1 : |value b| < (BASE : Int)) :
    (∃ q, div a b = .done q ∧ value q = Int.tdiv (value a) (value b)
        ∧ (canonical a → canonical q)
        ∧ (value q ≠ 0 → q.is_neg = xor a.is_neg b.is_neg))
    ∧ (∃ r, mod a b = .done r ∧ value r = Int.tmod (value a) (value b)
        ∧ (canonical a → canonical r)
        ∧ (value r ≠ 0 → r.is_neg = a.is_neg))
    ∧ (absolutify b).arr.length = 1 :=
  single_limb_division a b ha ha0 hb hb0 hb1

/-- Witness of C30: `-2^32 - 7` divided by `-(2^32 - 1)`. -/
theorem C30_single_limb_division_witness :
    wf ⟨[4294967289, 4294967294], true⟩ ∧ canonical ⟨[1], true⟩
    ∧ value ⟨[1], true⟩ ≠ 0 ∧ |value ⟨[1], true⟩| < (BASE : Int)
    ∧ (∃ q, div ⟨[4294967289, 4294967294], true⟩ ⟨[1], true⟩ = .done q
        ∧ value q = Int.tdiv (value ⟨[4294967289, 4294967294], true⟩) (value ⟨[1], true⟩)
        ∧ (canonical ⟨[4294967289, 4294967294], true⟩ → canonical q)
        ∧ (value q ≠ 0 → q.is_neg
            = xor (⟨[4294967289, 4294967294], true⟩ : big_integer).is_neg
                (⟨[1], true⟩ : big_integer).is_neg)) :=
  ⟨by decide, by decide, by decide, by decide,
    (C30_single_limb_division ⟨[4294967289, 4294967294], true⟩ ⟨[1], true⟩ (by decide)
      (by decide) (by decide) (by decide) (by decide)).1⟩

end Bigint

namespace Bigint

/-! ## The limb-count shortcut of the division -/

/-- When the divisor stores more limbs than the dividend its magnitude is at
least that of the dividend, with equality only for `-2^(32 n)` over `2^(32 n)`. -/
theorem fast_path_magnitudes (a b : big_integer) (ha : canonical a) (hb : canonical b)
    (hlen : b.arr.length > a.arr.length) :
    |value a| ≤ |value b|
    ∧ (|value a| = |value b| →
        a.is_neg = true ∧ b.is_neg = false ∧ value a = -(BASE : Int) ^ a.arr.length
          ∧ value b = (BASE : Int) ^ a.arr.length) := by
  have hBa := canonical_bounds a ha
  have hBb := canonical_bounds b hb
  have hmono := base_pow_mono a.arr.length (b.arr.length - 1) (by omega)
  have hpos : (0 : Int) < (BASE : Int) ^ a.arr.length := by
    have : (BASE : Int) = 4294967296 := rfl
    rw [this]; positivity
  rcases Bool.eq_false_or_eq_true a.is_neg with hsa | hsa <;>
    rcases Bool.eq_false_or_eq_true b.is_neg with hsb | hsb
  · -- both negative
    obtain ⟨a1, a2, a3, _⟩ := hBa.2 hsa
    obtain ⟨b1, b2, b3, b4⟩ := hBb.2 hsb
    have b5 := b4 (by omega)
    rw [abs_of_neg a3, abs_of_neg b3]
    constructor
    · omega
    · intro h; omega
  · -- a negative, b non-negative
    obtain ⟨a1, a2, a3, _⟩ := hBa.2 hsa
    obtain ⟨b1, b2, b3⟩ := hBb.1 hsb
    have b4 := b3 (by omega)
    rw [abs_of_neg a3, abs_of_nonneg b1]
    constructor
    · omega
    · intro h
      exact ⟨hsa, hsb, by omega, by omega⟩
  · -- a non-negative, b negative
    obtain ⟨a1, a2, _⟩ := hBa.1 hsa
    obtain ⟨b1, b2, b3, b4⟩ := hBb.2 hsb
    rw [abs_of_nonneg a1, abs_of_neg b3]
    by_cases h2 : 2 ≤ b.arr.length
    · have b5 := b4 h2
      constructor
      · omega
      · intro h; omega
    · have h0 : a.arr.length = 0 := by omega
      rw [h0, pow_zero] at a2
      constructor
      · omega
      · intro h; omega
  · -- both non-negative
    obtain ⟨a1, a2, _⟩ := hBa.1 hsa
    obtain ⟨b1, b2, b3⟩ := hBb.1 hsb
    have b4 := b3 (by omega)
    rw [abs_of_nonneg a1, abs_of_nonneg b1]
    constructor
    · omega
    · intro h; omega

/-- With a dividend of smaller magnitude the shortcut returns the truncating
quotient and remainder. -/
theorem fast_path_correct (a b : big_integer) (ha : canonical a)
    (hlen : b.arr.length > a.arr.length) (hlt : |value a| < |value b|) :
    (∃ q, div a b = .done q ∧ value q = Int.tdiv (value a) (value b))
    ∧ (∃ r, mod a b = .done r ∧ value r = Int.tmod (value a) (value b)) := by
  have hq0 : |value a| / |value b| = 0 := Int.ediv_eq_zero_of_lt (abs_nonneg _) hlt
  have hm0 : |value a| % |value b| = |value a| := Int.emod_eq_of_lt (abs_nonneg _) hlt
  have ht : Int.tdiv (value a) (value b) = 0 := by
    rw [tdiv_of_abs, hq0]; simp
  have hm : Int.tmod (value a) (value b) = value a := by
    rw [Int.tmod_def, ht]; ring
  have hb0 : b ≠ of_signed 0 := by
    intro h
    rw [h] at hlen
    exact absurd hlen (by simp [of_signed_zero, zero])
  have hzv : value (of_signed 0) = 0 := by decide
  by_cases hb1 : b = of_signed 1
  · have h1 : b.arr.length = 1 := by rw [hb1]; rfl
    have h0 : a.arr = [] := List.length_eq_zero.mp (by omega)
    have hav : value a = 0 := by
      have hs := ha.2.1 h0
      unfold value; rw [h0, hs]; rfl
    have e : ∀ type, knut_div a b false type
        = .done (if type = .Remainder then of_signed 0 else a) := by
      intro type
      unfold knut_div
      rw [if_neg hb0, if_pos hb1]
    refine ⟨⟨_, e .Quot, ?_⟩, ⟨_, e .Remainder, ?_⟩⟩
    · rw [if_neg (by decide), ht, hav]
    · rw [if_pos rfl, hm, hav, hzv]
  · have e : ∀ type, knut_div a b false type
        = .done (if type = .Quot then of_signed 0 else a) := by
      intro type
      unfold knut_div
      rw [if_neg hb0, if_neg hb1]
      simp only [Bool.false_eq_true, if_false]
      rw [if_pos hlen]
    refine ⟨⟨_, e .Quot, ?_⟩, ⟨_, e .Remainder, ?_⟩⟩
    · rw [if_pos rfl, ht, hzv]
    · rw [if_neg (by decide), hm]

end Bigint

namespace Bigint

/-! ## The normalisation scale of the long division -/

theorem scale_bounds (t : Nat) (h1 : 1 ≤ t) (h2 : t < BASE) :
    (UINT32_MAX + 1) / (t + 1) % BASE = 4294967296 / (t + 1)
    ∧ 1 ≤ 4294967296 / (t + 1)
    ∧ 4294967296 / (t + 1) < BASE
    ∧ (t + 1) * (4294967296 / (t + 1)) ≤ 4294967296
    ∧ 2147483648 ≤ t * (4294967296 / (t + 1)) := by
  have hB : BASE = 4294967296 := rfl
  have hM : UINT32_MAX + 1 = 4294967296 := rfl
  rw [hB] at h2
  obtain ⟨d, hd⟩ : ∃ d, 4294967296 / (t + 1) = d := ⟨_, rfl⟩
  have hA : (t + 1) * d ≤ 4294967296 := by rw [← hd]; exact Nat.mul_div_le _ _
  have hC : 4294967296 < (t + 1) * (d + 1) := by
    rw [← hd]; exact Nat.lt_mul_div_succ _ (by omega)
  have hd1 : 1 ≤ d := by
    rw [← hd]; exact Nat.div_pos (by omega) (by omega)
  have hd2 : d ≤ 2147483648 := by
    by_contra hh
    have : 2 * 2147483649 ≤ (t + 1) * d := Nat.mul_le_mul (by omega) (by omega)
    omega
  rw [hM, hB, hd, Nat.mod_eq_of_lt (by omega)]
  refine ⟨rfl, hd1, by omega, hA, ?_⟩
  by_cases c1 : d = 1
  · subst c1
    simp only [mul_one] at hA hC ⊢
    omega
  · by_cases c2 : t = 1
    · subst c2
      have : d = 2147483648 := by rw [← hd]
      subst this
      decide
    · have h3 : t + d ≤ t * d := by
        obtain ⟨t', rfl⟩ : ∃ t', t = t' + 2 := ⟨t - 2, by omega⟩
        obtain ⟨d', rfl⟩ : ∃ d', d = d' + 2 := ⟨d - 2, by omega⟩
        nlinarith
      have e1 : (t + 1) * (d + 1) = t * d + t + d + 1 := by ring
      rw [e1] at hC
      omega

/-- The value of a non-negative number lies between its last limb and the next
number times the weight of that limb. -/
theorem top_limb_bounds (a : big_integer) (ha : wf a) (hs : a.is_neg = false)
    (hne : a.arr ≠ []) :
    (BASE : Int) ^ (a.arr.length - 1) * (a.arr.getLastD 0 : Nat) ≤ value a
    ∧ value a < (BASE : Int) ^ (a.arr.length - 1) * ((a.arr.getLastD 0 : Nat) + 1) := by
  obtain ⟨arr, s⟩ := a
  simp only at hne hs
  subst hs
  obtain ⟨ini, t, rfl⟩ : ∃ ini t, arr = ini ++ [t] := by
    rcases List.eq_nil_or_concat arr with h | ⟨ini, t, h⟩
    · exact absurd h hne
    · exact ⟨ini, t, by rw [h, List.concat_eq_append]⟩
  have hini : ∀ x ∈ ini, x < BASE := fun x hx => ha x (by simp [hx])
  have hlo := limbs_val_lt ini hini
  have hlast : (ini ++ [t]).getLastD 0 = t := by simp [List.getLastD_eq_getLast?]
  have hl : (ini ++ [t]).length - 1 = ini.length := by simp
  rw [value_mk_false, limbs_val_snoc]
  simp only [hlast, hl]
  push_cast
  have h0 : (0 : Int) ≤ (limbs_val ini : Int) := by positivity
  have h1 : (limbs_val ini : Int) < (BASE : Int) ^ ini.length := by exact_mod_cast hlo
  constructor
  · linarith
  · linarith

theorem canonical_small_mul (a : big_integer) (rhs : Nat) (ha : wf a) (hrhs : rhs < BASE) :
    canonical (small_mul a rhs) := by
  have h := wf_small_mul a rhs ha hrhs
  unfold small_mul at h ⊢
  exact canonical_of_wf_remove_leading _ h

/-- The number of limbs of a canonical non-negative number is fixed by its value. -/
theorem length_of_bounds (a : big_integer) (ha : canonical a) (hs : a.is_neg = false)
    (n : Nat) (hn : 1 ≤ n) (hlo : (BASE : Int) ^ (n - 1) ≤ value a)
    (hhi : value a < (BASE : Int) ^ n) : a.arr.length = n := by
  obtain ⟨b1, b2, b3⟩ := (canonical_bounds a ha).1 hs
  by_contra hne
  rcases Nat.lt_or_gt_of_ne hne with h | h
  · have := base_pow_mono a.arr.length (n - 1) (by omega)
    omega
  · have h4 := b3 (by omega)
    have := base_pow_mono n (a.arr.length - 1) (by omega)
    omega

theorem length_le_of_bound (a : big_integer) (ha : canonical a) (hs : a.is_neg = false)
    (n : Nat) (hhi : value a < (BASE : Int) ^ n) : a.arr.length ≤ n := by
  obtain ⟨b1, b2, b3⟩ := (canonical_bounds a ha).1 hs
  by_contra hne
  have h4 := b3 (by omega)
  have := base_pow_mono n (a.arr.length - 1) (by omega)
  omega

/-- The scale `d` of `knut_div` and what `small_mul(d)` makes of the divisor
magnitude `v` and of the dividend magnitude `u`. -/
theorem normalization_scale (v u : big_integer) (hv : wf v) (hvs : v.is_neg = false)
    (hn : 2 ≤ v.arr.length) (ht : 1 ≤ v.arr.getLastD 0) (hu : wf u) (hus : u.is_neg = false) :
    (UINT32_MAX + 1) / (v.arr.getLastD 0 + 1) % BASE = 4294967296 / (v.arr.getLastD 0 + 1)
    ∧ 1 ≤ (UINT32_MAX + 1) / (v.arr.getLastD 0 + 1) % BASE
    ∧ (UINT32_MAX + 1) / (v.arr.getLastD 0 + 1) % BASE < BASE
    ∧ value (small_mul v ((UINT32_MAX + 1) / (v.arr.getLastD 0 + 1) % BASE))
        = value v * ((UINT32_MAX + 1) / (v.arr.getLastD 0 + 1) % BASE : Nat)
    ∧ (small_mul v ((UINT32_MAX + 1) / (v.arr.getLastD 0 + 1) % BASE)).arr.length
        = v.arr.length
    ∧ 2147483648
        ≤ (small_mul v ((UINT32_MAX + 1) / (v.arr.getLastD 0 + 1) % BASE)).arr.getLastD 0
    ∧ value (small_mul u ((UINT32_MAX + 1) / (v.arr.getLastD 0 + 1) % BASE))
        = value u * ((UINT32_MAX + 1) / (v.arr.getLastD 0 + 1) % BASE : Nat)
    ∧ (small_mul u ((UINT32_MAX + 1) / (v.arr.getLastD 0 + 1) % BASE)).arr.length
        ≤ u.arr.length + 1 := by
  have hne : v.arr ≠ [] := fun h => by rw [h] at hn; simp at hn
  have htlt : v.arr.getLastD 0 < BASE := by
    rw [List.getLastD_eq_getLast?, List.getLast?_eq_getLast _ hne]
    exact hv _ (List.getLast_mem hne)
  obtain ⟨e1, e2, e3, e4, e5⟩ := scale_bounds (v.arr.getLastD 0) ht htlt
  rw [e1]
  obtain ⟨t, htd⟩ : ∃ t, v.arr.getLastD 0 = t := ⟨_, rfl⟩
  rw [htd] at e2 e3 e4 e5 ⊢
  obtain ⟨d, hd⟩ : ∃ d, 4294967296 / (t + 1) = d := ⟨_, rfl⟩
  rw [hd] at e2 e3 e4 e5 ⊢
  obtain ⟨t1, t2⟩ := top_limb_bounds v hv hvs hne
  rw [htd] at t1 t2
  have hv0 : 0 ≤ value v := not_lt.mp (fun h => by
    have := (is_neg_iff v hv).mpr h; rw [hvs] at this; exact Bool.noConfusion this)
  have hu0 : 0 ≤ value u := not_lt.mp (fun h => by
    have := (is_neg_iff u hu).mpr h; rw [hus] at this; exact Bool.noConfusion this)
  have hvv : value (small_mul v d) = value v * d := by
    rw [small_mul_value v d hv e3, abs_of_nonneg hv0]
  have huv : value (small_mul u d) = value u * d := by
    rw [small_mul_value u d hu e3, abs_of_nonneg hu0]
  have hcv := canonical_small_mul v d hv e3
  have hcu := canonical_small_mul u d hu e3
  have hsv := is_neg_small_mul v d hv
  have hsu := is_neg_small_mul u d hu
  have hP : (0 : Int) < (BASE : Int) ^ (v.arr.length - 1) := by
    have : (BASE : Int) = 4294967296 := rfl
    rw [this]; positivity
  have hB : (BASE : Int) = 4294967296 := rfl
  obtain ⟨P, hPd⟩ : ∃ P : Int, (BASE : Int) ^ (v.arr.length - 1) = P := ⟨_, rfl⟩
  rw [hPd] at t1 t2 hP
  have hPn : (BASE : Int) ^ v.arr.length = P * 4294967296 := by
    rw [← hPd, ← hB, ← pow_succ]
    congr 1
    omega
  have hd0 : (0 : Int) ≤ (d : Int) := by positivity
  have e4' : ((t : Int) + 1) * d ≤ 4294967296 := by exact_mod_cast e4
  have e5' : (2147483648 : Int) ≤ t * d := by exact_mod_cast e5
  -- bounds of the scaled divisor
  have lo : P * 2147483648 ≤ value v * d := by
    have := mul_le_mul_of_nonneg_right t1 hd0
    have h2 := mul_le_mul_of_nonneg_left e5' hP.le
    nlinarith
  have hi : value v * d < P * 4294967296 := by
    have hd1 : (0 : Int) < (d : Int) := by exact_mod_cast e2
    have := mul_lt_mul_of_pos_right t2 hd1
    have h2 := mul_le_mul_of_nonneg_left e4' hP.le
    nlinarith
  have hlen : (small_mul v d).arr.length = v.arr.length := by
    apply length_of_bounds _ hcv hsv _ (by omega)
    · rw [hPd, hvv]; linarith
    · rw [hPn, hvv]; exact hi
  have hne2 : (small_mul v d).arr ≠ [] := fun h => by rw [h] at hlen; simp at hlen; omega
  obtain ⟨s1, s2⟩ := top_limb_bounds (small_mul v d) hcv.1 hsv hne2
  rw [hlen, hPd, hvv] at s2
  refine ⟨rfl, e2, e3, hvv, hlen, ?_, huv, ?_⟩
  · by_contra hh
    have h3 : (((small_mul v d).arr.getLastD 0 : Nat) : Int) + 1 ≤ 2147483648 := by omega
    have := mul_le_mul_of_nonneg_left h3 hP.le
    linarith
  · apply length_le_of_bound _ hcu hsu
    rw [huv, pow_succ]
    have hub : value u < (BASE : Int) ^ u.arr.length := by
      rw [show value u = (limbs_val u.arr : Int) by
        obtain ⟨ua, us⟩ := u
        simp only at hus
        subst hus
        exact value_mk_false ua]
      exact_mod_cast limbs_val_lt u.arr hu
    have hd3 : (d : Int) < (BASE : Int) := by exact_mod_cast e3
    exact mul_lt_mul'' hub hd3 hu0 hd0

end Bigint

namespace Bigint

/-! ## Reads of `div_with_rem` see the limbs they are meant to see -/

theorem div_with_rem_loop_checked_eq (num size : Nat) (orig : List Nat) (index : Nat)
    (arr : List Nat) (rem li1 : Nat) (hil : index ≤ li1)
    (hlow : ∀ j, j < index → arr.getD j 0 = orig.getD j 0) :
    div_with_rem_loop_checked num size orig index arr rem li1
      = some (div_with_rem_loop num size index arr rem li1) := by
  induction index generalizing arr rem li1 with
  | zero => rfl
  | succ index ih =>
    simp only [div_with_rem_loop_checked, div_with_rem_loop]
    rw [if_pos (hlow index (Nat.lt_succ_self _))]
    split_ifs with c
    · apply ih _ _ _ (by omega)
      intro j hj
      rw [getD_set, if_neg (by omega)]
      exact hlow j (by omega)
    · exact ih _ _ _ (by omega) (fun j hj => hlow j (by omega))

theorem div_with_rem_swap_checked_eq (digits : List Nat) (li1 steps i : Nat) (arr : List Nat)
    (h : ∀ j, i ≤ j → arr.getD j 0 = digits.getD j 0) :
    div_with_rem_swap_checked digits li1 steps i arr
      = some (div_with_rem_swap li1 steps i arr) := by
  induction steps generalizing i arr with
  | zero => rfl
  | succ steps ih =>
    simp only [div_with_rem_swap_checked, div_with_rem_swap]
    rw [if_pos (h i (le_refl _))]
    apply ih
    intro j hj
    rw [getD_set, if_neg (by omega), getD_set, if_neg (by omega)]
    exact h j (by omega)

/-! ## No overflow, no index outside the buffer and no carry left in `operator*=` -/

theorem mul_inner_checked_eq (ti : Nat) (bot : List Nat) (i : Nat) (hti : ti < BASE)
    (hbot : ∀ x ∈ bot, x < BASE) (steps k : Nat) (res : List Nat) (carry : Nat)
    (hres : ∀ x ∈ res, x < BASE) (hc : carry < BASE) (hlen : i + k + steps ≤ res.length) :
    mul_inner_checked ti bot i steps k res carry = some (mul_inner ti bot i steps k res carry) := by
  induction steps generalizing k res carry with
  | zero => rfl
  | succ steps ih =>
    have hB : BASE = 4294967296 := rfl
    have hb : (if k ≠ bot.length then bot.getD k 0 else 0) < BASE := by
      split_ifs
      · exact getD_lt_base _ _ _ hbot (by decide)
      · decide
    have hr : res.getD (i + k) 0 < BASE := getD_lt_base _ _ _ hres (by decide)
    obtain ⟨x, hx⟩ : ∃ x, (if k ≠ bot.length then bot.getD k 0 else 0) = x := ⟨_, rfl⟩
    obtain ⟨y, hy⟩ : ∃ y, res.getD (i + k) 0 = y := ⟨_, rfl⟩
    rw [hx] at hb
    rw [hy] at hr
    have hti' : ti < 4294967296 := hti
    have hb' : x < 4294967296 := hb
    have hr' : y < 4294967296 := hr
    have hc' : carry < 4294967296 := hc
    have hprod : ti * x ≤ 4294967295 * 4294967295 := Nat.mul_le_mul (by omega) (by omega)
    have hraw : ti * x + carry + y ≤ 18446744073709551615 := by omega
    have hin : i + k < res.length := by omega
    simp only [mul_inner_checked, mul_inner, hx, hy]
    rw [if_pos ⟨hraw, hin⟩,
      Nat.mod_eq_of_lt (show ti * x + carry + y < 18446744073709551616 by omega)]
    apply ih
    · exact wf_set _ _ _ hres (Nat.mod_lt _ (by decide))
    · rw [hB]; omega
    · rw [List.length_set]; omega

/-- One row of the schoolbook product: the carry that leaves it is zero. -/
theorem mul_row_spec (bot : List Nat) (hbot : ∀ x ∈ bot, x < BASE) (t : Nat) (ht : t < BASE)
    (i : Nat) (res : List Nat) (hres : ∀ x ∈ res, x < BASE)
    (hlen : i + bot.length + 1 ≤ res.length)
    (hbound : limbs_val res < BASE ^ (i + bot.length)) :
    (mul_inner t bot i (bot.length + 1) 0 res 0).2 = 0
    ∧ (mul_inner t bot i (bot.length + 1) 0 res 0).1.length = res.length
    ∧ (∀ y ∈ (mul_inner t bot i (bot.length + 1) 0 res 0).1, y < BASE)
    ∧ limbs_val (mul_inner t bot i (bot.length + 1) 0 res 0).1 < BASE ^ (i + 1 + bot.length) := by
  obtain ⟨h1, h2, h3, h4⟩ := mul_inner_spec t bot i ht hbot (bot.length + 1) 0 res 0 hres
    (by decide) (by omega)
  obtain ⟨r, hr⟩ : ∃ r, mul_inner t bot i (bot.length + 1) 0 res 0 = r := ⟨_, rfl⟩
  rw [hr] at h1 h2 h3 h4 ⊢
  rw [ext_val_limbs bot (bot.length + 1) (by omega)] at h4
  simp only [add_zero, zero_mul] at h4
  have hbl := limbs_val_lt bot hbot
  have hP : 0 < BASE ^ i := pow_pos (by decide) _
  have htot : limbs_val res + t * limbs_val bot * BASE ^ i < BASE ^ (i + bot.length + 1) := by
    have e1 : t * limbs_val bot ≤ (BASE - 1) * (BASE ^ bot.length - 1) := by
      apply Nat.mul_le_mul <;> omega
    have e2 : BASE ^ (i + bot.length) = BASE ^ i * BASE ^ bot.length := pow_add _ _ _
    have e3 : BASE ^ (i + bot.length + 1) = BASE ^ i * BASE ^ bot.length * BASE := by
      rw [pow_succ, e2]
    have e4 : 1 ≤ BASE ^ bot.length := Nat.one_le_pow _ _ (by decide)
    have e5 : 1 ≤ BASE := by decide
    rw [e3]
    rw [e2] at hbound
    have e6 : t * limbs_val bot * BASE ^ i ≤ (BASE - 1) * (BASE ^ bot.length - 1) * BASE ^ i :=
      Nat.mul_le_mul_right _ e1
    have e7 : (BASE - 1) * (BASE ^ bot.length - 1) * BASE ^ i + BASE ^ i * BASE ^ bot.length
        ≤ BASE ^ i * BASE ^ bot.length * BASE := by
      zify [e4, e5]
      have hX : (0 : Int) ≤ (BASE : Int) ^ i := pow_nonneg (by decide) _
      have hB1 : (0 : Int) ≤ (BASE : Int) - 1 := by decide
      nlinarith [mul_nonneg hX hB1]
    omega
  have hr0 : r.2 = 0 := by
    by_contra hne
    have : 1 ≤ r.2 := Nat.one_le_iff_ne_zero.mpr hne
    have e : i + (bot.length + 1) = i + bot.length + 1 := by ring
    rw [e] at h4
    have : BASE ^ (i + bot.length + 1) ≤ r.2 * BASE ^ (i + bot.length + 1) :=
      Nat.le_mul_of_pos_left _ (by omega)
    omega
  rw [hr0] at h4
  simp only [zero_mul, add_zero] at h4
  refine ⟨hr0, h1, h2, ?_⟩
  have e : i + 1 + bot.length = i + bot.length + 1 := by ring
  rw [e, h4]; exact htot

theorem mul_outer_checked_eq (bot : List Nat) (hbot : ∀ x ∈ bot, x < BASE) (ts : List Nat)
    (hts : ∀ x ∈ ts, x < BASE) (i : Nat) (res : List Nat) (hres : ∀ x ∈ res, x < BASE)
    (hlen : i + ts.length + bot.length ≤ res.length)
    (hbound : limbs_val res < BASE ^ (i + bot.length)) :
    mul_outer_checked bot i ts res 0 = some (mul_outer bot i ts res 0)
    ∧ (mul_outer bot i ts res 0).2 = 0 := by
  induction ts generalizing i res with
  | nil => exact ⟨rfl, rfl⟩
  | cons t ts ih =>
    have ht : t < BASE := hts t (by simp)
    have hts1 : ∀ y ∈ ts, y < BASE := fun y hy => hts y (by simp [hy])
    have hlen1 : i + bot.length + 1 ≤ res.length := by simp at hlen; omega
    have hc := mul_inner_checked_eq t bot i ht hbot (bot.length + 1) 0 res 0 hres (by decide)
      (by omega)
    obtain ⟨g0, g1, g2, g3⟩ := mul_row_spec bot hbot t ht i res hres hlen1 hbound
    simp only [mul_outer_checked, mul_outer, hc]
    obtain ⟨r, hr⟩ : ∃ r, mul_inner t bot i (bot.length + 1) 0 res 0 = r := ⟨_, rfl⟩
    rw [hr] at g0 g1 g2 g3 ⊢
    rw [if_pos g0, g0]
    exact ih hts1 (i + 1) r.1 g2 (by simp at hlen; rw [g1]; omega) g3

end Bigint

namespace Bigint

/-! ## What `remove_leading` keeps -/

theorem remove_leading_structure (a : big_integer) :
    (∃ k, a.arr = a.arr.rdropWhile (fun x => x == get_complement a)
        ++ List.replicate k (get_complement a))
    ∧ (a.arr.rdropWhile (fun x => x == get_complement a) ≠ [] →
        remove_leading a = ⟨a.arr.rdropWhile (fun x => x == get_complement a), a.is_neg⟩
        ∧ (a.arr.rdropWhile (fun x => x == get_complement a)).getLast?
            ≠ some (get_complement a))
    ∧ (a.arr.rdropWhile (fun x => x == get_complement a) = [] →
        remove_leading a = if a.is_neg then ⟨[UINT32_MAX], true⟩ else zero) := by
  refine ⟨rdropWhile_eq_append _ _, fun hne => ?_, fun hnil => ?_⟩
  · constructor
    · unfold remove_leading
      simp only
      rw [if_neg]
      intro h
      exact hne (by simpa using h.1)
    · intro hl
      have hlast := List.rdropWhile_last_not (fun x => x == get_complement a) a.arr hne
      rw [List.getLast?_eq_getLast _ hne] at hl
      have := Option.some.inj hl
      simp [this] at hlast
  · unfold remove_leading
    simp only [hnil]
    obtain ⟨arr, s⟩ := a
    cases s
    · simp [get_complement, zero]
    · simp [get_complement, UINT32_MAX]

end Bigint

namespace Bigint

/-! ## The claims, last part -/

/-- Claim C31 fails on the code: `-2^32` (one limb) and `2^32` (two limbs) are
canonical, the divisor stores more limbs, yet the magnitudes are equal; the
shortcut returns quotient 0 and remainder `-2^32`, whereas truncating division
gives `-1` and `0`. -/
theorem C31_fast_path_equal_magnitudes :
    canonical ⟨[0], true⟩ ∧ canonical ⟨[0, 1], false⟩
    ∧ (⟨[0, 1], false⟩ : big_integer).arr.length > (⟨[0], true⟩ : big_integer).arr.length
    ∧ |value ⟨[0], true⟩| = |value ⟨[0, 1], false⟩|
    ∧ div ⟨[0], true⟩ ⟨[0, 1], false⟩ = .done (of_signed 0)
    ∧ mod ⟨[0], true⟩ ⟨[0, 1], false⟩ = .done ⟨[0], true⟩
    ∧ Int.tdiv (value ⟨[0], true⟩) (value ⟨[0, 1], false⟩) = -1
    ∧ Int.tmod (value ⟨[0], true⟩) (value ⟨[0, 1], false⟩) = 0 := by
  decide

/-- Claim C32 fails on the code: in `2^95 / (2^63 + 2^32 - 1)` the scale is 1
and the window `0, 0, 2^31` at `j = 0` has the top limb of the divisor; the
divisor has its top bit set and the window is below the divisor times `2^32`,
the true digit is `4294967294`, and `get_trialed_quot` returns 0, so the
quotient comes out as 0. -/
theorem C32_trial_quotient_truncated :
    (UINT32_MAX + 1) / (([4294967295, 2147483648] : List Nat).getLastD 0 + 1) % BASE = 1
    ∧ 2147483648 ≤ ([4294967295, 2147483648] : List Nat).getLastD 0
    ∧ limbs_val [0, 0, 2147483648] < limbs_val [4294967295, 2147483648] * BASE
    ∧ limbs_val [0, 0, 2147483648] / limbs_val [4294967295, 2147483648] = 4294967294
    ∧ get_trialed_quot [0, 0, 2147483648, 0] (UINT32_MAX + 1) 0 2 [4294967295, 2147483648] = 0
    ∧ value ⟨[0, 0, 2147483648], false⟩ = 39614081257132168796771975168
    ∧ value ⟨[4294967295, 2147483648], false⟩ = 9223372041149743103
    ∧ div ⟨[0, 0, 2147483648], false⟩ ⟨[4294967295, 2147483648], false⟩ = .done (of_signed 0)
    ∧ Int.tdiv 39614081257132168796771975168 9223372041149743103 = 4294967294 := by
  decide

/-- Claim C33 fails on the code: in `2^95 % (2^95 + 2^31)` the trial digit 1
makes the subtraction borrow; the add-back then gives the window
`0, 0xFFFFFFFF, 0x7FFFFFFF, 0xFFFFFFFF` instead of the sum modulo `2^128`, which
is `0, 0, 0x80000000, 0`: no carry has moved and the top limb is not 0. -/
theorem C33_add_back_without_carry :
    get_trialed_quot [0, 0, 2147483648, 0] (UINT32_MAX + 1) 0 3 [2147483648, 0, 2147483648] = 1
    ∧ sub_from_current_prefix 3 [2147483648, 0, 2147483648] 1 0 4 0 [0, 0, 2147483648, 0] 0 0
        = ([2147483648, 4294967295, 4294967295, 4294967295], 1)
    ∧ sub_q_if_overflows 3 0 1 [2147483648, 4294967295, 4294967295, 4294967295] [1]
          [2147483648, 0, 2147483648]
        = ([0, 4294967295, 2147483647, 4294967295], [0])
    ∧ (limbs_val [2147483648, 4294967295, 4294967295, 4294967295]
          + limbs_val [2147483648, 0, 2147483648]) % BASE ^ 4
        = limbs_val [0, 0, 2147483648, 0]
    ∧ limbs_val [0, 4294967295, 2147483647, 4294967295] ≠ limbs_val [0, 0, 2147483648, 0]
    ∧ ([0, 4294967295, 2147483647, 4294967295] : List Nat).getLastD 0 = 4294967295 := by
  decide

/-- Claim C34: for a divisor magnitude `v` of `n ≥ 2` limbs with top limb
`t ≥ 1`, the scale `d` of `knut_div` is `floor(2^32 / (t + 1))`, lies in
`1 .. 2^32 - 1`, and `v.small_mul(d)` has value `v * d`, exactly `n` limbs and a
top limb of at least `2^31`; the dividend magnitude times `d` has at most one
limb more than before. -/
theorem C34_normalization_scale (v u : big_integer) (hv : wf v) (hvs : v.is_neg = false)
    (hn : 2 ≤ v.arr.length) (ht : 1 ≤ v.arr.getLastD 0) (hu : wf u) (hus : u.is_neg = false) :
    (UINT32_MAX + 1) / (v.arr.getLastD 0 + 1) % BASE = 4294967296 / (v.arr.getLastD 0 + 1)
    ∧ 1 ≤ (UINT32_MAX + 1) / (v.arr.getLastD 0 + 1) % BASE
    ∧ (UINT32_MAX + 1) / (v.arr.getLastD 0 + 1) % BASE < BASE
    ∧ value (small_mul v ((UINT32_MAX + 1) / (v.arr.getLastD 0 + 1) % BASE))
        = value v * ((UINT32_MAX + 1) / (v.arr.getLastD 0 + 1) % BASE : Nat)
    ∧ (small_mul v ((UINT32_MAX + 1) / (v.arr.getLastD 0 + 1) % BASE)).arr.length
        = v.arr.length
    ∧ 2147483648
        ≤ (small_mul v ((UINT32_MAX + 1) / (v.arr.getLastD 0 + 1) % BASE)).arr.getLastD 0
    ∧ value (small_mul u ((UINT32_MAX + 1) / (v.arr.getLastD 0 + 1) % BASE))
        = value u * ((UINT32_MAX + 1) / (v.arr.getLastD 0 + 1) % BASE : Nat)
    ∧ (small_mul u ((UINT32_MAX + 1) / (v.arr.getLastD 0 + 1) % BASE)).arr.length
        ≤ u.arr.length + 1 :=
  normalization_scale v u hv hvs hn ht hu hus

/-- Witness of C34: the divisor `2^32 + 3` (top limb 1, scale `2^31`) and the
dividend `2^64 - 1`. -/
theorem C34_normalization_scale_witness :
    wf ⟨[3, 1], false⟩ ∧ wf ⟨[4294967295, 4294967295], false⟩
    ∧ (small_mul ⟨[3, 1], false⟩
        ((UINT32_MAX + 1) / ((⟨[3, 1], false⟩ : big_integer).arr.getLastD 0 + 1) % BASE)).arr.length
        = (⟨[3, 1], false⟩ : big_integer).arr.length
    ∧ 2147483648 ≤ (small_mul ⟨[3, 1], false⟩
        ((UINT32_MAX + 1) / ((⟨[3, 1], false⟩ : big_integer).arr.getLastD 0 + 1) % BASE)).arr.getLastD 0
    ∧ (small_mul ⟨[4294967295, 4294967295], false⟩
        ((UINT32_MAX + 1) / ((⟨[3, 1], false⟩ : big_integer).arr.getLastD 0 + 1) % BASE)).arr.length
        ≤ (⟨[4294967295, 4294967295], false⟩ : big_integer).arr.length + 1 :=
  ⟨by decide, by decide,
    (C34_normalization_scale ⟨[3, 1], false⟩ ⟨[4294967295, 4294967295], false⟩ (by decide) rfl
      (by decide) (by decide) (by decide) rfl).2.2.2.2.1,
    (C34_normalization_scale ⟨[3, 1], false⟩ ⟨[4294967295, 4294967295], false⟩ (by decide) rfl
      (by decide) (by decide) (by decide) rfl).2.2.2.2.2.1,
    (C34_normalization_scale ⟨[3, 1], false⟩ ⟨[4294967295, 4294967295], false⟩ (by decide) rfl
      (by decide) (by decide) (by decide) rfl).2.2.2.2.2.2.2⟩

/-- Claim C35: for a non-negative `x` with 32-bit limbs (trailing zero limbs
allowed) and `num ≥ 1`, `div_with_rem(num)` leaves the canonical number of value
`floor(value x / num)` and returns `value x mod num`; every limb the first loop
reads is still the limb of `x`, and every limb the compaction loop moves down
is still the quotient digit the first loop wrote. -/
theorem C35_div_with_rem (x : big_integer) (num : Nat) (hx : wf x) (hs : x.is_neg = false)
    (hnum : 1 ≤ num) :
    value (div_with_rem x num).1 = value x / num
    ∧ ((div_with_rem x num).2 : Int) = value x % num
    ∧ canonical (div_with_rem x num).1
    ∧ (div_with_rem x num).1.is_neg = false
    ∧ div_with_rem_loop_checked num x.arr.length x.arr x.arr.length x.arr 0 x.arr.length
        = some (div_with_rem_loop num x.arr.length x.arr.length x.arr 0 x.arr.length)
    ∧ (∀ r, div_with_rem_loop num x.arr.length x.arr.length x.arr 0 x.arr.length = r →
        div_with_rem_swap_checked r.1 r.2.2 (x.arr.length - r.2.2) r.2.2 r.1
          = some (div_with_rem_swap r.2.2 (x.arr.length - r.2.2) r.2.2 r.1)) :=
  ⟨(div_with_rem_spec x num hx hs hnum).2.2.1, (div_with_rem_spec x num hx hs hnum).2.2.2,
    div_with_rem_canonical x num hx hs hnum, (div_with_rem_spec x num hx hs hnum).2.1,
    div_with_rem_loop_checked_eq num x.arr.length x.arr x.arr.length x.arr 0 x.arr.length
      (le_refl _) (fun _ _ => rfl),
    fun r _ => div_with_rem_swap_checked_eq r.1 r.2.2 (x.arr.length - r.2.2) r.2.2 r.1
      (fun _ _ => rfl)⟩

/-- Witness of C35: `2^32 + 5` stored with two trailing zero limbs, divided by 7. -/
theorem C35_div_with_rem_witness :
    wf ⟨[5, 1, 0, 0], false⟩
    ∧ value (div_with_rem ⟨[5, 1, 0, 0], false⟩ 7).1 = value ⟨[5, 1, 0, 0], false⟩ / 7
    ∧ ((div_with_rem ⟨[5, 1, 0, 0], false⟩ 7).2 : Int) = value ⟨[5, 1, 0, 0], false⟩ % 7
    ∧ canonical (div_with_rem ⟨[5, 1, 0, 0], false⟩ 7).1 :=
  ⟨by decide, (C35_div_with_rem ⟨[5, 1, 0, 0], false⟩ 7 (by decide) rfl (by decide)).1,
    (C35_div_with_rem ⟨[5, 1, 0, 0], false⟩ 7 (by decide) rfl (by decide)).2.1,
    (C35_div_with_rem ⟨[5, 1, 0, 0], false⟩ 7 (by decide) rfl (by decide)).2.2.1⟩

/-- Claim C36: `remove_leading` keeps the value and the sign flag, strips exactly
the trailing limbs equal to the complement word, keeps the one limb
`0xFFFFFFFF` (value `-1`) when that empties a negative number, gives a canonical
number when the limbs are 32-bit words, and applied twice is the same as once. -/
theorem C36_remove_leading (a : big_integer) :
    value (remove_leading a) = value a
    ∧ (remove_leading a).is_neg = a.is_neg
    ∧ (wf a → canonical (remove_leading a))
    ∧ remove_leading (remove_leading a) = remove_leading a
    ∧ (∃ k, a.arr = a.arr.rdropWhile (fun x => x == get_complement a)
        ++ List.replicate k (get_complement a))
    ∧ (a.arr.rdropWhile (fun x => x == get_complement a) ≠ [] →
        remove_leading a = ⟨a.arr.rdropWhile (fun x => x == get_complement a), a.is_neg⟩
        ∧ (a.arr.rdropWhile (fun x => x == get_complement a)).getLast?
            ≠ some (get_complement a))
    ∧ (a.arr.rdropWhile (fun x => x == get_complement a) = [] →
        remove_leading a = if a.is_neg then ⟨[UINT32_MAX], true⟩ else zero)
    ∧ value ⟨[UINT32_MAX], true⟩ = -1 :=
  ⟨value_remove_leading a, is_neg_remove_leading a, canonical_remove_leading a,
    remove_leading_idem a, (remove_leading_structure a).1, (remove_leading_structure a).2.1,
    (remove_leading_structure a).2.2, by decide⟩

/-- Witness of C36: a negative number whose limbs are all `0xFFFFFFFF`. -/
theorem C36_remove_leading_witness :
    wf ⟨[4294967295, 4294967295, 4294967295], true⟩
    ∧ canonical (remove_leading ⟨[4294967295, 4294967295, 4294967295], true⟩)
    ∧ remove_leading ⟨[4294967295, 4294967295, 4294967295], true⟩ = ⟨[UINT32_MAX], true⟩ :=
  ⟨by decide,
    (C36_remove_leading ⟨[4294967295, 4294967295, 4294967295], true⟩).2.2.1 (by decide),
    (C36_remove_leading ⟨[4294967295, 4294967295, 4294967295], true⟩).2.2.2.2.2.2.1
      (by decide)⟩

/-- Claim C37: for all vectors `top` and `bot` of 32-bit limbs, the loops of
`operator*=` on a zeroed buffer of `|top| + |bot|` limbs never form a sum above
`2^64 - 1`, never index outside the buffer and end every row with carry zero
(the checked loops return what the plain loops return); the buffer then spells
the product. -/
theorem C37_mul_no_overflow (top bot : List Nat) (htop : ∀ x ∈ top, x < BASE)
    (hbot : ∀ x ∈ bot, x < BASE) :
    mul_outer_checked bot 0 top (List.replicate (top.length + bot.length) 0) 0
      = some (mul_outer bot 0 top (List.replicate (top.length + bot.length) 0) 0)
    ∧ (mul_outer bot 0 top (List.replicate (top.length + bot.length) 0) 0).2 = 0
    ∧ (mul_outer bot 0 top (List.replicate (top.length + bot.length) 0) 0).1.length
        = top.length + bot.length
    ∧ limbs_val (mul_outer bot 0 top (List.replicate (top.length + bot.length) 0) 0).1
        = limbs_val top * limbs_val bot := by
  have hres : ∀ x ∈ List.replicate (top.length + bot.length) 0, x < BASE := by
    intro x hx; rw [List.eq_of_mem_replicate hx]; decide
  obtain ⟨h1, h2⟩ := mul_outer_checked_eq bot hbot top htop 0 _ hres (by simp)
    (limbs_val_replicate_zero_lt _ _)
  obtain ⟨g1, _, g3⟩ := mul_outer_spec bot hbot top htop 0 _ hres (by simp)
    (limbs_val_replicate_zero_lt _ _)
  refine ⟨h1, h2, by rw [g1]; simp, ?_⟩
  rw [g3, limbs_val_replicate_zero]
  simp

/-- Witness of C37: all limbs `0xFFFFFFFF`, two limbs times one. -/
theorem C37_mul_no_overflow_witness :
    (∀ x ∈ [4294967295, 4294967295], x < BASE) ∧ (∀ x ∈ [4294967295], x < BASE)
    ∧ mul_outer_checked [4294967295] 0 [4294967295, 4294967295]
        (List.replicate (([4294967295, 4294967295] : List Nat).length
          + ([4294967295] : List Nat).length) 0) 0
      = some (mul_outer [4294967295] 0 [4294967295, 4294967295]
        (List.replicate (([4294967295, 4294967295] : List Nat).length
          + ([4294967295] : List Nat).length) 0) 0) :=
  ⟨by decide, by decide,
    (C37_mul_no_overflow [4294967295, 4294967295] [4294967295] (by decide) (by decide)).1⟩

/-- Claim C38: two canonical big integers have the same value exactly when
`operator==` returns true, that is when their sign flags and limb vectors are
the same. -/
theorem C38_unique_representation (a b : big_integer) (ha : canonical a) (hb : canonical b) :
    (value a = value b ↔ operator_eq a b = true)
    ∧ (operator_eq a b = true ↔ a.is_neg = b.is_neg ∧ a.arr = b.arr) := by
  refine ⟨⟨fun h => (operator_eq_iff a b).mpr (canonical_unique a b ha hb h),
    fun h => by rw [(operator_eq_iff a b).mp h]⟩, ?_⟩
  unfold operator_eq
  simp only [decide_eq_true_eq]

/-- Witness of C38: `2^32` built as `65536 * 65536` and given limb by limb. -/
theorem C38_unique_representation_witness :
    canonical (mul (of_signed 65536) (of_signed 65536)) ∧ canonical ⟨[0, 1], false⟩
    ∧ (value (mul (of_signed 65536) (of_signed 65536)) = value ⟨[0, 1], false⟩
        ↔ operator_eq (mul (of_signed 65536) (of_signed 65536)) ⟨[0, 1], false⟩ = true) :=
  ⟨by decide, by decide,
    (C38_unique_representation (mul (of_signed 65536) (of_signed 65536)) ⟨[0, 1], false⟩
      (by decide) (by decide)).1⟩

/-- Claim C39 fails on the code: for `1 / -4294967296` both operands store one
limb, so the limb-count shortcut is not taken; the magnitude of the divisor has
two limbs and that of the dividend one, `m` wraps to `2^32 - 1`, `q` is resized
to `m + 1 = 0` limbs and the first pass indexes `q.arr[m]` outside it. -/
theorem C39_limb_count_wraps :
    canonical (of_signed 1) ∧ canonical (of_signed (-4294967296))
    ∧ of_signed (-4294967296) ≠ of_signed 0
    ∧ (of_signed 1).arr.length = 1 ∧ (of_signed (-4294967296)).arr.length = 1
    ∧ (absolutify (of_signed (-4294967296))).arr.length = 2
    ∧ (absolutify (of_signed 1)).arr.length = 1
    ∧ ((absolutify (of_signed 1)).arr.length + 18446744073709551616 - 2)
        % 18446744073709551616 % BASE = 4294967295
    ∧ (resize zero ((4294967295 + 1) % BASE) 0).arr = []
    ∧ div (of_signed 1) (of_signed (-4294967296)) = .undefined
    ∧ mod (of_signed 1) (of_signed (-4294967296)) = .undefined := by
  decide

/-- Claim C40 fails on the code: `big_integer(1) << 0` is `1`, held in one
limb, and `>> 0` then takes the second branch of `operator>>=` with a bit count
`rhs % 32` of zero, where a `uint32_t` is shifted left by 32, which has no
defined result; the same for `(big_integer(-5) << 32) >> 32`. With 63 bits the
round trip returns `-5`. -/
theorem C40_round_trip_multiple_of_32 :
    canonical (of_signed 1) ∧ operator_shl (of_signed 1) 0 = ⟨[1], false⟩
    ∧ operator_shr (operator_shl (of_signed 1) 0) 0 = .undefined
    ∧ canonical (of_signed (-5))
    ∧ operator_shl (of_signed (-5)) 32 = ⟨[0, 4294967291], true⟩
    ∧ operator_shr (operator_shl (of_signed (-5)) 32) 32 = .undefined
    ∧ operator_shr (operator_shl (of_signed (-5)) 63) 63 = .done (of_signed (-5)) := by
  decide

end Bigint
